import Mathlib

/-!
# Queue operations of `queue.c` over an explicit pointer heap

The queue of `queue.c` is a circular doubly-linked list of `element_t` nodes
hanging off a sentinel `struct list_head`.  The embedding keeps the pointer
structure: a heap maps every address to the `next` and `prev` fields of the
`list_head` stored there, to the string its `value` field points to, and to
whether the block is currently allocated.  Every C function becomes a function
on heaps that performs the same field reads and writes in the same order; loops
become recursions on a fuel counter and return `none` when the fuel runs out.

`list_entry(p, element_t, list)` is pointer arithmetic between an element and
the `list_head` embedded in it; the embedding identifies the two addresses.
The `int` counter of `q_size` is a natural number; the theorems that run
`q_size` are stated for queues of at most `INT_MAX` elements.
-/

namespace Queue

/-! ## Heap -/

/-- An address; `0` is the `NULL` pointer. -/
abbrev Ptr := Nat

/-- The bytes of a C string, without its terminating `0`. -/
abbrev Str := List Nat

/-- Memory: the `next`/`prev` fields of the `list_head` at each address, the
string that the `value` field of the element at that address points to
(`none` when it is `NULL` or has been freed), and the allocation status. -/
structure Heap where
  next : Ptr → Ptr
  prev : Ptr → Ptr
  value : Ptr → Option Str
  live : Ptr → Bool

/-- Pointwise update of a field table. -/
def upd {β : Type} (f : Ptr → β) (p : Ptr) (v : β) : Ptr → β :=
  fun q => if q = p then v else f q

/-- The store `p->next = v`. -/
def Heap.setNext (h : Heap) (p v : Ptr) : Heap :=
  { h with next := upd h.next p v }

/-- The store `p->prev = v`. -/
def Heap.setPrev (h : Heap) (p v : Ptr) : Heap :=
  { h with prev := upd h.prev p v }

/-- The store `p->value = v`. -/
def Heap.setValue (h : Heap) (p : Ptr) (v : Option Str) : Heap :=
  { h with value := upd h.value p v }

/-- The string read through `p->value`; a `NULL` value (a read that is
undefined in C) is read as the empty string.  The theorems about code that
reads a value are stated for values that are not `NULL`. -/
def Heap.valueOf (h : Heap) (p : Ptr) : Str :=
  (h.value p).getD []

/-- Result of `malloc` returning the block at address `p`. -/
def malloc (h : Heap) (p : Ptr) : Heap :=
  { h with live := upd h.live p true }

/-- Result of `free(p)` on a node. -/
def free (h : Heap) (p : Ptr) : Heap :=
  { h with live := upd h.live p false }

/-! ## C string library -/

/-- Sign of `strcmp`: bytes are compared one by one as unsigned values, a
proper initial segment is smaller. -/
def strcmp : Str → Str → Int
  | [], [] => 0
  | [], _ :: _ => -1
  | _ :: _, [] => 1
  | a :: s, b :: t => if a < b then -1 else if b < a then 1 else strcmp s t

/-- Number of bytes before the terminator. -/
def strlen (s : Str) : Nat := s.length

/-- Result of `strdup(s)`: a fresh copy of `s`, or `NULL` when the allocation
fails (`ok = false`). -/
def strdup (ok : Bool) (s : Str) : Option Str :=
  if ok then some s else none

/-- Bytes that `strncpy(dst, src, n)` stores at `dst[0..n-1]`: the first `n`
bytes of `src`, padded with `0` up to length `n`. -/
def strncpy (src : Str) (n : Nat) : List Nat :=
  src.take n ++ List.replicate (n - src.length) 0

/-! ## `list.h` -/

/-- Modelled from the spec: `INIT_LIST_HEAD` of the missing header `list.h`;
an empty ring is a node pointing to itself in both directions. -/
def INIT_LIST_HEAD (h : Heap) (head : Ptr) : Heap :=
  (h.setNext head head).setPrev head head

/-- Modelled from the spec: `list_empty` of the missing header `list.h`;
the sentinel of an empty queue points to itself. -/
def list_empty (h : Heap) (head : Ptr) : Bool :=
  h.next head == head

/-- Modelled from the spec: `list_add` of the missing header `list.h`;
splices `node` immediately after the sentinel `head`. -/
def list_add (h : Heap) (node head : Ptr) : Heap :=
  let next := h.next head
  let h1 := h.setPrev next node
  let h2 := h1.setNext node next
  let h3 := h2.setPrev node head
  h3.setNext head node

/-- Modelled from the spec: `list_add_tail` of the missing header `list.h`;
splices `node` immediately before the sentinel `head`. -/
def list_add_tail (h : Heap) (node head : Ptr) : Heap :=
  let prev := h.prev head
  let h1 := h.setNext prev node
  let h2 := h1.setNext node head
  let h3 := h2.setPrev node prev
  h3.setPrev head node

/-- Modelled from the spec: `list_del` of the missing header `list.h`;
unlinks `node` by joining its two neighbours, the node keeps its own fields. -/
def list_del (h : Heap) (node : Ptr) : Heap :=
  let next := h.next node
  let prev := h.prev node
  let h1 := h.setPrev next prev
  h1.setNext prev next

/-! ## `queue.c` -/

/-- `q_new`; `m` is the address returned by `malloc` (`0` when it fails).
Returns the heap and the new sentinel. -/
def q_new (h : Heap) (m : Ptr) : Heap × Ptr :=
  if m = 0 then (h, 0)
  else (INIT_LIST_HEAD (malloc h m) m, m)

/-- `q_release_element`: frees the string, then the element. -/
def q_release_element (h : Heap) (e : Ptr) : Heap :=
  free (h.setValue e none) e

/-- Loop of `q_free` (`list_for_each_entry_safe`). -/
def q_free_loop : Nat → Heap → Ptr → Ptr → Ptr → Option Heap
  | 0, _, _, _, _ => none
  | fuel + 1, h, l, ele, ele_safe =>
    if ele ≠ l then
      let h1 := q_release_element h ele
      q_free_loop fuel h1 l ele_safe (h1.next ele_safe)
    else some h

/-- `q_free`. -/
def q_free (fuel : Nat) (h : Heap) (l : Ptr) : Option Heap :=
  if l = 0 then some h
  else
    match q_free_loop fuel h l (h.next l) (h.next (h.next l)) with
    | none => none
    | some h1 => some (free h1 l)

/-- `q_insert_head`; `ele` is the address returned by `malloc` (`0` when it
fails) and `ok` tells whether `strdup` succeeds.  Returns the heap and the
boolean result. -/
def q_insert_head (h : Heap) (head : Ptr) (s : Str) (ele : Ptr) (ok : Bool) :
    Heap × Bool :=
  if head = 0 then (h, false)
  else if ele = 0 then (h, false)
  else
    let h1 := (malloc h ele).setValue ele (strdup ok s)
    let h2 := INIT_LIST_HEAD h1 ele
    (list_add h2 ele head, true)

/-- `q_insert_tail`; same conventions as `q_insert_head`. -/
def q_insert_tail (h : Heap) (head : Ptr) (s : Str) (ele : Ptr) (ok : Bool) :
    Heap × Bool :=
  if head = 0 then (h, false)
  else if ele = 0 then (h, false)
  else
    let h1 := (malloc h ele).setValue ele (strdup ok s)
    let h2 := INIT_LIST_HEAD h1 ele
    (list_add_tail h2 ele head, true)

/-- What a removal hands back: the heap, the unlinked element (`0` for `NULL`)
and the bytes stored into the caller's buffer, from its first byte on (`none`
when nothing is stored).  The buffer is memory of the caller and not a node
of the heap. -/
structure Removal where
  heap : Heap
  node : Ptr
  out : Option (List Nat)

/-- `q_remove_head`; `sp` tells whether the buffer pointer is non-`NULL`.
The copy is defined in C when the value is not `NULL` and its `strlen + 1`
bytes fit the buffer (`CopyFits`); the theorems about a removal that copies
are stated under that condition. -/
def q_remove_head (h : Heap) (head : Ptr) (sp : Bool) (_bufsize : Nat) : Removal :=
  if head = 0 ∨ list_empty h head = true then ⟨h, 0, none⟩
  else
    let node := h.next head
    let h1 := list_del h (h.next head)
    if sp then ⟨h1, node, some (strncpy (h1.valueOf node) (strlen (h1.valueOf node) + 1))⟩
    else ⟨h1, node, none⟩

/-- `q_remove_tail`; `sp` tells whether the buffer pointer is non-`NULL`.
The copy is defined in C under the same condition as for `q_remove_head`. -/
def q_remove_tail (h : Heap) (head : Ptr) (sp : Bool) (_bufsize : Nat) : Removal :=
  if head = 0 ∨ list_empty h head = true then ⟨h, 0, none⟩
  else
    let node := h.prev head
    let h1 := list_del h (h.prev head)
    if sp then ⟨h1, node, some (strncpy (h1.valueOf node) (strlen (h1.valueOf node) + 1))⟩
    else ⟨h1, node, none⟩

/-- The largest value of a C `int`. -/
def INT_MAX : Nat := 2147483647

/-- Loop of `q_size` (`list_for_each`); the counter `len` is a C `int`, which
the natural number models as long as it does not exceed `INT_MAX`. -/
def q_size_loop (h : Heap) (head : Ptr) : Nat → Ptr → Nat → Option Nat
  | 0, _, _ => none
  | fuel + 1, ptr, len =>
    if ptr ≠ head then q_size_loop h head fuel (h.next ptr) (len + 1)
    else some len

/-- `q_size`. -/
def q_size (fuel : Nat) (h : Heap) (head : Ptr) : Option Nat :=
  if head = 0 then some 0
  else q_size_loop h head fuel (h.next head) 0

/-- The loop `while (step--) node = node->next;` of `q_delete_mid`. -/
def mid_walk (h : Heap) : Nat → Ptr → Ptr
  | 0, node => node
  | step + 1, node => mid_walk h step (h.next node)

/-- `q_delete_mid`. -/
def q_delete_mid (fuel : Nat) (h : Heap) (head : Ptr) : Option (Heap × Bool) :=
  if head = 0 ∨ list_empty h head = true then some (h, false)
  else
    match q_size fuel h head with
    | none => none
    | some n =>
      let node := mid_walk h (n / 2) (h.next head)
      let h1 := list_del h node
      some (q_release_element h1 node, true)

/-- Inner loop of `q_delete_dup`; returns the heap and the final `first`. -/
def dup_inner : Nat → Heap → Ptr → Ptr → Ptr → Option (Heap × Ptr)
  | 0, _, _, _, _ => none
  | fuel + 1, h, head, first, second =>
    if second ≠ 0 ∧ strcmp (h.valueOf first) (h.valueOf second) = 0 then
      let h1 := q_release_element (list_del h first) first
      let first1 := second
      let second1 := if h1.next first1 ≠ head then h1.next first1 else 0
      dup_inner fuel h1 head first1 second1
    else some (h, first)

/-- Outer loop of `q_delete_dup`. -/
def dup_outer : Nat → Heap → Ptr → Ptr → Option Heap
  | 0, _, _, _ => none
  | fuel + 1, h, head, ptr =>
    if ptr ≠ head ∧ h.next ptr ≠ head then
      let first := ptr
      let second := h.next ptr
      if strcmp (h.valueOf first) (h.valueOf second) = 0 then
        match dup_inner fuel h head first second with
        | none => none
        | some (h1, first1) =>
          let ptr1 := h1.next first1
          let h2 := q_release_element (list_del h1 first1) first1
          dup_outer fuel h2 head ptr1
      else dup_outer fuel h head (h.next ptr)
    else some h

/-- `q_delete_dup`. -/
def q_delete_dup (fuel : Nat) (h : Heap) (head : Ptr) : Option (Heap × Bool) :=
  if head = 0 then some (h, false)
  else
    match dup_outer fuel h head (h.next head) with
    | none => none
    | some h1 => some (h1, true)

/-- Loop of `q_swap`. -/
def q_swap_loop : Nat → Heap → Ptr → Ptr → Ptr → Option Heap
  | 0, _, _, _, _ => none
  | fuel + 1, h, head, first, second =>
    if first ≠ head ∧ second ≠ head then
      let h1 := h.setNext first (h.next second)
      let h2 := h1.setPrev (h1.next first) first
      let h3 := h2.setPrev second (h2.prev first)
      let h4 := h3.setNext (h3.prev second) second
      let h5 := h4.setPrev first second
      let h6 := h5.setNext second first
      let first1 := h6.next first
      let second1 := h6.next first1
      q_swap_loop fuel h6 head first1 second1
    else some h

/-- `q_swap`. -/
def q_swap (fuel : Nat) (h : Heap) (head : Ptr) : Option Heap :=
  if head = 0 ∨ list_empty h head = true then some h
  else q_swap_loop fuel h head (h.next head) (h.next (h.next head))

/-- The `do ... while (ptr != head)` loop of `q_reverse`. -/
def q_reverse_loop : Nat → Heap → Ptr → Ptr → Option Heap
  | 0, _, _, _ => none
  | fuel + 1, h, head, ptr =>
    let tmp := h.prev ptr
    let h1 := h.setPrev ptr (h.next ptr)
    let h2 := h1.setNext ptr tmp
    let ptr1 := h2.prev ptr
    if ptr1 ≠ head then q_reverse_loop fuel h2 head ptr1 else some h2

/-- `q_reverse`. -/
def q_reverse (fuel : Nat) (h : Heap) (head : Ptr) : Option Heap :=
  if head = 0 ∨ list_empty h head = true then some h
  else q_reverse_loop fuel h head head

/-- The store `*ptr = v` of `merge_two_lists`, where `ptr` is either the
address of the local variable `head` (`none`) or of the `next` field of a
node (`some p`).  Returns the heap and the local `head`. -/
def store_indirect (h : Heap) (head : Ptr) (ptr : Option Ptr) (v : Ptr) : Heap × Ptr :=
  match ptr with
  | none => (h, v)
  | some p => (h.setNext p v, head)

/-- State of the loop of `merge_two_lists`. -/
structure MergeState where
  heap : Heap
  head : Ptr
  ptr : Option Ptr
  L1 : Ptr
  L2 : Ptr

/-- The `for` loop of `merge_two_lists`. -/
def merge_loop : Nat → MergeState → Option MergeState
  | 0, _ => none
  | fuel + 1, s =>
    if s.L1 ≠ 0 ∧ s.L2 ≠ 0 then
      let left : Bool := decide (strcmp (s.heap.valueOf s.L1) (s.heap.valueOf s.L2) ≤ 0)
      let node := if left then s.L1 else s.L2
      let st := store_indirect s.heap s.head s.ptr node
      let nxt := st.1.next node
      if left then merge_loop fuel ⟨st.1, st.2, some node, nxt, s.L2⟩
      else merge_loop fuel ⟨st.1, st.2, some node, s.L1, nxt⟩
    else some s

/-- `merge_two_lists`; returns the heap and the first node of the merged
chain. -/
def merge_two_lists (fuel : Nat) (h : Heap) (L1 L2 : Ptr) : Option (Heap × Ptr) :=
  match merge_loop fuel ⟨h, 0, none, L1, L2⟩ with
  | none => none
  | some s =>
    if s.L1 ≠ 0 then some (store_indirect s.heap s.head s.ptr s.L1)
    else some (store_indirect s.heap s.head s.ptr s.L2)

/-- The slow/fast `for` loop of `mergesort_list`; returns the final `slow`. -/
def split_loop (h : Heap) : Nat → Ptr → Ptr → Option Ptr
  | 0, _, _ => none
  | fuel + 1, slow, fast =>
    if fast ≠ 0 ∧ h.next fast ≠ 0 then
      split_loop h fuel (h.next slow) (h.next (h.next fast))
    else some slow

/-- `mergesort_list`; returns the heap and the first node of the sorted
chain. -/
def mergesort_list : Nat → Heap → Ptr → Option (Heap × Ptr)
  | 0, _, _ => none
  | fuel + 1, h, head =>
    if head = 0 ∨ h.next head = 0 then some (h, head)
    else
      match split_loop h fuel head (h.next head) with
      | none => none
      | some slow =>
        let mid := h.next slow
        let h1 := h.setNext slow 0
        match mergesort_list fuel h1 head with
        | none => none
        | some (h2, left) =>
          match mergesort_list fuel h2 mid with
          | none => none
          | some (h3, right) => merge_two_lists fuel h3 left right

/-- The `for` loop of `q_sort` that restores the `prev` links; returns the
heap and the final `ptr`. -/
def relink_loop : Nat → Heap → Ptr → Option (Heap × Ptr)
  | 0, _, _ => none
  | fuel + 1, h, ptr =>
    if ptr ≠ 0 ∧ h.next ptr ≠ 0 then
      relink_loop fuel (h.setPrev (h.next ptr) ptr) (h.next ptr)
    else some (h, ptr)

/-- `q_sort`. -/
def q_sort (fuel : Nat) (h : Heap) (head : Ptr) : Option Heap :=
  if head = 0 ∨ list_empty h head = true then some h
  else
    let h1 := h.setNext (h.prev head) 0
    match mergesort_list fuel h1 (h1.next head) with
    | none => none
    | some (h2, sorted) =>
      let h3 := h2.setNext head sorted
      match relink_loop fuel h3 head with
      | none => none
      | some (h4, ptr) =>
        let h5 := h4.setNext ptr head
        some (h5.setPrev head ptr)

/-! ## Well-formed queues -/

/-- Following `nx` from `a` visits exactly the nodes of the list, in order,
and then arrives at `b`. -/
def Seg (nx : Ptr → Ptr) : Ptr → List Ptr → Ptr → Prop
  | a, [], b => a = b
  | a, x :: xs, b => a = x ∧ Seg nx (nx x) xs b

instance Seg.decide (nx : Ptr → Ptr) : (a : Ptr) → (l : List Ptr) → (b : Ptr) →
    Decidable (Seg nx a l b)
  | a, [], b => inferInstanceAs (Decidable (a = b))
  | a, x :: xs, b =>
    match Seg.decide nx (nx x) xs b with
    | isTrue ht =>
      if hx : a = x then isTrue ⟨hx, ht⟩ else isFalse (fun hc => hx hc.1)
    | isFalse hf => isFalse (fun hc => hf hc.2)

/-- The queue with sentinel `head` holds the elements `xs`, from the first to
the last: the sentinel and the elements are distinct allocated non-null nodes,
the `next` links lead from the sentinel through `xs` back to the sentinel, and
the `prev` links lead through `xs` backwards. -/
def Ring (h : Heap) (head : Ptr) (xs : List Ptr) : Prop :=
  head ≠ 0 ∧ (head :: xs).Nodup ∧ 0 ∉ xs ∧
  Seg h.next (h.next head) xs head ∧
  Seg h.prev (h.prev head) xs.reverse head ∧
  ∀ p ∈ head :: xs, h.live p = true

instance Ring.decide (h : Heap) (head : Ptr) (xs : List Ptr) : Decidable (Ring h head xs) := by
  unfold Ring; infer_instance

/-- The values of the elements `xs`, as stored in the heap. -/
def Heap.values (h : Heap) (xs : List Ptr) : List Str :=
  xs.map h.valueOf

/-- Order used by `merge_two_lists` on two nodes: `strcmp` of the values is
not positive. -/
def Heap.le (h : Heap) (a b : Ptr) : Bool :=
  decide (strcmp (h.valueOf a) (h.valueOf b) ≤ 0)

/-- A small queue used to instantiate the theorems: sentinel `1`, elements
`2, 3, 4` holding `"c"`, `"a"`, `"a"`. -/
def demo : Heap where
  next := fun p => if p = 1 then 2 else if p = 2 then 3 else if p = 3 then 4 else if p = 4 then 1 else 0
  prev := fun p => if p = 1 then 4 else if p = 2 then 1 else if p = 3 then 2 else if p = 4 then 3 else 0
  value := fun p => if p = 2 then some [99] else if p = 3 then some [97] else if p = 4 then some [97] else none
  live := fun p => decide (1 ≤ p ∧ p ≤ 4)

/-- The heap with the roles of `next` and `prev` exchanged. -/
def Heap.flip (h : Heap) : Heap :=
  { h with next := h.prev, prev := h.next }

/-! ## Auxiliary definitions -/

/-- The heap in which every node of `S` has its `next` and `prev` fields
exchanged. -/
def Heap.swapOn (h : Heap) (S : List Ptr) : Heap :=
  { h with
    next := fun q => if q ∈ S then h.prev q else h.next q
    prev := fun q => if q ∈ S then h.next q else h.prev q }

/-- The list `[x2, x1, x4, x3, ...]` obtained from `[x1, x2, x3, x4, ...]` by
exchanging the members of each adjacent pair; a last unpaired member stays. -/
def swapPairs : List Ptr → List Ptr
  | a :: b :: l => b :: a :: swapPairs l
  | l => l

/-- A queue used to instantiate the theorems: sentinel `n + 1`, elements
`1, ..., n` in this order, with the values given by `val`. -/
def ringUpTo (n : Nat) (val : Ptr → Option Str) : Heap where
  next := fun p => if p = n + 1 then 1 else if 1 ≤ p ∧ p ≤ n then p + 1 else 0
  prev := fun p => if p = 1 then n + 1 else if 2 ≤ p ∧ p ≤ n + 1 then p - 1 else 0
  value := val
  live := fun p => decide (1 ≤ p ∧ p ≤ n + 1)

/-- The elements of a list whose value differs from the values of both of
their neighbours; `p` is the value in front of the list, if there is one. -/
def keepLonely (v : Ptr → Str) : Option Str → List Ptr → List Ptr
  | _, [] => []
  | p, x :: l =>
    if p = some (v x) ∨ l.head?.map v = some (v x) then keepLonely v (some (v x)) l
    else x :: keepLonely v (some (v x)) l

/-- Values `"a", "a", "b", "c", "c", "c"` for the elements `1, ..., 6`. -/
def dupValues : Ptr → Option Str :=
  fun p => if p = 1 ∨ p = 2 then some [97] else if p = 3 then some [98]
    else if 4 ≤ p ∧ p ≤ 6 then some [99] else none

/-- The statements of `merge_two_lists` after its loop: the rest of the list
that is not exhausted is stored through `ptr`. -/
def merge_finish (s : MergeState) : Heap × Ptr :=
  if s.L1 ≠ 0 then store_indirect s.heap s.head s.ptr s.L1
  else store_indirect s.heap s.head s.ptr s.L2

/-- One call made on a queue: an insertion at either end (with the
string and the block `malloc` hands out; `strdup` succeeds) or a removal at
either end (with the buffer arguments). -/
inductive Op where
  | insertHead (s : Str) (ele : Ptr)
  | insertTail (s : Str) (ele : Ptr)
  | removeHead (sp : Bool) (bufsize : Nat)
  | removeTail (sp : Bool) (bufsize : Nat)

/-- The heap after one call. -/
def Op.run (h : Heap) (head : Ptr) : Op → Heap
  | .insertHead s ele => (q_insert_head h head s ele true).1
  | .insertTail s ele => (q_insert_tail h head s ele true).1
  | .removeHead sp bufsize => (q_remove_head h head sp bufsize).heap
  | .removeTail sp bufsize => (q_remove_tail h head sp bufsize).heap

/-- The heap after a sequence of calls, made one after the other. -/
def runOps (h : Heap) (head : Ptr) : List Op → Heap
  | [] => h
  | op :: ops => runOps (op.run h head) head ops

/-- The block that `malloc` hands out to an insertion is not `NULL` and was
not in use. -/
def Op.allocOk (h : Heap) : Op → Prop
  | .insertHead _ ele => ele ≠ 0 ∧ h.live ele = false
  | .insertTail _ ele => ele ≠ 0 ∧ h.live ele = false
  | .removeHead _ _ => True
  | .removeTail _ _ => True

instance Op.allocOk_decide (h : Heap) (op : Op) : Decidable (op.allocOk h) := by
  cases op <;> unfold Op.allocOk <;> infer_instance

/-- Every allocation of the sequence succeeds with a block not in use at the
time of the call. -/
def AllocOk (h : Heap) (head : Ptr) : List Op → Prop
  | [] => True
  | op :: ops => op.allocOk h ∧ AllocOk (op.run h head) head ops

instance AllocOk_decide : (h : Heap) → (head : Ptr) → (ops : List Op) →
    Decidable (AllocOk h head ops)
  | _, _, [] => isTrue trivial
  | h, head, op :: ops =>
    match Op.allocOk_decide h op, AllocOk_decide (op.run h head) head ops with
    | isTrue h1, isTrue h2 => isTrue ⟨h1, h2⟩
    | isFalse h1, _ => isFalse (fun hc => h1 hc.1)
    | _, isFalse h2 => isFalse (fun hc => h2 hc.2)

/-- The copy that a removal of the element `x` makes is defined in C and
stays inside the caller's buffer: either no buffer is given, or the value of
`x` is not `NULL` and fits, with its terminator, into `bufsize` bytes. -/
def CopyFits (h : Heap) (x : Ptr) (sp : Bool) (bufsize : Nat) : Prop :=
  sp = true → h.value x ≠ none ∧ strlen (h.valueOf x) + 1 ≤ bufsize

instance CopyFits_decide (h : Heap) (x : Ptr) (sp : Bool) (bufsize : Nat) :
    Decidable (CopyFits h x sp bufsize) := by
  unfold CopyFits; infer_instance

/-- The copy made by a call is defined and stays inside the buffer: a removal
either finds the queue empty (and copies nothing) or removes an element whose
value fits the buffer it is given. -/
def Op.copyOk (h : Heap) (head : Ptr) : Op → Prop
  | .insertHead _ _ => True
  | .insertTail _ _ => True
  | .removeHead sp bufsize => list_empty h head = true ∨ CopyFits h (h.next head) sp bufsize
  | .removeTail sp bufsize => list_empty h head = true ∨ CopyFits h (h.prev head) sp bufsize

instance Op.copyOk_decide (h : Heap) (head : Ptr) (op : Op) : Decidable (op.copyOk h head) := by
  cases op <;> unfold Op.copyOk <;> infer_instance

/-- Every copy of the sequence is defined and stays inside its buffer, at the
time of the call. -/
def CopyOk (h : Heap) (head : Ptr) : List Op → Prop
  | [] => True
  | op :: ops => op.copyOk h head ∧ CopyOk (op.run h head) head ops

instance CopyOk_decide : (h : Heap) → (head : Ptr) → (ops : List Op) →
    Decidable (CopyOk h head ops)
  | _, _, [] => isTrue trivial
  | h, head, op :: ops =>
    match Op.copyOk_decide h head op, CopyOk_decide (op.run h head) head ops with
    | isTrue h1, isTrue h2 => isTrue ⟨h1, h2⟩
    | isFalse h1, _ => isFalse (fun hc => h1 hc.1)
    | _, isFalse h2 => isFalse (fun hc => h2 hc.2)

/-- Whether a call is an insertion. -/
def Op.isInsert : Op → Bool
  | .insertHead _ _ => true
  | .insertTail _ _ => true
  | .removeHead _ _ => false
  | .removeTail _ _ => false

/-- The size the specification announces after a sequence of calls: the number
of insertions minus the number of removals, and `0` when that is negative. -/
def claimedSize (ops : List Op) : Nat :=
  ops.countP Op.isInsert - ops.countP (fun op => !op.isInsert)

/-- The size after one more call: one more after an insertion, one less after
a removal that finds an element, still `0` after a removal on an empty
queue. -/
def stepSize (n : Nat) (op : Op) : Nat :=
  if op.isInsert then n + 1 else n - 1

/-- The size after a sequence of calls on a queue of `n` elements, followed
call by call. -/
def trackedSize (n : Nat) (ops : List Op) : Nat :=
  ops.foldl stepSize n

/-- A heap in which nothing is allocated. -/
def blank : Heap where
  next := fun _ => 0
  prev := fun _ => 0
  value := fun _ => none
  live := fun _ => false

/-- A queue with one element, used to show what the removals store: sentinel
`1`, element `2` holding `"abc"`. -/
def abcQueue : Heap where
  next := fun p => if p = 1 then 2 else if p = 2 then 1 else 0
  prev := fun p => if p = 1 then 2 else if p = 2 then 1 else 0
  value := fun p => if p = 2 then some [97, 98, 99] else none
  live := fun p => decide (1 ≤ p ∧ p ≤ 2)

/-- Ring closure at the nodes of `l`: `n.next.prev == n` and
`n.prev.next == n` for each of them. -/
def Closed (h : Heap) (l : List Ptr) : Prop :=
  ∀ n ∈ l, h.prev (h.next n) = n ∧ h.next (h.prev n) = n

/-- The sentinel `head` closes a well-formed ring, and the ring closure holds
at the sentinel and at every element. -/
def RingClosed (h : Heap) (head : Ptr) : Prop :=
  ∃ ys, Ring h head ys ∧ Closed h (head :: ys)

/-- Values `"a", "b", "b", "a"` for the elements `1, ..., 4`. -/
def abbaValues : Ptr → Option Str :=
  fun p => if p = 1 ∨ p = 4 then some [97] else if p = 2 ∨ p = 3 then some [98] else none

/-! # Verification -/

/-! ## Field tables -/

@[simp] theorem upd_same {β : Type} (f : Ptr → β) (p : Ptr) (v : β) : upd f p v p = v := by
  simp [upd]

theorem upd_ne {β : Type} (f : Ptr → β) {p q : Ptr} (v : β) (hq : q ≠ p) : upd f p v q = f q := by
  simp [upd, hq]

theorem upd_apply {β : Type} (f : Ptr → β) (p q : Ptr) (v : β) :
    upd f p v q = if q = p then v else f q := rfl

@[simp] theorem setNext_next (h : Heap) (p v : Ptr) : (h.setNext p v).next = upd h.next p v := rfl
@[simp] theorem setNext_prev (h : Heap) (p v : Ptr) : (h.setNext p v).prev = h.prev := rfl
@[simp] theorem setNext_value (h : Heap) (p v : Ptr) : (h.setNext p v).value = h.value := rfl
@[simp] theorem setNext_live (h : Heap) (p v : Ptr) : (h.setNext p v).live = h.live := rfl
@[simp] theorem setPrev_next (h : Heap) (p v : Ptr) : (h.setPrev p v).next = h.next := rfl
@[simp] theorem setPrev_prev (h : Heap) (p v : Ptr) : (h.setPrev p v).prev = upd h.prev p v := rfl
@[simp] theorem setPrev_value (h : Heap) (p v : Ptr) : (h.setPrev p v).value = h.value := rfl
@[simp] theorem setPrev_live (h : Heap) (p v : Ptr) : (h.setPrev p v).live = h.live := rfl
@[simp] theorem setValue_next (h : Heap) (p : Ptr) (v : Option Str) : (h.setValue p v).next = h.next := rfl
@[simp] theorem setValue_prev (h : Heap) (p : Ptr) (v : Option Str) : (h.setValue p v).prev = h.prev := rfl
@[simp] theorem setValue_value (h : Heap) (p : Ptr) (v : Option Str) :
    (h.setValue p v).value = upd h.value p v := rfl
@[simp] theorem setValue_live (h : Heap) (p : Ptr) (v : Option Str) : (h.setValue p v).live = h.live := rfl
@[simp] theorem malloc_next (h : Heap) (p : Ptr) : (malloc h p).next = h.next := rfl
@[simp] theorem malloc_prev (h : Heap) (p : Ptr) : (malloc h p).prev = h.prev := rfl
@[simp] theorem malloc_value (h : Heap) (p : Ptr) : (malloc h p).value = h.value := rfl
@[simp] theorem malloc_live (h : Heap) (p : Ptr) : (malloc h p).live = upd h.live p true := rfl
@[simp] theorem free_next (h : Heap) (p : Ptr) : (free h p).next = h.next := rfl
@[simp] theorem free_prev (h : Heap) (p : Ptr) : (free h p).prev = h.prev := rfl
@[simp] theorem free_value (h : Heap) (p : Ptr) : (free h p).value = h.value := rfl
@[simp] theorem free_live (h : Heap) (p : Ptr) : (free h p).live = upd h.live p false := rfl

theorem Heap.ext_fields {h k : Heap} (h1 : h.next = k.next) (h2 : h.prev = k.prev)
    (h3 : h.value = k.value) (h4 : h.live = k.live) : h = k := by
  cases h; cases k; simp_all

/-! ## Segments -/

@[simp] theorem seg_nil (nx : Ptr → Ptr) (a b : Ptr) : Seg nx a [] b ↔ a = b := Iff.rfl

@[simp] theorem seg_cons (nx : Ptr → Ptr) (a x b : Ptr) (l : List Ptr) :
    Seg nx a (x :: l) b ↔ a = x ∧ Seg nx (nx x) l b := Iff.rfl

theorem seg_append (nx : Ptr → Ptr) (a b : Ptr) (l1 l2 : List Ptr) :
    Seg nx a (l1 ++ l2) b ↔ ∃ m, Seg nx a l1 m ∧ Seg nx m l2 b := by
  induction l1 generalizing a with
  | nil => simp
  | cons x l ih => simp [ih, and_assoc]

theorem seg_snoc (nx : Ptr → Ptr) (a x b : Ptr) (l : List Ptr) :
    Seg nx a (l ++ [x]) b ↔ Seg nx a l x ∧ nx x = b := by
  rw [seg_append]
  constructor
  · rintro ⟨m, h1, h2⟩
    simp at h2
    obtain ⟨rfl, h2⟩ := h2
    exact ⟨h1, h2⟩
  · rintro ⟨h1, h2⟩
    exact ⟨x, h1, by simp [h2]⟩

theorem seg_reverse_cons (nx : Ptr → Ptr) (a x b : Ptr) (l : List Ptr) :
    Seg nx a (x :: l).reverse b ↔ Seg nx a l.reverse x ∧ nx x = b := by
  rw [List.reverse_cons, seg_snoc]

theorem seg_congr {nx nx' : Ptr → Ptr} {l : List Ptr} (hl : ∀ x ∈ l, nx' x = nx x) (a b : Ptr) :
    Seg nx' a l b ↔ Seg nx a l b := by
  induction l generalizing a with
  | nil => simp
  | cons x l ih =>
    have hx : nx' x = nx x := hl x (by simp)
    simp [hx, ih (fun y hy => hl y (by simp [hy]))]

theorem seg_upd {nx : Ptr → Ptr} {l : List Ptr} {p : Ptr} (hp : p ∉ l) (v a b : Ptr) :
    Seg (upd nx p v) a l b ↔ Seg nx a l b := by
  apply seg_congr
  intro x hx
  apply upd_ne
  rintro rfl
  exact hp hx

/-- The first node of a segment. -/
theorem seg_start {nx : Ptr → Ptr} {a b : Ptr} {l : List Ptr} (hs : Seg nx a l b) :
    a = l.headD b := by
  cases l with
  | nil => simpa using hs
  | cons x l => simpa using hs.1

/-- The link leaving a node of a segment. -/
theorem seg_next {nx : Ptr → Ptr} {a b x : Ptr} {l1 l2 : List Ptr}
    (hs : Seg nx a (l1 ++ x :: l2) b) : nx x = l2.headD b := by
  rw [seg_append] at hs
  obtain ⟨m, _, hm⟩ := hs
  exact seg_start hm.2

/-- A segment is determined by its start and its end, once the end is not
one of its nodes. -/
theorem seg_unique {nx : Ptr → Ptr} {a b : Ptr} {l1 l2 : List Ptr}
    (h1 : Seg nx a l1 b) (h2 : Seg nx a l2 b) (hb1 : b ∉ l1) (hb2 : b ∉ l2) : l1 = l2 := by
  induction l1 generalizing a l2 with
  | nil =>
    cases l2 with
    | nil => rfl
    | cons y l2 =>
      simp at h1 h2
      exact absurd (h1 ▸ h2.1) (by simp at hb2; tauto)
  | cons x l1 ih =>
    cases l2 with
    | nil =>
      simp at h1 h2
      exact absurd (h2 ▸ h1.1) (by simp at hb1; tauto)
    | cons y l2 =>
      simp at h1 h2 hb1 hb2
      obtain ⟨rfl, h1⟩ := h1
      obtain ⟨rfl, h2⟩ := h2
      rw [ih h1 h2 (by tauto) (by tauto)]

/-! ## Sample queues -/

theorem demo_ring : Ring demo 1 [2, 3, 4] := by decide

/-! ## Rings -/

@[simp] theorem flip_next (h : Heap) : h.flip.next = h.prev := rfl
@[simp] theorem flip_prev (h : Heap) : h.flip.prev = h.next := rfl
@[simp] theorem flip_value (h : Heap) : h.flip.value = h.value := rfl
@[simp] theorem flip_live (h : Heap) : h.flip.live = h.live := rfl
@[simp] theorem flip_flip (h : Heap) : h.flip.flip = h := rfl

theorem Ring.head_ne {h : Heap} {head : Ptr} {xs : List Ptr} (hr : Ring h head xs) : head ≠ 0 := hr.1
theorem Ring.nodup {h : Heap} {head : Ptr} {xs : List Ptr} (hr : Ring h head xs) :
    (head :: xs).Nodup := hr.2.1
theorem Ring.nonnull {h : Heap} {head : Ptr} {xs : List Ptr} (hr : Ring h head xs) : 0 ∉ xs :=
  hr.2.2.1
theorem Ring.fwd {h : Heap} {head : Ptr} {xs : List Ptr} (hr : Ring h head xs) :
    Seg h.next (h.next head) xs head := hr.2.2.2.1
theorem Ring.bwd {h : Heap} {head : Ptr} {xs : List Ptr} (hr : Ring h head xs) :
    Seg h.prev (h.prev head) xs.reverse head := hr.2.2.2.2.1
theorem Ring.alive {h : Heap} {head : Ptr} {xs : List Ptr} (hr : Ring h head xs) :
    ∀ p ∈ head :: xs, h.live p = true := hr.2.2.2.2.2

theorem Ring.head_not_mem {h : Heap} {head : Ptr} {xs : List Ptr} (hr : Ring h head xs) :
    head ∉ xs := (List.nodup_cons.1 hr.nodup).1

theorem Ring.nodup_elems {h : Heap} {head : Ptr} {xs : List Ptr} (hr : Ring h head xs) :
    xs.Nodup := (List.nodup_cons.1 hr.nodup).2

/-- Exchanging `next` and `prev` reverses the queue. -/
theorem Ring.flip {h : Heap} {head : Ptr} {xs : List Ptr} (hr : Ring h head xs) :
    Ring h.flip head xs.reverse := by
  obtain ⟨h1, h2, h3, h4, h5, h6⟩ := hr
  refine ⟨h1, ?_, ?_, ?_, ?_, ?_⟩
  · simpa using h2
  · simpa using h3
  · simpa using h5
  · simpa using h4
  · simpa using h6

theorem ring_flip_iff {h : Heap} {head : Ptr} {xs : List Ptr} :
    Ring h.flip head xs ↔ Ring h head xs.reverse := by
  constructor
  · intro hr
    simpa using hr.flip
  · intro hr
    simpa using hr.flip

/-- A heap that agrees with `h` on the nodes of the queue holds the same queue. -/
theorem Ring.congr {h k : Heap} {head : Ptr} {xs : List Ptr} (hr : Ring h head xs)
    (hn : ∀ p ∈ head :: xs, k.next p = h.next p) (hp : ∀ p ∈ head :: xs, k.prev p = h.prev p)
    (hl : ∀ p ∈ head :: xs, k.live p = h.live p) : Ring k head xs := by
  obtain ⟨h1, h2, h3, h4, h5, h6⟩ := hr
  refine ⟨h1, h2, h3, ?_, ?_, ?_⟩
  · rw [hn head (by simp), seg_congr (fun x hx => hn x (by simp [hx]))]
    exact h4
  · rw [hp head (by simp), seg_congr (fun x hx => hp x (by simp at hx; simp [hx]))]
    exact h5
  · intro p hp'
    rw [hl p hp']
    exact h6 p hp'

theorem Ring.next_head {h : Heap} {head : Ptr} {xs : List Ptr} (hr : Ring h head xs) :
    h.next head = xs.headD head := seg_start hr.fwd

theorem Ring.next_mem {h : Heap} {head x : Ptr} {l1 l2 : List Ptr}
    (hr : Ring h head (l1 ++ x :: l2)) : h.next x = l2.headD head := seg_next hr.fwd

theorem Ring.prev_head {h : Heap} {head : Ptr} {xs : List Ptr} (hr : Ring h head xs) :
    h.prev head = xs.reverse.headD head := seg_start hr.bwd

theorem Ring.prev_mem {h : Heap} {head x : Ptr} {l1 l2 : List Ptr}
    (hr : Ring h head (l1 ++ x :: l2)) : h.prev x = l1.reverse.headD head := by
  have hb := hr.bwd
  rw [List.reverse_append, List.reverse_cons, List.append_assoc] at hb
  exact seg_next hb

/-- The queue held below a sentinel is unique. -/
theorem Ring.unique {h : Heap} {head : Ptr} {xs ys : List Ptr} (hx : Ring h head xs)
    (hy : Ring h head ys) : xs = ys :=
  seg_unique hx.fwd hy.fwd hx.head_not_mem hy.head_not_mem

theorem Ring.empty_iff {h : Heap} {head : Ptr} {xs : List Ptr} (hr : Ring h head xs) :
    list_empty h head = true ↔ xs = [] := by
  unfold list_empty
  rw [hr.next_head]
  cases xs with
  | nil => simp
  | cons x l =>
    have := hr.head_not_mem
    simp at this
    simp
    tauto

/-! ## Splicing and unlinking -/

theorem list_add_tail_flip (h : Heap) (node head : Ptr) :
    list_add_tail h node head = (list_add h.flip node head).flip := rfl

theorem list_del_flip (h : Heap) (node : Ptr) :
    list_del h node = (list_del h.flip node).flip := rfl

theorem list_add_value (h : Heap) (node head : Ptr) : (list_add h node head).value = h.value := rfl
theorem list_add_live (h : Heap) (node head : Ptr) : (list_add h node head).live = h.live := rfl
theorem list_del_value (h : Heap) (node : Ptr) : (list_del h node).value = h.value := rfl
theorem list_del_live (h : Heap) (node : Ptr) : (list_del h node).live = h.live := rfl

/-- Splicing a foreign node after the sentinel puts it in front of the queue. -/
theorem ring_list_add {h : Heap} {head node : Ptr} {xs : List Ptr} (hr : Ring h head xs)
    (h0 : node ≠ 0) (hnew : node ∉ head :: xs) (hl : h.live node = true) :
    Ring (list_add h node head) head (node :: xs) := by
  have hnh : node ≠ head := fun e => hnew (by simp [e])
  have hnx : node ∉ xs := fun e => hnew (by simp [e])
  have hhx := hr.head_not_mem
  have hnext : (list_add h node head).next = upd (upd h.next node (h.next head)) head node := rfl
  have hprev : (list_add h node head).prev = upd (upd h.prev (h.next head) node) node head := rfl
  refine ⟨hr.head_ne, ?_, ?_, ?_, ?_, ?_⟩
  · have := hr.nodup
    simp only [List.nodup_cons, List.mem_cons, not_or] at this ⊢
    exact ⟨⟨fun e => hnh e.symm, this.1⟩, hnx, this.2⟩
  · have := hr.nonnull
    simp only [List.mem_cons, not_or]
    exact ⟨fun e => h0 e.symm, this⟩
  · rw [hnext]
    simp only [seg_cons, upd_same, upd_ne _ _ hnh, true_and]
    rw [seg_upd hhx, seg_upd hnx]
    exact hr.fwd
  · rw [hprev, seg_reverse_cons]
    refine ⟨?_, by simp⟩
    have hb := hr.bwd
    rw [hr.next_head]
    cases xs with
    | nil => simp [upd_ne _ _ (Ne.symm hnh)]
    | cons x t =>
      simp only [List.mem_cons, not_or] at hhx hnx
      have hnd := hr.nodup_elems
      simp only [List.nodup_cons] at hnd
      rw [seg_reverse_cons] at hb ⊢
      simp only [List.headD_cons]
      rw [upd_ne _ _ (Ne.symm hnh), upd_ne _ _ hhx.1]
      refine ⟨?_, by simp [upd_ne _ _ (Ne.symm hnx.1)]⟩
      rw [seg_upd (by simpa using hnx.2), seg_upd (by simpa using hnd.1)]
      exact hb.1
  · intro p hp
    rw [list_add_live]
    simp only [List.mem_cons] at hp
    rcases hp with rfl | rfl | hp
    · exact hr.alive _ (by simp)
    · exact hl
    · exact hr.alive _ (by simp [hp])

theorem list_del_fwd {h : Heap} {head x : Ptr} {l1 l2 : List Ptr}
    (hr : Ring h head (l1 ++ x :: l2)) :
    Seg (list_del h x).next ((list_del h x).next head) (l1 ++ l2) head := by
  have hnext : (list_del h x).next = upd h.next (h.prev x) (h.next x) := rfl
  have hnd := hr.nodup
  have hf := hr.fwd
  rw [hnext, hr.prev_mem, hr.next_mem]
  rcases List.eq_nil_or_concat l1 with rfl | ⟨A, p, rfl⟩
  · simp only [List.nil_append, List.reverse_nil, List.headD_nil, upd_same] at hf ⊢
    simp only [List.nil_append, List.nodup_cons, List.mem_cons, not_or] at hnd
    rw [seg_upd hnd.1.2]
    rw [seg_cons] at hf
    rw [← seg_start hf.2]
    exact hf.2
  · simp only [List.concat_eq_append, List.reverse_append, List.reverse_cons, List.reverse_nil,
      List.nil_append, List.singleton_append, List.headD_cons, List.append_assoc] at hf hnd ⊢
    simp only [List.nodup_cons, List.nodup_append, List.mem_append, List.mem_cons, not_or,
      List.mem_singleton, List.disjoint_cons_right, List.not_mem_nil, not_false_eq_true,
      List.nodup_nil, and_true, List.disjoint_left] at hnd
    obtain ⟨⟨hhA, hhp, hhx, hhl⟩, hA, ⟨⟨hpx, hpl⟩, hxl, hl2⟩, hdis⟩ := hnd
    have hpA : p ∉ A := fun e => (hdis e).1 rfl
    rw [upd_ne _ _ hhp]
    rw [seg_append] at hf ⊢
    obtain ⟨m, hm1, hm2⟩ := hf
    simp only [seg_cons] at hm2
    obtain ⟨rfl, rfl, hm3⟩ := hm2
    refine ⟨m, (seg_upd hpA _ _ _).2 hm1, ?_⟩
    simp only [seg_cons, upd_same, true_and]
    rw [seg_upd hpl, ← seg_start hm3]
    exact hm3

/-- Unlinking an element leaves the other elements in their order. -/
theorem ring_list_del {h : Heap} {head x : Ptr} {l1 l2 : List Ptr}
    (hr : Ring h head (l1 ++ x :: l2)) : Ring (list_del h x) head (l1 ++ l2) := by
  have hnd := hr.nodup
  refine ⟨hr.head_ne, ?_, ?_, list_del_fwd hr, ?_, ?_⟩
  · have hsub : (head :: (l1 ++ l2)).Sublist (head :: (l1 ++ x :: l2)) := by
      apply List.Sublist.cons₂
      exact List.Sublist.append_left (List.sublist_cons_self x l2) l1
    exact hnd.sublist hsub
  · have := hr.nonnull
    simp only [List.mem_append, List.mem_cons, not_or] at this ⊢
    tauto
  · have hfl : Ring h.flip head (l2.reverse ++ x :: l1.reverse) := by
      have := hr.flip
      simpa using this
    have := list_del_fwd hfl
    rw [List.reverse_append]
    exact this
  · intro p hp
    rw [list_del_live]
    apply hr.alive
    simp only [List.mem_cons, List.mem_append] at hp ⊢
    tauto

/-- Unlinking touches neither values nor the fields of the unlinked node. -/
theorem list_del_next_self {h : Heap} {head x : Ptr} {l1 l2 : List Ptr}
    (hr : Ring h head (l1 ++ x :: l2)) : (list_del h x).next x = h.next x := by
  have hnext : (list_del h x).next = upd h.next (h.prev x) (h.next x) := rfl
  rw [hnext, hr.prev_mem]
  apply upd_ne
  have hnd := hr.nodup
  rcases List.eq_nil_or_concat l1 with rfl | ⟨A, p, rfl⟩
  · simp at hnd ⊢
    tauto
  · simp [List.nodup_append] at hnd ⊢
    tauto

/-! ## Size -/

theorem q_size_loop_seg (h : Heap) (head : Ptr) :
    ∀ (l : List Ptr) (fuel : Nat) (ptr : Ptr) (len : Nat), Seg h.next ptr l head → head ∉ l →
      l.length < fuel → q_size_loop h head fuel ptr len = some (len + l.length) := by
  intro l
  induction l with
  | nil =>
    intro fuel ptr len hs _ hf
    cases fuel with
    | zero => simp at hf
    | succ n =>
      simp only [seg_nil] at hs
      simp [q_size_loop, hs]
  | cons x l ih =>
    intro fuel ptr len hs hh hf
    cases fuel with
    | zero => simp at hf
    | succ n =>
      simp only [seg_cons] at hs
      obtain ⟨rfl, hs⟩ := hs
      simp only [List.mem_cons, not_or] at hh
      simp only [List.length_cons, Nat.add_lt_add_iff_right] at hf
      have hne : ptr ≠ head := fun e => hh.1 e.symm
      simp only [q_size_loop, hne, ne_eq, not_false_eq_true, ite_true]
      rw [ih n (h.next ptr) (len + 1) hs hh.2 hf]
      simp only [List.length_cons]
      congr 1
      omega

/-- `q_size` counts the elements of a well-formed queue. -/
theorem q_size_ring {h : Heap} {head : Ptr} {xs : List Ptr} (hr : Ring h head xs)
    {fuel : Nat} (hf : xs.length < fuel) : q_size fuel h head = some xs.length := by
  unfold q_size
  rw [if_neg hr.head_ne, q_size_loop_seg h head xs fuel _ 0 hr.fwd hr.head_not_mem hf]
  simp

/-! ## Insertion -/

/-- The element prepared by an insertion before it is spliced in leaves the
queue as it is. -/
theorem ring_prepare {h : Heap} {head ele : Ptr} {xs : List Ptr} (hr : Ring h head xs)
    (hfresh : h.live ele = false) (v : Option Str) :
    Ring (INIT_LIST_HEAD ((malloc h ele).setValue ele v) ele) head xs := by
  have hne : ∀ p ∈ head :: xs, p ≠ ele := by
    intro p hp e
    have := hr.alive p hp
    rw [e, hfresh] at this
    exact Bool.noConfusion this
  apply hr.congr
  · intro p hp
    exact upd_ne _ _ (hne p hp)
  · intro p hp
    exact upd_ne _ _ (hne p hp)
  · intro p hp
    exact upd_ne _ _ (hne p hp)

theorem fresh_not_mem {h : Heap} {head ele : Ptr} {xs : List Ptr} (hr : Ring h head xs)
    (hfresh : h.live ele = false) : ele ∉ head :: xs := by
  intro hp
  have := hr.alive ele hp
  rw [hfresh] at this
  exact Bool.noConfusion this

theorem q_insert_head_eq {h : Heap} {head ele : Ptr} (s : Str) (ok : Bool) (hh : head ≠ 0)
    (hm : ele ≠ 0) :
    q_insert_head h head s ele ok =
      (list_add (INIT_LIST_HEAD ((malloc h ele).setValue ele (strdup ok s)) ele) ele head, true) := by
  simp [q_insert_head, hh, hm]

theorem q_insert_tail_eq {h : Heap} {head ele : Ptr} (s : Str) (ok : Bool) (hh : head ≠ 0)
    (hm : ele ≠ 0) :
    q_insert_tail h head s ele ok =
      (list_add_tail (INIT_LIST_HEAD ((malloc h ele).setValue ele (strdup ok s)) ele) ele head,
        true) := by
  simp [q_insert_tail, hh, hm]

theorem q_insert_head_ring {h : Heap} {head ele : Ptr} {xs : List Ptr} (hr : Ring h head xs)
    (hm : ele ≠ 0) (hfresh : h.live ele = false) (s : Str) (ok : Bool) :
    Ring (q_insert_head h head s ele ok).1 head (ele :: xs) := by
  rw [q_insert_head_eq s ok hr.head_ne hm]
  exact ring_list_add (ring_prepare hr hfresh _) hm (fresh_not_mem hr hfresh) (by simp [INIT_LIST_HEAD])

theorem q_insert_tail_ring {h : Heap} {head ele : Ptr} {xs : List Ptr} (hr : Ring h head xs)
    (hm : ele ≠ 0) (hfresh : h.live ele = false) (s : Str) (ok : Bool) :
    Ring (q_insert_tail h head s ele ok).1 head (xs ++ [ele]) := by
  rw [q_insert_tail_eq s ok hr.head_ne hm, list_add_tail_flip, ring_flip_iff]
  have hp := (ring_prepare hr hfresh (strdup ok s)).flip
  have hnew : ele ∉ head :: xs.reverse := by
    have := fresh_not_mem hr hfresh
    simpa using this
  have := ring_list_add hp hm hnew (by simp [INIT_LIST_HEAD])
  simpa using this

theorem q_insert_head_value {h : Heap} {head ele : Ptr} (s : Str) (ok : Bool) (hh : head ≠ 0)
    (hm : ele ≠ 0) : (q_insert_head h head s ele ok).1.value = upd h.value ele (strdup ok s) := by
  rw [q_insert_head_eq s ok hh hm]
  rfl

theorem q_insert_tail_value {h : Heap} {head ele : Ptr} (s : Str) (ok : Bool) (hh : head ≠ 0)
    (hm : ele ≠ 0) : (q_insert_tail h head s ele ok).1.value = upd h.value ele (strdup ok s) := by
  rw [q_insert_tail_eq s ok hh hm]
  rfl

theorem map_upd_of_not_mem {β : Type} (f : Ptr → β) {p : Ptr} (v : β) {xs : List Ptr}
    (hp : p ∉ xs) : xs.map (upd f p v) = xs.map f := by
  apply List.map_congr_left
  intro x hx
  apply upd_ne
  rintro rfl
  exact hp hx

/-- C8: for a well-formed queue holding the elements `xs` and a successful
allocation (`malloc` hands out a block `ele` that was not in use, `strdup`
succeeds), `q_insert_head` returns true and the queue becomes the new element,
holding `s`, followed by `xs`; `q_insert_tail` returns true and the queue
becomes `xs` followed by the new element.  The old elements keep their values
and `q_size` grows by exactly one (for sizes that fit in an `int`). -/
theorem q_insert_spec (h : Heap) (head : Ptr) (xs : List Ptr) (s : Str) (ele : Ptr)
    (fuel : Nat) (hr : Ring h head xs) (hm : ele ≠ 0) (hfresh : h.live ele = false)
    (_hint : xs.length + 1 ≤ INT_MAX) (hf : xs.length + 1 < fuel) :
    ((q_insert_head h head s ele true).2 = true ∧
      Ring (q_insert_head h head s ele true).1 head (ele :: xs) ∧
      (ele :: xs).map (q_insert_head h head s ele true).1.value = some s :: xs.map h.value ∧
      q_size fuel h head = some xs.length ∧
      q_size fuel (q_insert_head h head s ele true).1 head = some (xs.length + 1)) ∧
    ((q_insert_tail h head s ele true).2 = true ∧
      Ring (q_insert_tail h head s ele true).1 head (xs ++ [ele]) ∧
      (xs ++ [ele]).map (q_insert_tail h head s ele true).1.value = xs.map h.value ++ [some s] ∧
      q_size fuel h head = some xs.length ∧
      q_size fuel (q_insert_tail h head s ele true).1 head = some (xs.length + 1)) := by
  have hnx : ele ∉ xs := fun e => fresh_not_mem hr hfresh (by simp [e])
  have hsz : q_size fuel h head = some xs.length := q_size_ring hr (by omega)
  refine ⟨⟨?_, q_insert_head_ring hr hm hfresh s true, ?_, hsz, ?_⟩,
    ⟨?_, q_insert_tail_ring hr hm hfresh s true, ?_, hsz, ?_⟩⟩
  · rw [q_insert_head_eq s true hr.head_ne hm]
  · rw [q_insert_head_value s true hr.head_ne hm, List.map_cons, upd_same,
      map_upd_of_not_mem _ _ hnx]
    rfl
  · have := @q_size_ring _ _ _ (q_insert_head_ring hr hm hfresh s true) fuel
      (by simpa using hf)
    simpa using this
  · rw [q_insert_tail_eq s true hr.head_ne hm]
  · rw [q_insert_tail_value s true hr.head_ne hm, List.map_append, map_upd_of_not_mem _ _ hnx]
    simp [strdup]
  · have := @q_size_ring _ _ _ (q_insert_tail_ring hr hm hfresh s true) fuel
      (by simpa using hf)
    simpa using this

theorem q_insert_spec_witness :
    Ring demo 1 [2, 3, 4] ∧ (5 : Ptr) ≠ 0 ∧ demo.live 5 = false ∧
    [2, 3, 4].length + 1 ≤ INT_MAX ∧ [2, 3, 4].length + 1 < 9 ∧
    ((q_insert_head demo 1 [98] 5 true).2 = true ∧
      Ring (q_insert_head demo 1 [98] 5 true).1 1 (5 :: [2, 3, 4]) ∧
      (5 :: [2, 3, 4]).map (q_insert_head demo 1 [98] 5 true).1.value
        = some [98] :: [2, 3, 4].map demo.value ∧
      q_size 9 demo 1 = some [2, 3, 4].length ∧
      q_size 9 (q_insert_head demo 1 [98] 5 true).1 1 = some ([2, 3, 4].length + 1)) ∧
    ((q_insert_tail demo 1 [98] 5 true).2 = true ∧
      Ring (q_insert_tail demo 1 [98] 5 true).1 1 ([2, 3, 4] ++ [5]) ∧
      ([2, 3, 4] ++ [5]).map (q_insert_tail demo 1 [98] 5 true).1.value
        = [2, 3, 4].map demo.value ++ [some [98]] ∧
      q_size 9 demo 1 = some [2, 3, 4].length ∧
      q_size 9 (q_insert_tail demo 1 [98] 5 true).1 1 = some ([2, 3, 4].length + 1)) :=
  ⟨demo_ring, by decide, by decide, by decide, by decide,
    q_insert_spec demo 1 [2, 3, 4] [98] 5 9 demo_ring (by decide) (by decide) (by decide)
      (by decide)⟩

/-! ## Removal -/

theorem q_remove_head_heap {h : Heap} {head x : Ptr} {xs : List Ptr} (hr : Ring h head (x :: xs))
    (sp : Bool) (bufsize : Nat) :
    (q_remove_head h head sp bufsize).heap = list_del h x ∧
      (q_remove_head h head sp bufsize).node = x := by
  have he : ¬ (head = 0 ∨ list_empty h head = true) := by
    rw [hr.empty_iff]
    simp [hr.head_ne]
  have hx : h.next head = x := by simpa using hr.next_head
  unfold q_remove_head
  rw [if_neg he, hx]
  cases sp <;> simp

theorem q_remove_tail_heap {h : Heap} {head x : Ptr} {xs : List Ptr}
    (hr : Ring h head (xs ++ [x])) (sp : Bool) (bufsize : Nat) :
    (q_remove_tail h head sp bufsize).heap = list_del h x ∧
      (q_remove_tail h head sp bufsize).node = x := by
  have he : ¬ (head = 0 ∨ list_empty h head = true) := by
    rw [hr.empty_iff]
    simp [hr.head_ne]
  have hx : h.prev head = x := by simpa using hr.prev_head
  unfold q_remove_tail
  rw [if_neg he, hx]
  cases sp <;> simp

theorem strncpy_whole (s : Str) : strncpy s (strlen s + 1) = s ++ [0] := by
  unfold strncpy strlen
  rw [List.take_of_length_le (by omega)]
  congr 1
  have : s.length + 1 - s.length = 1 := by omega
  rw [this]
  rfl

/-- What the removals store in a buffer: the whole value and its terminator,
whatever `bufsize` is. -/
theorem q_remove_head_out {h : Heap} {head x : Ptr} {xs : List Ptr} (hr : Ring h head (x :: xs))
    (bufsize : Nat) : (q_remove_head h head true bufsize).out = some (h.valueOf x ++ [0]) := by
  have he : ¬ (head = 0 ∨ list_empty h head = true) := by
    rw [hr.empty_iff]
    simp [hr.head_ne]
  have hx : h.next head = x := by simpa using hr.next_head
  unfold q_remove_head
  rw [if_neg he, hx]
  simp only [ite_true]
  rw [strncpy_whole]
  rfl

theorem q_remove_tail_out {h : Heap} {head x : Ptr} {xs : List Ptr}
    (hr : Ring h head (xs ++ [x])) (bufsize : Nat) :
    (q_remove_tail h head true bufsize).out = some (h.valueOf x ++ [0]) := by
  have he : ¬ (head = 0 ∨ list_empty h head = true) := by
    rw [hr.empty_iff]
    simp [hr.head_ne]
  have hx : h.prev head = x := by simpa using hr.prev_head
  unfold q_remove_tail
  rw [if_neg he, hx]
  simp only [ite_true]
  rw [strncpy_whole]
  rfl

theorem q_remove_head_out_none {h : Heap} {head x : Ptr} {xs : List Ptr}
    (hr : Ring h head (x :: xs)) (bufsize : Nat) :
    (q_remove_head h head false bufsize).out = none := by
  have he : ¬ (head = 0 ∨ list_empty h head = true) := by
    rw [hr.empty_iff]
    simp [hr.head_ne]
  unfold q_remove_head
  rw [if_neg he]
  rfl

theorem q_remove_tail_out_none {h : Heap} {head x : Ptr} {xs : List Ptr}
    (hr : Ring h head (xs ++ [x])) (bufsize : Nat) :
    (q_remove_tail h head false bufsize).out = none := by
  have he : ¬ (head = 0 ∨ list_empty h head = true) := by
    rw [hr.empty_iff]
    simp [hr.head_ne]
  unfold q_remove_tail
  rw [if_neg he]
  rfl

/-- The bytes a removal of `x` stores, and that they fit the buffer when the
copy fits. -/
theorem q_remove_head_copy {h : Heap} {head x : Ptr} {xs : List Ptr}
    (hr : Ring h head (x :: xs)) (sp : Bool) (bufsize : Nat)
    (hfit : CopyFits h x sp bufsize) :
    (q_remove_head h head sp bufsize).out
        = (if sp = true then some (h.valueOf x ++ [0]) else none) ∧
      ∀ bytes, (q_remove_head h head sp bufsize).out = some bytes → bytes.length ≤ bufsize := by
  cases sp with
  | false =>
    rw [q_remove_head_out_none hr bufsize]
    exact ⟨rfl, fun _ e => by cases e⟩
  | true =>
    rw [q_remove_head_out hr bufsize]
    refine ⟨rfl, ?_⟩
    intro bytes e
    cases e
    have := (hfit rfl).2
    simpa [strlen] using this

theorem q_remove_tail_copy {h : Heap} {head x : Ptr} {xs : List Ptr}
    (hr : Ring h head (xs ++ [x])) (sp : Bool) (bufsize : Nat)
    (hfit : CopyFits h x sp bufsize) :
    (q_remove_tail h head sp bufsize).out
        = (if sp = true then some (h.valueOf x ++ [0]) else none) ∧
      ∀ bytes, (q_remove_tail h head sp bufsize).out = some bytes → bytes.length ≤ bufsize := by
  cases sp with
  | false =>
    rw [q_remove_tail_out_none hr bufsize]
    exact ⟨rfl, fun _ e => by cases e⟩
  | true =>
    rw [q_remove_tail_out hr bufsize]
    refine ⟨rfl, ?_⟩
    intro bytes e
    cases e
    have := (hfit rfl).2
    simpa [strlen] using this

/-- C9: on a well-formed non-empty queue, and when the copy into the buffer
is defined (no buffer is given, or the value of the removed element is not
`NULL` and fits the buffer with its terminator), `q_remove_head` returns the
first element and `q_remove_tail` the last one; the queue afterwards holds the
remaining elements in their order, and no value is changed and no block is
freed, so the returned element is still allocated and holds its value.  The
bytes stored are the value and its terminator, within the buffer. -/
theorem q_remove_spec (h : Heap) (head : Ptr) (ys : List Ptr) (sp : Bool) (bufsize : Nat)
    (hr : Ring h head ys) (hne : ys ≠ []) :
    (CopyFits h (ys.head hne) sp bufsize →
      (q_remove_head h head sp bufsize).node = ys.head hne ∧
      Ring (q_remove_head h head sp bufsize).heap head ys.tail ∧
      (q_remove_head h head sp bufsize).heap.value = h.value ∧
      (q_remove_head h head sp bufsize).heap.live = h.live ∧
      (q_remove_head h head sp bufsize).heap.live (ys.head hne) = true ∧
      (q_remove_head h head sp bufsize).out
        = (if sp = true then some (h.valueOf (ys.head hne) ++ [0]) else none) ∧
      (∀ bytes, (q_remove_head h head sp bufsize).out = some bytes →
        bytes.length ≤ bufsize)) ∧
    (CopyFits h (ys.getLast hne) sp bufsize →
      (q_remove_tail h head sp bufsize).node = ys.getLast hne ∧
      Ring (q_remove_tail h head sp bufsize).heap head ys.dropLast ∧
      (q_remove_tail h head sp bufsize).heap.value = h.value ∧
      (q_remove_tail h head sp bufsize).heap.live = h.live ∧
      (q_remove_tail h head sp bufsize).heap.live (ys.getLast hne) = true ∧
      (q_remove_tail h head sp bufsize).out
        = (if sp = true then some (h.valueOf (ys.getLast hne) ++ [0]) else none) ∧
      (∀ bytes, (q_remove_tail h head sp bufsize).out = some bytes →
        bytes.length ≤ bufsize)) := by
  constructor
  · obtain ⟨x, xs, rfl⟩ := List.exists_cons_of_ne_nil hne
    intro hfit
    obtain ⟨e1, e2⟩ := q_remove_head_heap hr sp bufsize
    obtain ⟨c1, c2⟩ := q_remove_head_copy hr sp bufsize hfit
    rw [e1, e2]
    refine ⟨rfl, ?_, rfl, rfl, ?_, c1, c2⟩
    · exact @ring_list_del _ _ _ [] _ hr
    · rw [list_del_live]
      exact hr.alive _ (by simp)
  · have hsplit : ys = ys.dropLast ++ [ys.getLast hne] := (List.dropLast_append_getLast hne).symm
    generalize ys.getLast hne = x at hsplit ⊢
    generalize ys.dropLast = xs at hsplit ⊢
    subst hsplit
    intro hfit
    obtain ⟨e1, e2⟩ := q_remove_tail_heap hr sp bufsize
    obtain ⟨c1, c2⟩ := q_remove_tail_copy hr sp bufsize hfit
    rw [e1, e2]
    refine ⟨rfl, ?_, rfl, rfl, ?_, c1, c2⟩
    · have := ring_list_del hr
      simpa using this
    · rw [list_del_live]
      exact hr.alive _ (by simp)

theorem q_remove_spec_witness :
    Ring demo 1 [2, 3, 4] ∧ ([2, 3, 4] : List Ptr) ≠ [] ∧
    (CopyFits demo 2 true 8 ∧
      (q_remove_head demo 1 true 8).node = 2 ∧
      Ring (q_remove_head demo 1 true 8).heap 1 [3, 4] ∧
      (q_remove_head demo 1 true 8).heap.value = demo.value ∧
      (q_remove_head demo 1 true 8).heap.live = demo.live ∧
      (q_remove_head demo 1 true 8).heap.live 2 = true ∧
      (q_remove_head demo 1 true 8).out = some [99, 0] ∧
      (∀ bytes, (q_remove_head demo 1 true 8).out = some bytes → bytes.length ≤ 8)) ∧
    (CopyFits demo 4 true 8 ∧
      (q_remove_tail demo 1 true 8).node = 4 ∧
      Ring (q_remove_tail demo 1 true 8).heap 1 [2, 3] ∧
      (q_remove_tail demo 1 true 8).heap.value = demo.value ∧
      (q_remove_tail demo 1 true 8).heap.live = demo.live ∧
      (q_remove_tail demo 1 true 8).heap.live 4 = true ∧
      (q_remove_tail demo 1 true 8).out = some [97, 0] ∧
      (∀ bytes, (q_remove_tail demo 1 true 8).out = some bytes → bytes.length ≤ 8)) :=
  ⟨demo_ring, by decide,
    ⟨by decide, (q_remove_spec demo 1 [2, 3, 4] true 8 demo_ring (by decide)).1 (by decide)⟩,
    ⟨by decide, (q_remove_spec demo 1 [2, 3, 4] true 8 demo_ring (by decide)).2 (by decide)⟩⟩

/-- C10: on a well-formed queue, `q_insert_head` of `s` with a successful
allocation followed at once by `q_remove_head` (with no buffer, or with a
buffer that `s` and its terminator fit) returns the element just inserted,
whose value is `s`, and stores `s` and its terminator in the buffer when one
is given; the queue then holds the elements it held before, with their
values, and `q_size` is what it was (for sizes that fit in an `int`). -/
theorem insert_remove_roundtrip (h : Heap) (head : Ptr) (xs : List Ptr) (s : Str) (ele : Ptr)
    (sp : Bool) (bufsize fuel : Nat) (hr : Ring h head xs) (hm : ele ≠ 0)
    (hfresh : h.live ele = false) (hfit : sp = true → strlen s + 1 ≤ bufsize)
    (_hint : xs.length ≤ INT_MAX) (hf : xs.length < fuel) :
    (q_insert_head h head s ele true).2 = true ∧
    (q_remove_head (q_insert_head h head s ele true).1 head sp bufsize).node = ele ∧
    (q_remove_head (q_insert_head h head s ele true).1 head sp bufsize).heap.value ele = some s ∧
    Ring (q_remove_head (q_insert_head h head s ele true).1 head sp bufsize).heap head xs ∧
    xs.map (q_remove_head (q_insert_head h head s ele true).1 head sp bufsize).heap.value
      = xs.map h.value ∧
    q_size fuel (q_remove_head (q_insert_head h head s ele true).1 head sp bufsize).heap head
      = q_size fuel h head ∧
    (q_remove_head (q_insert_head h head s ele true).1 head sp bufsize).out
      = (if sp = true then some (s ++ [0]) else none) ∧
    (∀ bytes, (q_remove_head (q_insert_head h head s ele true).1 head sp bufsize).out
      = some bytes → bytes.length ≤ bufsize) := by
  have hnx : ele ∉ xs := fun e => fresh_not_mem hr hfresh (by simp [e])
  have hr1 := q_insert_head_ring hr hm hfresh s true
  have hval : (q_insert_head h head s ele true).1.value ele = some s := by
    rw [q_insert_head_value s true hr.head_ne hm]
    simp [strdup]
  have hvalOf : (q_insert_head h head s ele true).1.valueOf ele = s := by
    unfold Heap.valueOf
    rw [hval]
    rfl
  have hcopy : CopyFits (q_insert_head h head s ele true).1 ele sp bufsize := by
    intro hsp
    rw [hval, hvalOf]
    exact ⟨by simp, hfit hsp⟩
  obtain ⟨c1, c2⟩ := q_remove_head_copy hr1 sp bufsize hcopy
  rw [hvalOf] at c1
  obtain ⟨e1, e2⟩ := q_remove_head_heap hr1 sp bufsize
  have hr2 : Ring (list_del (q_insert_head h head s ele true).1 ele) head xs :=
    @ring_list_del _ _ _ [] _ hr1
  refine ⟨?_, e2, ?_, ?_, ?_, ?_, c1, c2⟩
  · rw [q_insert_head_eq s true hr.head_ne hm]
  · rw [e1, list_del_value]
    exact hval
  · rw [e1]
    exact hr2
  · rw [e1, list_del_value, q_insert_head_value s true hr.head_ne hm]
    exact map_upd_of_not_mem _ _ hnx
  · rw [e1, q_size_ring hr2 hf, q_size_ring hr hf]

theorem insert_remove_roundtrip_witness :
    Ring demo 1 [2, 3, 4] ∧ (5 : Ptr) ≠ 0 ∧ demo.live 5 = false ∧
    (true = true → strlen [98] + 1 ≤ 8) ∧
    [2, 3, 4].length ≤ INT_MAX ∧ [2, 3, 4].length < 9 ∧
    (q_insert_head demo 1 [98] 5 true).2 = true ∧
    (q_remove_head (q_insert_head demo 1 [98] 5 true).1 1 true 8).node = 5 ∧
    (q_remove_head (q_insert_head demo 1 [98] 5 true).1 1 true 8).heap.value 5 = some [98] ∧
    Ring (q_remove_head (q_insert_head demo 1 [98] 5 true).1 1 true 8).heap 1 [2, 3, 4] ∧
    [2, 3, 4].map (q_remove_head (q_insert_head demo 1 [98] 5 true).1 1 true 8).heap.value
      = [2, 3, 4].map demo.value ∧
    q_size 9 (q_remove_head (q_insert_head demo 1 [98] 5 true).1 1 true 8).heap 1
      = q_size 9 demo 1 ∧
    (q_remove_head (q_insert_head demo 1 [98] 5 true).1 1 true 8).out = some [98, 0] ∧
    (∀ bytes, (q_remove_head (q_insert_head demo 1 [98] 5 true).1 1 true 8).out
      = some bytes → bytes.length ≤ 8) :=
  ⟨demo_ring, by decide, by decide, by decide, by decide, by decide,
    insert_remove_roundtrip demo 1 [2, 3, 4] [98] 5 true 8 9 demo_ring (by decide) (by decide)
      (by decide) (by decide) (by decide)⟩

/-! ## Deleting the middle element -/

@[simp] theorem release_next (h : Heap) (e : Ptr) : (q_release_element h e).next = h.next := rfl
@[simp] theorem release_prev (h : Heap) (e : Ptr) : (q_release_element h e).prev = h.prev := rfl
@[simp] theorem release_value (h : Heap) (e : Ptr) :
    (q_release_element h e).value = upd h.value e none := rfl
@[simp] theorem release_live (h : Heap) (e : Ptr) :
    (q_release_element h e).live = upd h.live e false := rfl

/-- Releasing a node that is not in the queue leaves the queue as it is. -/
theorem ring_release {h : Heap} {head x : Ptr} {xs : List Ptr} (hr : Ring h head xs)
    (hx : x ∉ head :: xs) : Ring (q_release_element h x) head xs := by
  apply hr.congr
  · intro p _
    rfl
  · intro p _
    rfl
  · intro p hp
    apply upd_ne
    rintro rfl
    exact hx hp

/-- Unlinking and releasing an element of the queue. -/
theorem ring_delete {h : Heap} {head x : Ptr} {l1 l2 : List Ptr}
    (hr : Ring h head (l1 ++ x :: l2)) :
    Ring (q_release_element (list_del h x) x) head (l1 ++ l2) := by
  apply ring_release (ring_list_del hr)
  have hnd := hr.nodup
  simp only [List.nodup_cons, List.nodup_append, List.mem_append, List.mem_cons, not_or,
    List.disjoint_cons_right] at hnd ⊢
  tauto

theorem mid_walk_seg (h : Heap) {b : Ptr} :
    ∀ (l : List Ptr) (k : Nat) (a : Ptr), Seg h.next a l b → k < l.length →
      l[k]? = some (mid_walk h k a) := by
  intro l
  induction l with
  | nil => intro k a _ hk; simp at hk
  | cons x l ih =>
    intro k a hs hk
    simp only [seg_cons] at hs
    obtain ⟨rfl, hs⟩ := hs
    cases k with
    | zero => simp [mid_walk]
    | succ k =>
      simp only [List.length_cons, Nat.add_lt_add_iff_right] at hk
      simp only [List.getElem?_cons_succ, mid_walk]
      exact ih k _ hs hk

theorem split_at_index {l : List Ptr} {k : Nat} {x : Ptr} (hx : l[k]? = some x) :
    l = l.take k ++ x :: l.drop (k + 1) ∧ l.eraseIdx k = l.take k ++ l.drop (k + 1) := by
  induction l generalizing k with
  | nil => simp at hx
  | cons y l ih =>
    cases k with
    | zero =>
      simp at hx
      simp [hx]
    | succ k =>
      simp only [List.getElem?_cons_succ] at hx
      obtain ⟨e1, e2⟩ := ih hx
      simp only [List.take_succ_cons, List.drop_succ_cons, List.cons_append, List.eraseIdx_cons_succ]
      exact ⟨by rw [← e1], by rw [e2]⟩

/-- C4: on a well-formed non-empty queue of `n` elements (`n` fitting in an
`int`) `q_delete_mid` returns true, and the queue afterwards holds the
elements it held before except the one at zero-based index `n / 2`, in their
order and with their values; that element is released.  On an empty queue and
on the `NULL` handle it returns false and leaves the heap as it is. -/
theorem q_delete_mid_spec (h : Heap) (head : Ptr) (xs : List Ptr) (fuel : Nat) :
    (Ring h head xs → xs ≠ [] → xs.length ≤ INT_MAX → xs.length < fuel →
      ∃ h1 x, q_delete_mid fuel h head = some (h1, true) ∧
        xs[xs.length / 2]? = some x ∧
        Ring h1 head (xs.eraseIdx (xs.length / 2)) ∧
        (xs.eraseIdx (xs.length / 2)).map h1.value = (xs.eraseIdx (xs.length / 2)).map h.value ∧
        h1.live x = false) ∧
    (Ring h head [] → q_delete_mid fuel h head = some (h, false)) ∧
    q_delete_mid fuel h 0 = some (h, false) := by
  refine ⟨?_, ?_, ?_⟩
  · intro hr hne _ hf
    have hlen : 0 < xs.length := List.length_pos.2 hne
    have hk : xs.length / 2 < xs.length := Nat.div_lt_self hlen (by decide)
    have he : ¬ (head = 0 ∨ list_empty h head = true) := by
      rw [hr.empty_iff]
      simp [hr.head_ne, hne]
    have hx := mid_walk_seg h xs (xs.length / 2) _ hr.fwd hk
    obtain ⟨e1, e2⟩ := split_at_index hx
    generalize mid_walk h (xs.length / 2) (h.next head) = x at hx e1
    have hr1 : Ring h head (xs.take (xs.length / 2) ++ x :: xs.drop (xs.length / 2 + 1)) := by
      rw [← e1]
      exact hr
    have hdel := ring_delete hr1
    have hxn : x ∉ xs.eraseIdx (xs.length / 2) := by
      rw [e2]
      have hnd := hr1.nodup_elems
      simp only [List.nodup_append, List.nodup_cons, List.disjoint_cons_right, List.mem_append,
        not_or] at hnd ⊢
      tauto
    refine ⟨q_release_element (list_del h x) x, x, ?_, hx, ?_, ?_, ?_⟩
    · unfold q_delete_mid
      rw [if_neg he, q_size_ring hr hf]
      simp only
      have hx2 := mid_walk_seg h xs (xs.length / 2) _ hr.fwd hk
      rw [hx] at hx2
      rw [← Option.some.inj hx2]
    · rw [e2]
      exact hdel
    · rw [release_value, list_del_value]
      exact map_upd_of_not_mem _ _ hxn
    · simp
  · intro hr
    unfold q_delete_mid
    rw [if_pos]
    right
    rw [hr.empty_iff]
  · simp [q_delete_mid]

theorem demo_empty_ring : Ring (INIT_LIST_HEAD demo 1) 1 [] := by decide

theorem q_delete_mid_spec_witness :
    (Ring (ringUpTo 6 (fun _ => none)) 7 [1, 2, 3, 4, 5, 6] ∧
      ([1, 2, 3, 4, 5, 6] : List Ptr) ≠ [] ∧ [1, 2, 3, 4, 5, 6].length ≤ INT_MAX ∧
      [1, 2, 3, 4, 5, 6].length < 9 ∧
      ∃ h1 x, q_delete_mid 9 (ringUpTo 6 (fun _ => none)) 7 = some (h1, true) ∧
        [1, 2, 3, 4, 5, 6][[1, 2, 3, 4, 5, 6].length / 2]? = some x ∧
        Ring h1 7 [1, 2, 3, 5, 6] ∧
        [1, 2, 3, 5, 6].map h1.value = [1, 2, 3, 5, 6].map (ringUpTo 6 (fun _ => none)).value ∧
        h1.live x = false) ∧
    (Ring (INIT_LIST_HEAD demo 1) 1 [] ∧
      q_delete_mid 9 (INIT_LIST_HEAD demo 1) 1 = some (INIT_LIST_HEAD demo 1, false)) :=
  ⟨⟨by decide, by decide, by decide, by decide,
      (q_delete_mid_spec (ringUpTo 6 (fun _ => none)) 7 [1, 2, 3, 4, 5, 6] 9).1 (by decide)
        (by decide) (by decide) (by decide)⟩,
    ⟨demo_empty_ring, (q_delete_mid_spec (INIT_LIST_HEAD demo 1) 1 [] 9).2.1 demo_empty_ring⟩⟩

/-! ## Reversal -/

@[simp] theorem swapOn_value (h : Heap) (S : List Ptr) : (h.swapOn S).value = h.value := rfl
@[simp] theorem swapOn_live (h : Heap) (S : List Ptr) : (h.swapOn S).live = h.live := rfl

theorem swapOn_next_mem (h : Heap) {S : List Ptr} {q : Ptr} (hq : q ∈ S) :
    (h.swapOn S).next q = h.prev q := if_pos hq

theorem swapOn_prev_mem (h : Heap) {S : List Ptr} {q : Ptr} (hq : q ∈ S) :
    (h.swapOn S).prev q = h.next q := if_pos hq

theorem swapOn_next_not_mem (h : Heap) {S : List Ptr} {q : Ptr} (hq : q ∉ S) :
    (h.swapOn S).next q = h.next q := if_neg hq

theorem swapOn_prev_not_mem (h : Heap) {S : List Ptr} {q : Ptr} (hq : q ∉ S) :
    (h.swapOn S).prev q = h.prev q := if_neg hq

theorem swapOn_swapOn (h : Heap) (S : List Ptr) : (h.swapOn S).swapOn S = h := by
  apply Heap.ext_fields <;> try rfl
  · funext q
    by_cases hq : q ∈ S <;> simp [Heap.swapOn, hq]
  · funext q
    by_cases hq : q ∈ S <;> simp [Heap.swapOn, hq]

theorem q_reverse_loop_seg (head : Ptr) :
    ∀ (R : List Ptr) (p : Ptr) (h : Heap) (fuel : Nat), Seg h.next (h.next p) R head →
      (p :: R).Nodup → head ∉ R → R.length < fuel →
      q_reverse_loop fuel h head p = some (h.swapOn (p :: R)) := by
  intro R
  induction R with
  | nil =>
    intro p h fuel hs _ _ hf
    cases fuel with
    | zero => simp at hf
    | succ n =>
      simp only [seg_nil] at hs
      simp only [q_reverse_loop, setNext_prev, setPrev_prev, upd_same, hs, ne_eq,
        not_true_eq_false, ite_false, Option.some.injEq]
      apply Heap.ext_fields <;> try rfl
      · funext q
        by_cases hq : q = p <;> simp [Heap.swapOn, upd, hq]
      · funext q
        by_cases hq : q = p <;> simp [Heap.swapOn, upd, hq, hs]
  | cons r R ih =>
    intro p h fuel hs hnd hh hf
    cases fuel with
    | zero => simp at hf
    | succ n =>
      simp only [seg_cons] at hs
      obtain ⟨hr, hs⟩ := hs
      simp only [List.mem_cons, not_or] at hh
      simp only [List.length_cons, Nat.add_lt_add_iff_right] at hf
      have hnd2 : (r :: R).Nodup := (List.nodup_cons.1 hnd).2
      have hp : p ∉ r :: R := (List.nodup_cons.1 hnd).1
      have hrp : r ≠ p := fun e => hp (by simp [e])
      have hrh : r ≠ head := fun e => hh.1 e.symm
      simp only [q_reverse_loop, setNext_prev, setPrev_prev, upd_same, hr, ne_eq, hrh,
        not_false_eq_true, ite_true]
      rw [ih r ((h.setPrev p r).setNext p (h.prev p)) n ?_ hnd2 hh.2 hf]
      · congr 1
        apply Heap.ext_fields <;> try rfl
        · funext q
          by_cases hq : q = p
          · subst hq
            rw [swapOn_next_not_mem _ hp, swapOn_next_mem _ (List.mem_cons_self _ _)]
            simp
          · by_cases hq2 : q ∈ r :: R
            · rw [swapOn_next_mem _ hq2, swapOn_next_mem _ (List.mem_cons_of_mem _ hq2)]
              simp [upd_ne _ _ hq]
            · have hq3 : q ∉ p :: r :: R := by
                simp only [List.mem_cons, not_or] at hq2 ⊢
                exact ⟨hq, hq2⟩
              rw [swapOn_next_not_mem _ hq2, swapOn_next_not_mem _ hq3]
              simp [upd_ne _ _ hq]
        · funext q
          by_cases hq : q = p
          · subst hq
            rw [swapOn_prev_not_mem _ hp, swapOn_prev_mem _ (List.mem_cons_self _ _)]
            simp [hr]
          · by_cases hq2 : q ∈ r :: R
            · rw [swapOn_prev_mem _ hq2, swapOn_prev_mem _ (List.mem_cons_of_mem _ hq2)]
              simp [upd_ne _ _ hq]
            · have hq3 : q ∉ p :: r :: R := by
                simp only [List.mem_cons, not_or] at hq2 ⊢
                exact ⟨hq, hq2⟩
              rw [swapOn_prev_not_mem _ hq2, swapOn_prev_not_mem _ hq3]
              simp [upd_ne _ _ hq]
      · simp only [setNext_next, setPrev_next, upd_ne _ _ hrp]
        have hpR : p ∉ R := fun e => hp (by simp [e])
        rw [seg_upd hpR]
        exact hs

/-- `q_reverse` exchanges the two links of the sentinel and of every
element. -/
theorem q_reverse_eq {h : Heap} {head : Ptr} {xs : List Ptr} (hr : Ring h head xs)
    {fuel : Nat} (hf : xs.length < fuel) :
    q_reverse fuel h head = some (h.swapOn (head :: xs)) := by
  unfold q_reverse
  by_cases he : xs = []
  · subst he
    have h1 : h.next head = head := by simpa using hr.next_head
    have h2 : h.prev head = head := by simpa using hr.prev_head
    rw [if_pos (Or.inr ((hr.empty_iff).2 rfl))]
    congr 1
    apply Heap.ext_fields <;> try rfl
    · funext q
      by_cases hq : q = head <;> simp [Heap.swapOn, hq, h1, h2]
    · funext q
      by_cases hq : q = head <;> simp [Heap.swapOn, hq, h1, h2]
  · have hne : ¬ (head = 0 ∨ list_empty h head = true) := by
      rw [hr.empty_iff]
      simp [hr.head_ne, he]
    rw [if_neg hne]
    exact q_reverse_loop_seg head xs head h fuel hr.fwd hr.nodup hr.head_not_mem hf

theorem ring_swapOn {h : Heap} {head : Ptr} {xs : List Ptr} (hr : Ring h head xs) :
    Ring (h.swapOn (head :: xs)) head xs.reverse := by
  apply hr.flip.congr
  · intro p hp
    have : p ∈ head :: xs := by simpa using hp
    rw [swapOn_next_mem _ this]
    rfl
  · intro p hp
    have : p ∈ head :: xs := by simpa using hp
    rw [swapOn_prev_mem _ this]
    rfl
  · intro p _
    rfl

/-- C6: on a well-formed queue holding the elements `xs`, `q_reverse` ends and
the queue afterwards holds the same nodes in the reverse order; no value is
changed and no block is allocated or freed. -/
theorem q_reverse_spec (h : Heap) (head : Ptr) (xs : List Ptr) (fuel : Nat)
    (hr : Ring h head xs) (hf : xs.length < fuel) :
    ∃ h1, q_reverse fuel h head = some h1 ∧ Ring h1 head xs.reverse ∧
      h1.value = h.value ∧ h1.live = h.live :=
  ⟨h.swapOn (head :: xs), q_reverse_eq hr hf, ring_swapOn hr, rfl, rfl⟩

theorem q_reverse_spec_witness :
    Ring demo 1 [2, 3, 4] ∧ [2, 3, 4].length < 9 ∧
    ∃ h1, q_reverse 9 demo 1 = some h1 ∧ Ring h1 1 [2, 3, 4].reverse ∧
      h1.value = demo.value ∧ h1.live = demo.live :=
  ⟨demo_ring, by decide, q_reverse_spec demo 1 [2, 3, 4] 9 demo_ring (by decide)⟩

/-- C7: on a well-formed queue holding the elements `xs`, applying `q_reverse`
twice gives a queue that holds `xs` again, in the original order; the heap is
back to what it was at the start. -/
theorem q_reverse_twice (h : Heap) (head : Ptr) (xs : List Ptr) (fuel : Nat)
    (hr : Ring h head xs) (hf : xs.length < fuel) :
    ∃ h1 h2, q_reverse fuel h head = some h1 ∧ q_reverse fuel h1 head = some h2 ∧
      Ring h2 head xs ∧ h2 = h := by
  refine ⟨h.swapOn (head :: xs), h, q_reverse_eq hr hf, ?_, hr, rfl⟩
  have hr1 := ring_swapOn hr
  rw [q_reverse_eq hr1 (by simpa using hf)]
  congr 1
  apply Heap.ext_fields <;> try rfl
  · funext q
    by_cases hq : q = head
    · simp [Heap.swapOn, hq]
    · by_cases hq2 : q ∈ xs <;> simp [Heap.swapOn, hq, hq2]
  · funext q
    by_cases hq : q = head
    · simp [Heap.swapOn, hq]
    · by_cases hq2 : q ∈ xs <;> simp [Heap.swapOn, hq, hq2]

theorem q_reverse_twice_witness :
    Ring demo 1 [2, 3, 4] ∧ [2, 3, 4].length < 9 ∧
    ∃ h1 h2, q_reverse 9 demo 1 = some h1 ∧ q_reverse 9 h1 1 = some h2 ∧
      Ring h2 1 [2, 3, 4] ∧ h2 = demo :=
  ⟨demo_ring, by decide, q_reverse_twice demo 1 [2, 3, 4] 9 demo_ring (by decide)⟩

/-! ## Pairwise swap -/

theorem swap_fwd (nx : Ptr → Ptr) (head f s : Ptr) (done r : List Ptr)
    (hnd : (head :: (done ++ f :: s :: r)).Nodup)
    (hs : Seg nx (nx head) (done ++ f :: s :: r) head) :
    Seg (upd (upd (upd nx f (r.headD head)) (done.reverse.headD head) s) s f)
      (upd (upd (upd nx f (r.headD head)) (done.reverse.headD head) s) s f head)
      (done ++ s :: f :: r) head := by
  rcases List.eq_nil_or_concat done with rfl | ⟨A, p, rfl⟩
  · simp only [List.nil_append, List.nodup_cons, List.mem_cons, not_or] at hnd
    obtain ⟨⟨hhf, hhs, hhr⟩, ⟨hfs, hfr⟩, hsr, _⟩ := hnd
    simp only [List.nil_append, seg_cons] at hs
    obtain ⟨_, _, hs⟩ := hs
    simp only [List.nil_append, List.reverse_nil, List.headD_nil, seg_cons, upd_same,
      upd_ne _ _ hhs, upd_ne _ _ hfs, upd_ne _ _ (Ne.symm hhf), true_and]
    rw [seg_upd hsr, seg_upd hhr, seg_upd hfr, ← seg_start hs]
    exact hs
  · simp only [List.concat_eq_append, List.append_assoc, List.singleton_append, List.nodup_cons,
      List.nodup_append, List.mem_append, List.mem_cons, not_or, List.disjoint_cons_right,
      List.disjoint_left] at hnd
    obtain ⟨⟨hhA, hhp, hhf, hhs, hhr⟩, _, ⟨⟨hpf, hps, hpr⟩, ⟨hfs, hfr⟩, hsr, _⟩, hdis⟩ := hnd
    have hAp : p ∉ A := fun e => (hdis e).1 rfl
    have hAf : f ∉ A := fun e => (hdis e).2.1 rfl
    have hAs : s ∉ A := fun e => (hdis e).2.2.1 rfl
    simp only [List.concat_eq_append, List.append_assoc, List.singleton_append, seg_append,
      seg_cons] at hs
    obtain ⟨m, hA, rfl, hmf, hfs2, hs⟩ := hs
    simp only [List.concat_eq_append, List.append_assoc, List.singleton_append,
      List.reverse_append, List.reverse_cons, List.reverse_nil, List.nil_append, List.headD_cons,
      seg_append, seg_cons, upd_same, upd_ne _ _ hhs, upd_ne _ _ hhp, upd_ne _ _ hhf,
      upd_ne _ _ hps, upd_ne _ _ hfs, upd_ne _ _ (Ne.symm hpf)]
    refine ⟨m, ?_, rfl, trivial, trivial, ?_⟩
    · rw [seg_upd hAs, seg_upd hAp, seg_upd hAf]
      exact hA
    · rw [seg_upd hsr, seg_upd hpr, seg_upd hfr, ← seg_start hs]
      exact hs

theorem upd_comm {β : Type} (f : Ptr → β) {p q : Ptr} (v w : β) (hpq : p ≠ q) :
    upd (upd f p v) q w = upd (upd f q w) p v := by
  funext x
  simp only [upd]
  by_cases h1 : x = q
  · subst h1
    simp [Ne.symm hpq]
  · simp [h1]

/-- The heap after one run of the body of the loop of `q_swap`. -/
theorem swap_step_ring {h : Heap} {head f s : Ptr} {done r : List Ptr}
    (hr : Ring h head (done ++ f :: s :: r)) (k : Heap)
    (hn : k.next = upd (upd (upd h.next f (r.headD head)) (done.reverse.headD head) s) s f)
    (hp : k.prev = upd (upd (upd h.prev (r.headD head) f) s (done.reverse.headD head)) f s)
    (hl : k.live = h.live) : Ring k head (done ++ s :: f :: r) := by
  have hnd := hr.nodup
  have hperm : (head :: (done ++ s :: f :: r)).Perm (head :: (done ++ f :: s :: r)) := by
    apply List.Perm.cons
    apply List.Perm.append_left
    exact List.Perm.swap f s r
  refine ⟨hr.head_ne, hperm.nodup_iff.2 hnd, ?_, ?_, ?_, ?_⟩
  · have := hr.nonnull
    simp only [List.mem_append, List.mem_cons, not_or] at this ⊢
    tauto
  · rw [hn]
    exact swap_fwd h.next head f s done r hnd hr.fwd
  · have hfl := hr.flip
    simp only [List.reverse_append, List.reverse_cons, List.append_assoc, List.singleton_append,
      List.nil_append] at hfl
    have hnd2 := hfl.nodup
    have hns : r.headD head ≠ s := by
      have hnd3 := hnd
      simp only [List.nodup_cons, List.nodup_append, List.mem_append, List.mem_cons, not_or] at hnd3
      cases r with
      | nil => simp only [List.headD_nil]; tauto
      | cons y r =>
        simp only [List.headD_cons, List.mem_cons, not_or] at hnd3 ⊢
        intro e
        exact hnd3.2.2.1.2.1.1 e.symm
    have := swap_fwd h.prev head s f r.reverse done.reverse hnd2 hfl.fwd
    simp only [List.reverse_reverse] at this
    rw [hp, upd_comm _ _ _ hns]
    simpa using this
  · intro q hq
    rw [hl]
    exact hr.alive q (hperm.subset hq)

theorem q_swap_loop_ring (head : Ptr) :
    ∀ (fuel : Nat) (rest done : List Ptr) (h : Heap), Ring h head (done ++ rest) →
      rest.length < fuel →
      ∃ h1, q_swap_loop fuel h head (rest.headD head) (h.next (rest.headD head)) = some h1 ∧
        Ring h1 head (done ++ swapPairs rest) ∧ h1.value = h.value ∧ h1.live = h.live := by
  intro fuel
  induction fuel with
  | zero => intro rest done h _ hf; simp at hf
  | succ n ih =>
    intro rest done h hr hf
    match rest, hr, hf with
    | [], hr, _ =>
      exact ⟨h, by simp [q_swap_loop], by simpa [swapPairs] using hr, rfl, rfl⟩
    | [f], hr, _ =>
      have h1 : h.next f = head := by simpa using hr.next_mem
      exact ⟨h, by simp [q_swap_loop, h1], by simpa [swapPairs] using hr, rfl, rfl⟩
    | f :: s :: r, hr, hf =>
      have hnd := hr.nodup
      simp only [List.nodup_cons, List.nodup_append, List.mem_append, List.mem_cons, not_or,
        List.disjoint_cons_right] at hnd
      obtain ⟨⟨hhd, hhf, hhs, hhr⟩, _, ⟨⟨hfs, hfr⟩, hsr, _⟩, hdf, hds, _⟩ := hnd
      have e1 : h.next f = s := by simpa using hr.next_mem
      have hr2 : Ring h head ((done ++ [f]) ++ s :: r) := by simpa using hr
      have e2 : h.next s = r.headD head := hr2.next_mem
      have e3 : h.prev f = done.reverse.headD head := hr.prev_mem
      have hfn : f ≠ r.headD head := by
        cases r with
        | nil => exact Ne.symm hhf
        | cons y r =>
          simp only [List.mem_cons, not_or] at hfr
          exact hfr.1
      have hfp : f ≠ done.reverse.headD head := by
        rcases List.eq_nil_or_concat done with rfl | ⟨A, p, rfl⟩
        · exact Ne.symm hhf
        · simp only [List.concat_eq_append, List.mem_append, List.mem_singleton, not_or] at hdf
          simp only [List.concat_eq_append, List.reverse_append, List.reverse_cons,
            List.reverse_nil, List.nil_append, List.singleton_append, List.headD_cons]
          exact hdf.2
      let k : Heap := (((((h.setNext f (r.headD head)).setPrev (r.headD head) f).setPrev s
        (done.reverse.headD head)).setNext (done.reverse.headD head) s).setPrev f s).setNext s f
      have hk : Ring k head ((done ++ [s, f]) ++ r) := by
        have := swap_step_ring hr k rfl rfl rfl
        simpa using this
      have hkf : upd (upd (upd h.next f (r.headD head)) (done.reverse.headD head) s) s f f
          = r.headD head := by
        rw [upd_ne _ _ hfs, upd_ne _ _ hfp, upd_same]
      obtain ⟨h1, hrun, hring, hv, hl⟩ := ih r (done ++ [s, f]) k hk (by simp at hf; omega)
      refine ⟨h1, ?_, ?_, hv, hl⟩
      · simp only [List.headD_cons, q_swap_loop, e1, ne_eq, Ne.symm hhf, Ne.symm hhs,
          not_false_eq_true, and_self, ite_true, e2, setNext_next, setPrev_next, upd_same,
          setPrev_prev, setNext_prev, upd_ne _ _ hfn, e3]
        rw [← hrun, hkf]
        rfl
      · simpa [swapPairs] using hring

/-- C5: on a well-formed queue holding `[x1, x2, x3, x4, ...]`, `q_swap` ends
and the queue afterwards holds `[x2, x1, x4, x3, ...]`, a last unpaired
element staying last; these are the same nodes, no value is changed and no
block is allocated or freed. -/
theorem q_swap_spec (h : Heap) (head : Ptr) (xs : List Ptr) (fuel : Nat)
    (hr : Ring h head xs) (hf : xs.length < fuel) :
    ∃ h1, q_swap fuel h head = some h1 ∧ Ring h1 head (swapPairs xs) ∧
      h1.value = h.value ∧ h1.live = h.live := by
  by_cases he : xs = []
  · subst he
    refine ⟨h, ?_, by simpa [swapPairs] using hr, rfl, rfl⟩
    unfold q_swap
    rw [if_pos (Or.inr ((hr.empty_iff).2 rfl))]
  · have hne : ¬ (head = 0 ∨ list_empty h head = true) := by
      rw [hr.empty_iff]
      simp [hr.head_ne, he]
    obtain ⟨h1, hrun, hring, hv, hl⟩ := q_swap_loop_ring head fuel xs [] h (by simpa using hr) hf
    refine ⟨h1, ?_, by simpa using hring, hv, hl⟩
    unfold q_swap
    rw [if_neg hne, hr.next_head]
    exact hrun

theorem q_swap_spec_witness :
    Ring (ringUpTo 5 (fun _ => none)) 6 [1, 2, 3, 4, 5] ∧ [1, 2, 3, 4, 5].length < 9 ∧
    ∃ h1, q_swap 9 (ringUpTo 5 (fun _ => none)) 6 = some h1 ∧ Ring h1 6 [2, 1, 4, 3, 5] ∧
      h1.value = (ringUpTo 5 (fun _ => none)).value ∧
      h1.live = (ringUpTo 5 (fun _ => none)).live :=
  ⟨by decide, by decide, q_swap_spec (ringUpTo 5 (fun _ => none)) 6 [1, 2, 3, 4, 5] 9 (by decide)
    (by decide)⟩

/-! ## String comparison -/

theorem strcmp_self (a : Str) : strcmp a a = 0 := by
  induction a with
  | nil => rfl
  | cons x a ih => simp [strcmp, ih]

theorem strcmp_eq_zero {a b : Str} : strcmp a b = 0 ↔ a = b := by
  constructor
  · intro h
    induction a generalizing b with
    | nil =>
      cases b with
      | nil => rfl
      | cons y b => simp [strcmp] at h
    | cons x a ih =>
      cases b with
      | nil => simp [strcmp] at h
      | cons y b =>
        simp only [strcmp] at h
        split_ifs at h with h1 h2
        · exact absurd h (by decide)
        · have hxy : x = y := by omega
          rw [hxy, ih h]
  · rintro rfl
    exact strcmp_self a

theorem strcmp_swap (a b : Str) : strcmp b a = -strcmp a b := by
  induction a generalizing b with
  | nil => cases b <;> simp [strcmp]
  | cons x a ih =>
    cases b with
    | nil => simp [strcmp]
    | cons y b =>
      simp only [strcmp]
      split_ifs <;> first | omega | rfl | exact ih b

theorem strcmp_total (a b : Str) : strcmp a b ≤ 0 ∨ strcmp b a ≤ 0 := by
  rw [strcmp_swap a b]
  omega

theorem strcmp_antisymm {a b : Str} (h1 : strcmp a b ≤ 0) (h2 : strcmp b a ≤ 0) : a = b := by
  rw [strcmp_swap a b] at h2
  exact strcmp_eq_zero.1 (by omega)

theorem strcmp_trans {a b c : Str} (h1 : strcmp a b ≤ 0) (h2 : strcmp b c ≤ 0) :
    strcmp a c ≤ 0 := by
  induction a generalizing b c with
  | nil => cases c <;> simp [strcmp]
  | cons x a ih =>
    cases b with
    | nil => simp [strcmp] at h1
    | cons y b =>
      cases c with
      | nil => simp [strcmp] at h2
      | cons z c =>
        simp only [strcmp] at h1 h2 ⊢
        split_ifs at h1 h2 ⊢ <;> first | omega | exact ih h1 h2

/-! ## Deleting duplicates -/

theorem valueOf_release_ne (h : Heap) {x q : Ptr} (hq : q ≠ x) :
    (q_release_element h x).valueOf q = h.valueOf q := by
  simp [Heap.valueOf, upd_ne _ _ hq]

theorem keepLonely_sublist (v : Ptr → Str) :
    ∀ (l : List Ptr) (p : Option Str), (keepLonely v p l).Sublist l := by
  intro l
  induction l with
  | nil => intro p; simp [keepLonely]
  | cons x l ih =>
    intro p
    simp only [keepLonely]
    split_ifs
    · exact (ih _).cons x
    · exact (ih _).cons₂ x

theorem dup_inner_ring (head : Ptr) (v : Ptr → Str) :
    ∀ (rest : List Ptr) (first : Ptr) (done : List Ptr) (h : Heap) (fuel : Nat),
      Ring h head (done ++ first :: rest) → (∀ q ∈ first :: rest, h.valueOf q = v q) →
      rest.length < fuel →
      ∃ h1 last, dup_inner fuel h head first (rest.headD 0) = some (h1, last) ∧
        Ring h1 head (done ++ last :: rest.dropWhile (fun q => decide (v q = v first))) ∧
        (∀ q ∈ done ++ rest.dropWhile (fun q => decide (v q = v first)),
          h1.value q = h.value q) := by
  intro rest
  induction rest with
  | nil =>
    intro first done h fuel hr _ hf
    cases fuel with
    | zero => simp at hf
    | succ n => exact ⟨h, first, by simp [dup_inner], by simpa using hr, fun _ _ => rfl⟩
  | cons y rest ih =>
    intro first done h fuel hr hv hf
    cases fuel with
    | zero => simp at hf
    | succ n =>
      simp only [List.length_cons, Nat.add_lt_add_iff_right] at hf
      have hnd := hr.nodup
      simp only [List.nodup_cons, List.nodup_append, List.mem_append, List.mem_cons, not_or,
        List.disjoint_cons_right] at hnd
      obtain ⟨_, _, ⟨⟨hfy, hfr⟩, hyr, _⟩, hdf, hdy, hdis⟩ := hnd
      have hy0 : y ≠ 0 := by
        have := hr.nonnull
        simp only [List.mem_append, List.mem_cons, not_or] at this
        exact fun e => this.2.2.1 e.symm
      have hvf : h.valueOf first = v first := hv first (by simp)
      have hvy : h.valueOf y = v y := hv y (by simp)
      by_cases heq : v y = v first
      · have hr1 : Ring (q_release_element (list_del h first) first) head (done ++ y :: rest) :=
          ring_delete hr
        have hnext : (q_release_element (list_del h first) first).next y = rest.headD head :=
          hr1.next_mem
        have hsec : (if (q_release_element (list_del h first) first).next y ≠ head
            then (q_release_element (list_del h first) first).next y else 0) = rest.headD 0 := by
          rw [hnext]
          cases rest with
          | nil => simp
          | cons z rest =>
            have := hr.head_not_mem
            simp only [List.mem_append, List.mem_cons, not_or] at this
            simp only [List.headD_cons, ne_eq, ite_not, ite_eq_right_iff]
            intro e
            exact absurd e.symm this.2.2.2.1
        have hv1 : ∀ q ∈ y :: rest, (q_release_element (list_del h first) first).valueOf q = v q := by
          intro q hq
          have hqf : q ≠ first := by
            rintro rfl
            simp only [List.mem_cons] at hq
            rcases hq with e | e
            · exact hfy e
            · exact hfr e
          rw [valueOf_release_ne _ hqf]
          exact hv q (by simp only [List.mem_cons] at hq ⊢; tauto)
        obtain ⟨h2, last, hrun, hring, hval⟩ := ih y done _ n hr1 hv1 hf
        refine ⟨h2, last, ?_, ?_, ?_⟩
        · simp only [List.headD_cons, dup_inner, ne_eq, hy0, not_false_eq_true, hvf, hvy,
            strcmp_eq_zero, heq.symm, and_self, ite_true]
          rw [hsec]
          exact hrun
        · simpa [List.dropWhile, heq] using hring
        · intro q hq
          have hq2 : q ∈ done ++ rest.dropWhile (fun q => decide (v q = v y)) := by
            simpa [List.dropWhile, heq] using hq
          rw [hval q hq2]
          have hqf : q ≠ first := by
            rintro rfl
            simp only [List.mem_append] at hq2
            rcases hq2 with e | e
            · exact hdf e
            · exact hfr (List.dropWhile_sublist _ |>.subset e)
          simp [upd_ne _ _ hqf, list_del_value]
      · refine ⟨h, first, ?_, ?_, ?_⟩
        · simp only [List.headD_cons, dup_inner, ne_eq, hy0, not_false_eq_true, hvf, hvy,
            strcmp_eq_zero, true_and, ite_eq_right_iff]
          intro e
          exact absurd e.symm heq
        · simpa [List.dropWhile, heq] using hr
        · intro _ _
          rfl

theorem keepLonely_dropWhile (v : Ptr → Str) (a : Str) :
    ∀ l : List Ptr, keepLonely v (some a) l
      = keepLonely v (some a) (l.dropWhile (fun q => decide (v q = a))) := by
  intro l
  induction l with
  | nil => rfl
  | cons x l ih =>
    by_cases hx : v x = a
    · rw [List.dropWhile_cons_of_pos (by simpa using hx), ← ih]
      simp [keepLonely, hx]
    · rw [List.dropWhile_cons_of_neg (by simpa using hx)]

theorem head_dropWhile_ne (v : Ptr → Str) (a : Str) (l : List Ptr) (x : Ptr)
    (hx : (l.dropWhile (fun q => decide (v q = a))).head? = some x) : v x ≠ a := by
  have := List.head?_dropWhile_not (fun q => decide (v q = a)) l
  rw [hx] at this
  simpa using this

theorem dup_outer_ring (head : Ptr) (v : Ptr → Str) :
    ∀ (fuel : Nat) (rest done : List Ptr) (h : Heap) (p : Option Str),
      Ring h head (done ++ rest) → (∀ q ∈ rest, h.valueOf q = v q) →
      (∀ x, rest.head? = some x → p ≠ some (v x)) → rest.length < fuel →
      ∃ h1, dup_outer fuel h head (rest.headD head) = some h1 ∧
        Ring h1 head (done ++ keepLonely v p rest) ∧
        (∀ q ∈ done ++ keepLonely v p rest, h1.value q = h.value q) := by
  intro fuel
  induction fuel with
  | zero => intro rest done h p _ _ _ hf; simp at hf
  | succ n ih =>
    intro rest done h p hr hv hp hf
    match rest, hr, hv, hp, hf with
    | [], hr, _, _, _ =>
      exact ⟨h, by simp [dup_outer], by simpa [keepLonely] using hr, fun _ _ => rfl⟩
    | [x], hr, _, hp, _ =>
      have h1 : h.next x = head := by simpa using hr.next_mem
      have hpx : p ≠ some (v x) := hp x rfl
      exact ⟨h, by simp [dup_outer, h1], by simpa [keepLonely, hpx] using hr, fun _ _ => rfl⟩
    | x :: y :: l, hr, hv, hp, hf =>
      have hhm := hr.head_not_mem
      simp only [List.mem_append, List.mem_cons, not_or] at hhm
      obtain ⟨_, hhx, hhy, _⟩ := hhm
      have e1 : h.next x = y := by simpa using hr.next_mem
      have hvx : h.valueOf x = v x := hv x (by simp)
      have hvy : h.valueOf y = v y := hv y (by simp)
      have hpx : p ≠ some (v x) := hp x rfl
      simp only [List.length_cons] at hf
      by_cases heq : v x = v y
      · obtain ⟨h1, last, hrun, hring, hval⟩ :=
          dup_inner_ring head v (y :: l) x done h n hr hv (by simp; omega)
        have hnd := hring.nodup
        simp only [List.nodup_cons, List.nodup_append, List.mem_append, List.mem_cons, not_or,
          List.disjoint_cons_right] at hnd
        obtain ⟨_, _, ⟨hlr, _⟩, hld, _⟩ := hnd
        have hlast : ∀ q ∈ done ++ (y :: l).dropWhile (fun q => decide (v q = v x)), q ≠ last := by
          rintro q hq rfl
          simp only [List.mem_append] at hq
          tauto
        have hr2 := ring_delete hring
        have hv2 : ∀ q ∈ (y :: l).dropWhile (fun q => decide (v q = v x)),
            (q_release_element (list_del h1 last) last).valueOf q = v q := by
          intro q hq
          rw [valueOf_release_ne _ (hlast q (by simp [hq]))]
          have e : (list_del h1 last).valueOf q = h.valueOf q := by
            unfold Heap.valueOf
            rw [list_del_value, hval q (by simp [hq])]
          rw [e]
          exact hv q (List.mem_cons_of_mem _ ((List.dropWhile_sublist _).subset hq))
        have hlen : ((y :: l).dropWhile (fun q => decide (v q = v x))).length < n := by
          have hsub : ((y :: l).dropWhile (fun q => decide (v q = v x))).Sublist (y :: l) :=
            List.dropWhile_sublist _
          have := hsub.length_le
          simp only [List.length_cons] at this
          omega
        obtain ⟨h3, hrun3, hring3, hval3⟩ := ih _ done _ (some (v x)) hr2 hv2
          (fun z hz => by
            have := head_dropWhile_ne v (v x) (y :: l) z hz
            simpa using fun e => this e.symm) hlen
        have hkl : keepLonely v p (x :: y :: l)
            = keepLonely v (some (v x)) ((y :: l).dropWhile (fun q => decide (v q = v x))) := by
          rw [← keepLonely_dropWhile]
          simp [keepLonely, heq]
        refine ⟨h3, ?_, ?_, ?_⟩
        · simp only [List.headD_cons, dup_outer, ne_eq, Ne.symm hhx, not_false_eq_true, e1,
            Ne.symm hhy, and_self, ite_true, hvx, hvy, strcmp_eq_zero, heq]
          have hrun' : dup_inner n h head x y = some (h1, last) := by simpa using hrun
          rw [hrun']
          simp only
          rw [hring.next_mem]
          exact hrun3
        · rw [hkl]
          exact hring3
        · intro q hq
          rw [hkl] at hq
          have hq2 : q ∈ done ++ (y :: l).dropWhile (fun q => decide (v q = v x)) := by
            simp only [List.mem_append] at hq ⊢
            rcases hq with e | e
            · exact Or.inl e
            · exact Or.inr ((keepLonely_sublist v _ _).subset e)
          rw [hval3 q hq, release_value, upd_ne _ _ (hlast q hq2), list_del_value, hval q hq2]
      · have hr2 : Ring h head ((done ++ [x]) ++ y :: l) := by simpa using hr
        obtain ⟨h1, hrun, hring, hval⟩ := ih (y :: l) (done ++ [x]) h (some (v x)) hr2
          (fun q hq => hv q (List.mem_cons_of_mem _ hq))
          (fun z hz => by
            simp only [List.head?_cons, Option.some.injEq] at hz
            subst hz
            simpa using heq) (by simp; omega)
        have hkl : keepLonely v p (x :: y :: l) = x :: keepLonely v (some (v x)) (y :: l) := by
          simp [keepLonely, hpx, Ne.symm heq]
        refine ⟨h1, ?_, ?_, ?_⟩
        · simp only [List.headD_cons, dup_outer, ne_eq, Ne.symm hhx, not_false_eq_true, e1,
            Ne.symm hhy, and_self, ite_true, hvx, hvy, strcmp_eq_zero, heq, ite_false]
          simpa using hrun
        · rw [hkl]
          simpa using hring
        · intro q hq
          rw [hkl] at hq
          exact hval q (by simpa using hq)

/-- `q_delete_dup` keeps the elements whose value differs from the values of
both neighbours. -/
theorem q_delete_dup_ring {h : Heap} {head : Ptr} {xs : List Ptr} (hr : Ring h head xs)
    {fuel : Nat} (hf : xs.length < fuel) :
    ∃ h1, q_delete_dup fuel h head = some (h1, true) ∧
      Ring h1 head (keepLonely h.valueOf none xs) ∧
      ∀ q ∈ keepLonely h.valueOf none xs, h1.value q = h.value q := by
  obtain ⟨h1, hrun, hring, hval⟩ := dup_outer_ring head h.valueOf fuel xs [] h none
    (by simpa using hr) (fun _ _ => rfl) (fun _ _ => by simp) hf
  refine ⟨h1, ?_, by simpa using hring, by simpa using hval⟩
  unfold q_delete_dup
  rw [if_neg hr.head_ne, hr.next_head, hrun]

theorem sorted_mem_iff_head (v : Ptr → Str) (x : Ptr) (t : List Ptr)
    (hs : ((x :: t).map v).Pairwise (fun a b => strcmp a b ≤ 0)) :
    v x ∈ t.map v ↔ t.head?.map v = some (v x) := by
  cases t with
  | nil => simp
  | cons w t =>
    simp only [List.map_cons, List.pairwise_cons, List.mem_cons, List.mem_map,
      forall_eq_or_imp, forall_exists_index, and_imp, forall_apply_eq_imp_iff₂] at hs
    obtain ⟨⟨hxw, hxt⟩, hwt, _⟩ := hs
    simp only [List.map_cons, List.mem_cons, List.mem_map, List.head?_cons, Option.map_some',
      Option.some.injEq]
    constructor
    · rintro (e | ⟨z, hz, e⟩)
      · exact e.symm
      · have h1 : strcmp (v w) (v x) ≤ 0 := by
          rw [← e]
          exact hwt z hz
        exact strcmp_antisymm h1 hxw
    · intro e
      exact Or.inl e.symm

theorem keepLonely_sorted (v : Ptr → Str) :
    ∀ (l : List Ptr) (p : Option Str), (l.map v).Pairwise (fun a b => strcmp a b ≤ 0) →
      (∀ a, p = some a → ∀ x ∈ l, strcmp a (v x) ≤ 0) →
      keepLonely v p l = l.filter (fun q => decide ((p.toList ++ l.map v).count (v q) = 1)) := by
  intro l
  induction l with
  | nil => intro p _ _; rfl
  | cons x t ih =>
    intro p hs hp
    have hs2 := hs
    simp only [List.map_cons, List.pairwise_cons, List.mem_map, forall_exists_index, and_imp,
      forall_apply_eq_imp_iff₂] at hs2
    obtain ⟨hxt, hs1⟩ := hs2
    have ih1 := ih (some (v x)) hs1 (fun a ha z hz => by
      cases ha
      exact hxt z hz)
    have hfilter : t.filter (fun q => decide ((p.toList ++ (x :: t).map v).count (v q) = 1))
        = t.filter (fun q => decide (((some (v x)).toList ++ t.map v).count (v q) = 1)) := by
      apply List.filter_congr
      intro q hq
      have hpos : 0 < (t.map v).count (v q) := List.count_pos_iff.2 (List.mem_map_of_mem v hq)
      cases p with
      | none => simp
      | some a =>
        by_cases ha : a = v q
        · have hxa : v x = v q := by
            have h1 : strcmp a (v x) ≤ 0 := hp a rfl x (by simp)
            have h2 : strcmp (v x) a ≤ 0 := by
              rw [ha]
              exact hxt q hq
            rw [← ha]
            exact (strcmp_antisymm h1 h2).symm
          simp only [Option.toList_some, List.map_cons, List.singleton_append, List.count_cons,
            ha, hxa, beq_self_eq_true, ite_true, decide_eq_decide]
          omega
        · simp [List.count_cons, ha]
    have hcond : (p = some (v x) ∨ t.head?.map v = some (v x))
        ↔ ¬ ((p.toList ++ (x :: t).map v).count (v x) = 1) := by
      rw [← sorted_mem_iff_head v x t hs, ← List.count_pos_iff]
      cases p with
      | none =>
        simp only [false_or, Option.toList_none, List.nil_append, List.map_cons,
          List.count_cons_self, reduceCtorEq]
        omega
      | some a =>
        by_cases ha : a = v x
        · simp [ha]
        · simp only [Option.some.injEq, ha, false_or, Option.toList_some, List.map_cons,
            List.singleton_append]
          rw [List.count_cons_of_ne (Ne.symm ha), List.count_cons_self]
          omega
    simp only [keepLonely, List.filter_cons]
    by_cases hc : p = some (v x) ∨ t.head?.map v = some (v x)
    · rw [if_pos hc, if_neg (by simpa using hcond.1 hc), ih1, hfilter]
    · rw [if_neg hc, if_pos (by simpa using not_not.1 (fun e => hc (hcond.2 e))), ih1, hfilter]

/-- C3: on a well-formed queue whose values are in ascending order (and are
all present), `q_delete_dup` ends and returns true, and the queue afterwards
holds, in their original order and with their values, exactly the elements
whose value occurs once in the queue: every copy of a value that occurs two or
more times is removed. -/
theorem q_delete_dup_sorted (h : Heap) (head : Ptr) (xs : List Ptr) (fuel : Nat)
    (hr : Ring h head xs) (_hv : ∀ p ∈ xs, h.value p ≠ none)
    (hs : (h.values xs).Pairwise (fun a b => strcmp a b ≤ 0)) (hf : xs.length < fuel) :
    ∃ h1, q_delete_dup fuel h head = some (h1, true) ∧
      Ring h1 head (xs.filter (fun p => decide ((h.values xs).count (h.valueOf p) = 1))) ∧
      ∀ q ∈ xs.filter (fun p => decide ((h.values xs).count (h.valueOf p) = 1)),
        h1.value q = h.value q := by
  obtain ⟨h1, hrun, hring, hval⟩ := q_delete_dup_ring hr hf
  have hk := keepLonely_sorted h.valueOf xs none hs (fun _ ha => by cases ha)
  simp only [Option.toList_none, List.nil_append] at hk
  rw [hk] at hring hval
  exact ⟨h1, hrun, hring, hval⟩

theorem q_delete_dup_sorted_witness :
    Ring (ringUpTo 6 dupValues) 7 [1, 2, 3, 4, 5, 6] ∧
    (∀ p ∈ [1, 2, 3, 4, 5, 6], (ringUpTo 6 dupValues).value p ≠ none) ∧
    ((ringUpTo 6 dupValues).values [1, 2, 3, 4, 5, 6]).Pairwise (fun a b => strcmp a b ≤ 0) ∧
    [1, 2, 3, 4, 5, 6].length < 9 ∧
    ∃ h1, q_delete_dup 9 (ringUpTo 6 dupValues) 7 = some (h1, true) ∧
      Ring h1 7 [3] ∧ ∀ q ∈ [3], h1.value q = (ringUpTo 6 dupValues).value q :=
  ⟨by decide, by decide, by decide, by decide,
    q_delete_dup_sorted (ringUpTo 6 dupValues) 7 [1, 2, 3, 4, 5, 6] 9 (by decide) (by decide)
      (by decide) (by decide)⟩

/-! ## Merging two chains -/

theorem merge_two_lists_eq (fuel : Nat) (h : Heap) (L1 L2 : Ptr) :
    merge_two_lists fuel h L1 L2 = (merge_loop fuel ⟨h, 0, none, L1, L2⟩).map merge_finish := by
  unfold merge_two_lists merge_finish
  cases merge_loop fuel ⟨h, 0, none, L1, L2⟩ with
  | none => rfl
  | some s =>
    simp only [Option.map]
    split_ifs <;> rfl

/-- What storing the chain `m` through `ptr` achieves. -/
theorem store_indirect_spec (h : Heap) (head : Ptr) (ptr : Option Ptr) (m : List Ptr)
    (hp : ∀ t, ptr = some t → t ∉ m) (hs : Seg h.next (m.headD 0) m 0) :
    Seg (store_indirect h head ptr (m.headD 0)).1.next (m.headD 0) m 0 ∧
    (ptr = none → (store_indirect h head ptr (m.headD 0)).2 = m.headD 0) ∧
    (∀ t, ptr = some t → (store_indirect h head ptr (m.headD 0)).2 = head ∧
      (store_indirect h head ptr (m.headD 0)).1.next t = m.headD 0) ∧
    (∀ q, ptr ≠ some q → (store_indirect h head ptr (m.headD 0)).1.next q = h.next q) ∧
    (store_indirect h head ptr (m.headD 0)).1.prev = h.prev ∧
    (store_indirect h head ptr (m.headD 0)).1.value = h.value ∧
    (store_indirect h head ptr (m.headD 0)).1.live = h.live := by
  cases ptr with
  | none =>
    refine ⟨hs, fun _ => rfl, fun t ht => (by cases ht), fun _ _ => rfl, rfl, rfl, rfl⟩
  | some t =>
    refine ⟨?_, fun e => (by cases e), ?_, ?_, rfl, rfl, rfl⟩
    · simp only [store_indirect, setNext_next]
      rw [seg_upd (hp t rfl)]
      exact hs
    · intro t' ht
      cases ht
      exact ⟨rfl, by simp [store_indirect]⟩
    · intro q hq
      simp only [store_indirect, setNext_next]
      apply upd_ne
      intro e
      exact hq (by rw [e])

theorem merge_loop_left (n : Nat) (s : MergeState) (h1 : s.L1 ≠ 0) (h2 : s.L2 ≠ 0)
    (h3 : decide (strcmp (s.heap.valueOf s.L1) (s.heap.valueOf s.L2) ≤ 0) = true) :
    merge_loop (n + 1) s = merge_loop n
      ⟨(store_indirect s.heap s.head s.ptr s.L1).1, (store_indirect s.heap s.head s.ptr s.L1).2,
        some s.L1, (store_indirect s.heap s.head s.ptr s.L1).1.next s.L1, s.L2⟩ := by
  simp [merge_loop, h1, h2, h3]

theorem merge_loop_right (n : Nat) (s : MergeState) (h1 : s.L1 ≠ 0) (h2 : s.L2 ≠ 0)
    (h3 : decide (strcmp (s.heap.valueOf s.L1) (s.heap.valueOf s.L2) ≤ 0) = false) :
    merge_loop (n + 1) s = merge_loop n
      ⟨(store_indirect s.heap s.head s.ptr s.L2).1, (store_indirect s.heap s.head s.ptr s.L2).2,
        some s.L2, s.L1, (store_indirect s.heap s.head s.ptr s.L2).1.next s.L2⟩ := by
  simp [merge_loop, h1, h2, h3]

theorem merge_loop_spec (le : Ptr → Ptr → Bool) :
    ∀ (fuel : Nat) (xs ys : List Ptr) (s : MergeState),
      (∀ a b, le a b = decide (strcmp (s.heap.valueOf a) (s.heap.valueOf b) ≤ 0)) →
      Seg s.heap.next s.L1 xs 0 → 0 ∉ xs → Seg s.heap.next s.L2 ys 0 → 0 ∉ ys →
      (xs ++ ys).Nodup → (∀ t, s.ptr = some t → t ∉ xs ++ ys) →
      xs.length + ys.length < fuel →
      ∃ s1, merge_loop fuel s = some s1 ∧
        Seg (merge_finish s1).1.next ((List.merge xs ys le).headD 0) (List.merge xs ys le) 0 ∧
        (s.ptr = none → (merge_finish s1).2 = (List.merge xs ys le).headD 0) ∧
        (∀ t, s.ptr = some t → (merge_finish s1).2 = s.head ∧
          (merge_finish s1).1.next t = (List.merge xs ys le).headD 0) ∧
        (∀ q, q ∉ xs ++ ys → s.ptr ≠ some q → (merge_finish s1).1.next q = s.heap.next q) ∧
        (merge_finish s1).1.prev = s.heap.prev ∧
        (merge_finish s1).1.value = s.heap.value ∧
        (merge_finish s1).1.live = s.heap.live := by
  intro fuel
  induction fuel with
  | zero => intro xs ys s _ _ _ _ _ _ _ hf; simp at hf
  | succ n ih =>
    intro xs ys s hle h1 h1n h2 h2n hnd hp hf
    match xs, ys, h1, h1n, h2, h2n, hnd, hp, hf with
    | [], ys, h1, _, h2, _, _, hp, _ =>
      simp only [seg_nil] at h1
      have e2 := seg_start h2
      have hfin : merge_finish s = store_indirect s.heap s.head s.ptr (ys.headD 0) := by
        simp [merge_finish, h1, e2]
      obtain ⟨a1, a2, a3, a4, a5, a6, a7⟩ := store_indirect_spec s.heap s.head s.ptr ys
        (fun t ht => by simpa using hp t ht) (by rw [← e2]; exact h2)
      refine ⟨s, by simp [merge_loop, h1], ?_⟩
      rw [hfin, List.nil_merge]
      exact ⟨a1, a2, a3, fun q _ hq => a4 q hq, a5, a6, a7⟩
    | x :: xs, [], h1, h1n, h2, _, _, hp, _ =>
      simp only [seg_nil] at h2
      have e1 := seg_start h1
      have hx0 : x ≠ 0 := fun e => h1n (by simp [e])
      have hfin : merge_finish s = store_indirect s.heap s.head s.ptr ((x :: xs).headD 0) := by
        simp only [merge_finish, e1, List.headD_cons, ne_eq, hx0, not_false_eq_true, ite_true]
      obtain ⟨a1, a2, a3, a4, a5, a6, a7⟩ := store_indirect_spec s.heap s.head s.ptr (x :: xs)
        (fun t ht => by simpa using hp t ht) (by rw [← e1]; exact h1)
      refine ⟨s, by simp [merge_loop, h2], ?_⟩
      rw [hfin, List.merge_right]
      exact ⟨a1, a2, a3, fun q _ hq => a4 q hq, a5, a6, a7⟩
    | x :: xs, y :: ys, h1, h1n, h2, h2n, hnd, hp, hf =>
      have hx0 : x ≠ 0 := fun e => h1n (by simp [e])
      have hy0 : y ≠ 0 := fun e => h2n (by simp [e])
      simp only [seg_cons] at h1 h2
      obtain ⟨e1, h1⟩ := h1
      obtain ⟨e2, h2⟩ := h2
      have hnd2 := hnd
      simp only [List.cons_append, List.nodup_cons, List.nodup_append, List.mem_append,
        List.mem_cons, not_or, List.disjoint_cons_right] at hnd2
      obtain ⟨⟨hxxs, hxy, hxys⟩, hxsnd, ⟨hyys, hysnd⟩, hyxs, hdis⟩ := hnd2
      have hptr : ∀ t, s.ptr = some t → t ≠ x ∧ t ≠ y ∧ t ∉ xs ∧ t ∉ ys := by
        intro t ht
        have := hp t ht
        simp only [List.cons_append, List.mem_cons, List.mem_append, not_or] at this
        tauto
      have hstore_next : ∀ (node q : Ptr), s.ptr ≠ some q →
          (store_indirect s.heap s.head s.ptr node).1.next q = s.heap.next q := by
        intro node q hq
        cases hs : s.ptr with
        | none => rfl
        | some t =>
          simp only [store_indirect, setNext_next]
          apply upd_ne
          intro e
          exact hq (by rw [hs, e])
      have hstore_seg : ∀ (node a : Ptr) (l : List Ptr), (∀ t, s.ptr = some t → t ∉ l) →
          Seg s.heap.next a l 0 → Seg (store_indirect s.heap s.head s.ptr node).1.next a l 0 := by
        intro node a l hl hseg
        refine (seg_congr (fun q hq => hstore_next node q ?_) a 0).2 hseg
        intro e
        exact hl q e hq
      have hstore_val : ∀ node, (store_indirect s.heap s.head s.ptr node).1.value = s.heap.value := by
        intro node
        cases s.ptr <;> rfl
      have hstore_prev : ∀ node, (store_indirect s.heap s.head s.ptr node).1.prev = s.heap.prev := by
        intro node
        cases s.ptr <;> rfl
      have hstore_live : ∀ node, (store_indirect s.heap s.head s.ptr node).1.live = s.heap.live := by
        intro node
        cases s.ptr <;> rfl
      have hstore_at : ∀ node t, s.ptr = some t →
          (store_indirect s.heap s.head s.ptr node).1.next t = node ∧
          (store_indirect s.heap s.head s.ptr node).2 = s.head := by
        intro node t ht
        rw [ht]
        exact ⟨by simp [store_indirect], rfl⟩
      have hstore_none : ∀ node, s.ptr = none →
          (store_indirect s.heap s.head s.ptr node).2 = node := by
        intro node ht
        rw [ht]
        rfl
      have hle1 : ∀ node a b, le a b = decide (strcmp
          ((store_indirect s.heap s.head s.ptr node).1.valueOf a)
          ((store_indirect s.heap s.head s.ptr node).1.valueOf b) ≤ 0) := by
        intro node a b
        rw [hle a b]
        unfold Heap.valueOf
        rw [hstore_val]
      by_cases hl : le x y = true
      · -- the node of the first chain is taken
        have hxs : ∀ t, s.ptr = some t → t ≠ x := fun t ht => (hptr t ht).1
        have hnx : (store_indirect s.heap s.head s.ptr x).1.next x = s.heap.next x :=
          hstore_next x x (fun e => hxs x e rfl)
        obtain ⟨s1, hrun, b1, _, b3, b4, b5, b6, b7⟩ := ih xs (y :: ys)
          ⟨(store_indirect s.heap s.head s.ptr x).1, (store_indirect s.heap s.head s.ptr x).2,
            some x, (store_indirect s.heap s.head s.ptr x).1.next x, y⟩
          (hle1 x)
          (by
            show Seg _ ((store_indirect s.heap s.head s.ptr x).1.next x) xs 0
            rw [hnx]
            exact hstore_seg x _ xs (fun t ht => (hptr t ht).2.2.1) h1)
          (fun e => h1n (by simp [e]))
          (by
            show Seg _ y (y :: ys) 0
            exact hstore_seg x _ (y :: ys) (fun t ht => by
              have := hptr t ht
              simp only [List.mem_cons, not_or]
              tauto) ⟨rfl, h2⟩)
          h2n
          (by
            have := hnd
            simp only [List.cons_append, List.nodup_cons] at this
            exact this.2)
          (fun t ht => by
            cases ht
            simp only [List.mem_append, List.mem_cons, not_or]
            tauto)
          (by simp at hf ⊢; omega)
        obtain ⟨b3a, b3b⟩ := b3 x rfl
        have hm : List.merge (x :: xs) (y :: ys) le = x :: List.merge xs (y :: ys) le := by
          rw [List.cons_merge_cons, if_pos hl]
        refine ⟨s1, ?_, ?_, ?_, ?_, ?_, ?_, ?_, ?_⟩
        · have hdec : decide (strcmp (s.heap.valueOf x) (s.heap.valueOf y) ≤ 0) = true := by
            rw [← hle]
            exact hl
          rw [merge_loop_left n s (e1 ▸ hx0) (e2 ▸ hy0) (by rw [e1, e2]; exact hdec), e1, e2]
          exact hrun
        · rw [hm]
          simp only [List.headD_cons, seg_cons, true_and]
          rw [b3b]
          exact b1
        · intro hnone
          rw [hm, b3a]
          exact hstore_none x hnone
        · intro t ht
          rw [hm, b3a]
          refine ⟨(hstore_at x t ht).2, ?_⟩
          rw [b4 t (by
            have := hptr t ht
            simp only [List.mem_append, List.mem_cons, not_or]
            tauto) (by
            simp only [ne_eq, Option.some.injEq]
            exact fun e => (hptr t ht).1 e.symm)]
          exact (hstore_at x t ht).1
        · intro q hq hqp
          simp only [List.cons_append, List.mem_cons, List.mem_append, not_or] at hq
          rw [b4 q (by
            simp only [List.mem_append, List.mem_cons, not_or]
            tauto) (by
            simp only [ne_eq, Option.some.injEq]
            exact fun e => hq.1 e.symm)]
          exact hstore_next x q hqp
        · rw [b5]
          exact hstore_prev x
        · rw [b6]
          exact hstore_val x
        · rw [b7]
          exact hstore_live x
      · -- the node of the second chain is taken
        have hys : ∀ t, s.ptr = some t → t ≠ y := fun t ht => (hptr t ht).2.1
        have hny : (store_indirect s.heap s.head s.ptr y).1.next y = s.heap.next y :=
          hstore_next y y (fun e => hys y e rfl)
        obtain ⟨s1, hrun, b1, _, b3, b4, b5, b6, b7⟩ := ih (x :: xs) ys
          ⟨(store_indirect s.heap s.head s.ptr y).1, (store_indirect s.heap s.head s.ptr y).2,
            some y, x, (store_indirect s.heap s.head s.ptr y).1.next y⟩
          (hle1 y)
          (by
            show Seg _ x (x :: xs) 0
            exact hstore_seg y _ (x :: xs) (fun t ht => by
              have := hptr t ht
              simp only [List.mem_cons, not_or]
              tauto) ⟨rfl, h1⟩)
          h1n
          (by
            show Seg _ ((store_indirect s.heap s.head s.ptr y).1.next y) ys 0
            rw [hny]
            exact hstore_seg y _ ys (fun t ht => (hptr t ht).2.2.2) h2)
          (fun e => h2n (by simp [e]))
          (by
            have hperm : ((x :: xs) ++ y :: ys).Perm (y :: ((x :: xs) ++ ys)) :=
              List.perm_middle
            have := hperm.nodup_iff.1 hnd
            simp only [List.nodup_cons] at this
            exact this.2)
          (fun t ht => by
            cases ht
            simp only [List.mem_append, List.mem_cons, not_or]
            refine ⟨⟨fun e => hxy e.symm, hyxs⟩, hyys⟩)
          (by simp at hf ⊢; omega)
        obtain ⟨b3a, b3b⟩ := b3 y rfl
        have hm : List.merge (x :: xs) (y :: ys) le = y :: List.merge (x :: xs) ys le := by
          rw [List.cons_merge_cons, if_neg hl]
        refine ⟨s1, ?_, ?_, ?_, ?_, ?_, ?_, ?_, ?_⟩
        · have hdec : decide (strcmp (s.heap.valueOf x) (s.heap.valueOf y) ≤ 0) = false := by
            rw [← hle]
            simpa using hl
          rw [merge_loop_right n s (e1 ▸ hx0) (e2 ▸ hy0) (by rw [e1, e2]; exact hdec), e1, e2]
          exact hrun
        · rw [hm]
          simp only [List.headD_cons, seg_cons, true_and]
          rw [b3b]
          exact b1
        · intro hnone
          rw [hm, b3a]
          exact hstore_none y hnone
        · intro t ht
          rw [hm, b3a]
          refine ⟨(hstore_at y t ht).2, ?_⟩
          rw [b4 t (by
            have := hptr t ht
            simp only [List.mem_append, List.mem_cons, not_or]
            tauto) (by
            simp only [ne_eq, Option.some.injEq]
            exact fun e => (hptr t ht).2.1 e.symm)]
          exact (hstore_at y t ht).1
        · intro q hq hqp
          simp only [List.cons_append, List.mem_cons, List.mem_append, not_or] at hq
          rw [b4 q (by
            simp only [List.mem_append, List.mem_cons, not_or]
            tauto) (by
            simp only [ne_eq, Option.some.injEq]
            exact fun e => hq.2.2.1 e.symm)]
          exact hstore_next y q hqp
        · rw [b5]
          exact hstore_prev y
        · rw [b6]
          exact hstore_val y
        · rw [b7]
          exact hstore_live y

theorem valueOf_congr {h k : Heap} (hv : k.value = h.value) : k.valueOf = h.valueOf := by
  funext p
  unfold Heap.valueOf
  rw [hv]

/-- `merge_two_lists` on two disjoint null-terminated chains links their nodes
into the chain of the stable merge. -/
theorem merge_two_lists_spec (le : Ptr → Ptr → Bool) (h : Heap) (L1 L2 : Ptr)
    (xs ys : List Ptr) (fuel : Nat)
    (hle : ∀ a b, le a b = decide (strcmp (h.valueOf a) (h.valueOf b) ≤ 0))
    (h1 : Seg h.next L1 xs 0) (h1n : 0 ∉ xs) (h2 : Seg h.next L2 ys 0) (h2n : 0 ∉ ys)
    (hnd : (xs ++ ys).Nodup) (hf : xs.length + ys.length < fuel) :
    ∃ h1 p1, merge_two_lists fuel h L1 L2 = some (h1, p1) ∧
      Seg h1.next p1 (List.merge xs ys le) 0 ∧
      (∀ q, q ∉ xs ++ ys → h1.next q = h.next q) ∧
      h1.prev = h.prev ∧ h1.value = h.value ∧ h1.live = h.live := by
  obtain ⟨s1, hrun, a1, a2, _, a4, a5, a6, a7⟩ := merge_loop_spec le fuel xs ys ⟨h, 0, none, L1, L2⟩
    hle h1 h1n h2 h2n hnd (fun t ht => by cases ht) hf
  refine ⟨(merge_finish s1).1, (merge_finish s1).2, ?_, ?_, ?_, a5, a6, a7⟩
  · rw [merge_two_lists_eq, hrun]
    rfl
  · rw [a2 rfl]
    exact a1
  · intro q hq
    exact a4 q hq (by simp)

/-! ## Splitting a chain -/

theorem getD_ne_zero {l : List Ptr} (h0 : 0 ∉ l) (i : Nat) : l.getD i 0 ≠ 0 ↔ i < l.length := by
  induction l generalizing i with
  | nil => simp
  | cons x l ih =>
    simp only [List.mem_cons, not_or] at h0
    cases i with
    | zero => simpa using Ne.symm h0.1
    | succ i => simpa using ih h0.2 i

theorem seg_getD {nx : Ptr → Ptr} {a b : Ptr} {l : List Ptr} (hs : Seg nx a l b) :
    ∀ i, i < l.length → nx (l.getD i b) = l.getD (i + 1) b := by
  induction l generalizing a with
  | nil => intro i hi; simp at hi
  | cons x l ih =>
    intro i hi
    simp only [seg_cons] at hs
    cases i with
    | zero =>
      simp only [List.getD_cons_zero, List.getD_cons_succ]
      have := seg_start hs.2
      rw [this]
      cases l <;> simp
    | succ i =>
      simp only [List.getD_cons_succ]
      exact ih hs.2 i (by simpa using hi)

theorem split_loop_spec (h : Heap) (xs : List Ptr) (p : Ptr) (hs : Seg h.next p xs 0)
    (h0 : 0 ∉ xs) :
    ∀ (fuel k : Nat), k ≤ (xs.length - 1) / 2 → (xs.length - 1) / 2 - k < fuel →
      2 ≤ xs.length →
      split_loop h fuel (xs.getD k 0) (xs.getD (2 * k + 1) 0)
        = some (xs.getD ((xs.length - 1) / 2) 0) := by
  intro fuel
  induction fuel with
  | zero => intro k _ hf _; simp at hf
  | succ n ih =>
    intro k hk hf hlen
    by_cases hc : 2 * k + 2 < xs.length
    · have hfast : xs.getD (2 * k + 1) 0 ≠ 0 := (getD_ne_zero h0 _).2 (by omega)
      have hfn : h.next (xs.getD (2 * k + 1) 0) = xs.getD (2 * k + 2) 0 :=
        seg_getD hs _ (by omega)
      have hfn0 : xs.getD (2 * k + 2) 0 ≠ 0 := (getD_ne_zero h0 _).2 hc
      have hfnn : h.next (xs.getD (2 * k + 2) 0) = xs.getD (2 * (k + 1) + 1) 0 :=
        seg_getD hs _ hc
      have hsl : h.next (xs.getD k 0) = xs.getD (k + 1) 0 := seg_getD hs _ (by omega)
      simp only [split_loop, ne_eq, hfast, not_false_eq_true, hfn, hfn0, and_self, ite_true,
        hfnn, hsl]
      exact ih (k + 1) (by omega) (by omega) hlen
    · have hk2 : k = (xs.length - 1) / 2 := by omega
      have hstop : ¬ (xs.getD (2 * k + 1) 0 ≠ 0 ∧ h.next (xs.getD (2 * k + 1) 0) ≠ 0) := by
        rintro ⟨c1, c2⟩
        have hlt : 2 * k + 1 < xs.length := (getD_ne_zero h0 _).1 c1
        rw [seg_getD hs _ hlt] at c2
        exact hc ((getD_ne_zero h0 _).1 c2)
      simp only [split_loop, hstop, ite_false, ← hk2]

theorem mergeSort_split (le : Ptr → Ptr → Bool) (a b : Ptr) (l : List Ptr) :
    (a :: b :: l).mergeSort le
      = List.merge (((a :: b :: l).take ((l.length + 3) / 2)).mergeSort le)
          (((a :: b :: l).drop ((l.length + 3) / 2)).mergeSort le) le := by
  rw [List.mergeSort]
  simp only [List.splitInTwo_fst, List.splitInTwo_snd]
  have e : ((a :: b :: l).length + 1) / 2 = (l.length + 3) / 2 := by
    simp only [List.length_cons]
  rw [e]

/-! ## Merge sort of a chain -/

theorem split_middle (xs : List Ptr) (hlen : 2 ≤ xs.length) :
    ∃ A slow B, xs = A ++ slow :: B ∧ xs.getD ((xs.length - 1) / 2) 0 = slow ∧
      xs.take ((xs.length + 1) / 2) = A ++ [slow] ∧ xs.drop ((xs.length + 1) / 2) = B ∧
      A.length = (xs.length - 1) / 2 := by
  have hj : (xs.length - 1) / 2 < xs.length := by omega
  have hget : xs[(xs.length - 1) / 2]? = some xs[(xs.length - 1) / 2] :=
    List.getElem?_eq_getElem hj
  obtain ⟨e1, _⟩ := split_at_index hget
  have hA : (xs.take ((xs.length - 1) / 2)).length = (xs.length - 1) / 2 := by
    rw [List.length_take]
    omega
  have hK : (xs.take ((xs.length - 1) / 2) ++ [xs[(xs.length - 1) / 2]]).length
      = (xs.length + 1) / 2 := by
    rw [List.length_append, hA]
    simp only [List.length_singleton]
    omega
  have e2 : xs = (xs.take ((xs.length - 1) / 2) ++ [xs[(xs.length - 1) / 2]])
      ++ xs.drop ((xs.length - 1) / 2 + 1) := by
    rw [List.append_assoc]
    exact e1
  refine ⟨xs.take ((xs.length - 1) / 2), xs[(xs.length - 1) / 2],
    xs.drop ((xs.length - 1) / 2 + 1), e1, ?_, ?_, ?_, hA⟩
  · exact List.getD_eq_getElem _ _ hj
  · have : List.take ((xs.length + 1) / 2)
        ((xs.take ((xs.length - 1) / 2) ++ [xs[(xs.length - 1) / 2]])
          ++ xs.drop ((xs.length - 1) / 2 + 1))
        = xs.take ((xs.length - 1) / 2) ++ [xs[(xs.length - 1) / 2]] := List.take_left' hK
    rw [← e2] at this
    exact this
  · have : List.drop ((xs.length + 1) / 2)
        ((xs.take ((xs.length - 1) / 2) ++ [xs[(xs.length - 1) / 2]])
          ++ xs.drop ((xs.length - 1) / 2 + 1))
        = xs.drop ((xs.length - 1) / 2 + 1) := List.drop_left' hK
    rw [← e2] at this
    exact this

/-- `mergesort_list` on a null-terminated chain of distinct nodes links them
into the chain of their stable merge sort; only the `next` fields of these
nodes are written. -/
theorem mergesort_list_spec (le : Ptr → Ptr → Bool) :
    ∀ (fuel : Nat) (xs : List Ptr) (h : Heap) (p : Ptr),
      (∀ a b, le a b = decide (strcmp (h.valueOf a) (h.valueOf b) ≤ 0)) →
      Seg h.next p xs 0 → 0 ∉ xs → xs.Nodup → xs.length + 1 < fuel →
      ∃ h1 p1, mergesort_list fuel h p = some (h1, p1) ∧
        Seg h1.next p1 (xs.mergeSort le) 0 ∧
        (∀ q, q ∉ xs → h1.next q = h.next q) ∧
        h1.prev = h.prev ∧ h1.value = h.value ∧ h1.live = h.live := by
  intro fuel
  induction fuel with
  | zero => intro xs h p _ _ _ _ hf; simp at hf
  | succ n ih =>
    intro xs h p hle hs h0 hnd hf
    match xs, hs, h0, hnd, hf with
    | [], hs, _, _, _ =>
      simp only [seg_nil] at hs
      exact ⟨h, 0, by simp [mergesort_list, hs], by simp, fun _ _ => rfl, rfl, rfl, rfl⟩
    | [a], hs, _, _, _ =>
      simp only [seg_cons, seg_nil] at hs
      obtain ⟨rfl, hs⟩ := hs
      exact ⟨h, p, by simp [mergesort_list, hs], by simp [hs], fun _ _ => rfl, rfl, rfl, rfl⟩
    | a :: b :: l, hs, h0, hnd, hf =>
      have hlen : 2 ≤ (a :: b :: l).length := by simp
      have hpa : p = a := hs.1
      have ha0 : a ≠ 0 := fun e => h0 (by simp [e])
      have hb0 : b ≠ 0 := fun e => h0 (by simp [e])
      have hnab : h.next a = b := by
        have := hs.2.1
        exact this
      obtain ⟨A, slow, B, hx, hslow, htake, hdrop, hAlen⟩ := split_middle (a :: b :: l) hlen
      have hsplit : split_loop h n p (h.next p) = some slow := by
        have := split_loop_spec h (a :: b :: l) p hs h0 n 0 (by omega)
          (by simp only [List.length_cons] at hf ⊢; omega) hlen
        rw [hslow] at this
        rw [hpa, hnab]
        simpa using this
      have hs2 := hs
      rw [hx, seg_append] at hs2
      obtain ⟨m, hsA, hm, hsB⟩ := hs2
      subst hm
      have hnd2 := hnd
      rw [hx] at hnd2
      simp only [List.nodup_append, List.nodup_cons, List.disjoint_cons_right] at hnd2
      obtain ⟨hAnd, ⟨hmB, hBnd⟩, hmA, hAB⟩ := hnd2
      have h02 := h0
      rw [hx] at h02
      simp only [List.mem_append, List.mem_cons, not_or] at h02
      obtain ⟨h0A, h0m, h0B⟩ := h02
      have hlenx : (a :: b :: l).length = A.length + 1 + B.length := by
        rw [hx]
        simp only [List.length_append, List.length_cons]
        omega
      simp only [List.length_cons] at hf hlenx hAlen
      -- the left half
      have hleft : Seg (h.setNext m 0).next p (A ++ [m]) 0 := by
        rw [seg_snoc]
        exact ⟨(seg_upd hmA _ _ _).2 hsA, by simp⟩
      have hright : Seg (h.setNext m 0).next (h.next m) B 0 :=
        (seg_upd hmB _ _ _).2 hsB
      obtain ⟨h2, left, hrun2, hseg2, hfr2, hp2, hv2, hl2⟩ := ih (A ++ [m]) (h.setNext m 0) p
        hle hleft (by simp only [List.mem_append, List.mem_singleton, not_or]; exact ⟨h0A, h0m⟩)
        (by
          rw [List.nodup_append]
          refine ⟨hAnd, List.nodup_singleton m, ?_⟩
          intro q hq hq2
          simp only [List.mem_singleton] at hq2
          exact hmA (hq2 ▸ hq))
        (by simp only [List.length_append, List.length_singleton]; omega)
      -- the right half
      have hle2 : ∀ a b, le a b = decide (strcmp (h2.valueOf a) (h2.valueOf b) ≤ 0) := by
        intro a b
        rw [hle a b, @valueOf_congr h h2 (by rw [hv2]; rfl)]
      have hright2 : Seg h2.next (h.next m) B 0 := by
        refine (seg_congr (fun q hq => hfr2 q ?_) _ _).2 hright
        simp only [List.mem_append, List.mem_singleton, not_or]
        exact ⟨fun e => hAB e hq, fun e => hmB (e ▸ hq)⟩
      obtain ⟨h3, right, hrun3, hseg3, hfr3, hp3, hv3, hl3⟩ := ih B h2 (h.next m)
        hle2 hright2 h0B hBnd (by omega)
      -- the merge
      have hle3 : ∀ a b, le a b = decide (strcmp (h3.valueOf a) (h3.valueOf b) ≤ 0) := by
        intro a b
        rw [hle2 a b, valueOf_congr hv3]
      have hleft3 : Seg h3.next left ((A ++ [m]).mergeSort le) 0 := by
        refine (seg_congr (fun q hq => hfr3 q ?_) _ _).2 hseg2
        have hq2 : q ∈ A ++ [m] := List.mem_mergeSort.1 hq
        simp only [List.mem_append, List.mem_singleton] at hq2
        rcases hq2 with e | e
        · exact fun e2 => hAB e e2
        · exact e ▸ hmB
      have hperm : (((A ++ [m]).mergeSort le) ++ (B.mergeSort le)).Perm (A ++ m :: B) := by
        have := (List.mergeSort_perm (A ++ [m]) le).append (List.mergeSort_perm B le)
        simpa using this
      obtain ⟨h4, p4, hrun4, hseg4, hfr4, hp4, hv4, hl4⟩ := merge_two_lists_spec le h3 left right
        ((A ++ [m]).mergeSort le) (B.mergeSort le) n hle3 hleft3
        (by
          rw [List.mem_mergeSort]
          simp only [List.mem_append, List.mem_singleton, not_or]
          exact ⟨h0A, h0m⟩)
        hseg3 (by rw [List.mem_mergeSort]; exact h0B)
        (hperm.nodup_iff.2 (by rw [← hx]; exact hnd))
        (by
          simp only [List.length_mergeSort, List.length_append, List.length_singleton]
          omega)
      refine ⟨h4, p4, ?_, ?_, ?_, ?_, ?_, ?_⟩
      · have hc : ¬ (p = 0 ∨ h.next p = 0) := by
          rw [hpa, hnab]
          simp [ha0, hb0]
        simp only [mergesort_list, hc, ite_false, hsplit, hrun2, hrun3]
        exact hrun4
      · rw [mergeSort_split]
        have e : (l.length + 3) / 2 = ((a :: b :: l).length + 1) / 2 := by
          simp only [List.length_cons]
        rw [e, htake, hdrop]
        exact hseg4
      · intro q hq
        rw [hx] at hq
        simp only [List.mem_append, List.mem_cons, not_or] at hq
        rw [hfr4 q (by
          simp only [List.mem_append, List.mem_mergeSort, List.mem_singleton, not_or]
          tauto)]
        rw [hfr3 q hq.2.2, hfr2 q (by
          simp only [List.mem_append, List.mem_singleton, not_or]
          tauto)]
        exact upd_ne _ _ hq.2.1
      · rw [hp4, hp3, hp2]
        rfl
      · rw [hv4, hv3, hv2]
        rfl
      · rw [hl4, hl3, hl2]
        rfl

/-! ## Sorting the queue -/

theorem headD_reverse_cons (x p : Ptr) (l : List Ptr) :
    (x :: l).reverse.headD p = l.reverse.headD x := by
  rw [List.reverse_cons]
  cases l.reverse <;> rfl

theorem headD_reverse_mem (p : Ptr) (l : List Ptr) : l.reverse.headD p ∈ p :: l := by
  induction l generalizing p with
  | nil => simp
  | cons x l ih =>
    rw [headD_reverse_cons]
    exact List.mem_cons_of_mem _ (ih x)

theorem relink_loop_spec :
    ∀ (l : List Ptr) (p : Ptr) (h : Heap) (fuel : Nat), Seg h.next (h.next p) l 0 → 0 ∉ l →
      p ≠ 0 → l.Nodup → l.length < fuel →
      ∃ h1, relink_loop fuel h p = some (h1, l.reverse.headD p) ∧ h1.next = h.next ∧
        Seg h1.prev (l.reverse.headD p) l.reverse p ∧
        (∀ q, q ∉ l → h1.prev q = h.prev q) ∧ h1.value = h.value ∧ h1.live = h.live := by
  intro l
  induction l with
  | nil =>
    intro p h fuel hs _ hp _ hf
    cases fuel with
    | zero => simp at hf
    | succ n =>
      simp only [seg_nil] at hs
      exact ⟨h, by simp [relink_loop, hs], rfl, by simp, fun _ _ => rfl, rfl, rfl⟩
  | cons x l ih =>
    intro p h fuel hs h0 hp hnd hf
    cases fuel with
    | zero => simp at hf
    | succ n =>
      simp only [seg_cons] at hs
      obtain ⟨hpx, hs⟩ := hs
      simp only [List.mem_cons, not_or] at h0
      have hx0 : x ≠ 0 := fun e => h0.1 e.symm
      simp only [List.nodup_cons] at hnd
      simp only [List.length_cons, Nat.add_lt_add_iff_right] at hf
      obtain ⟨h1, hrun, hn, hseg, hfr, hv, hl⟩ := ih x (h.setPrev x p) n hs h0.2 hx0 hnd.2 hf
      refine ⟨h1, ?_, hn, ?_, ?_, hv, hl⟩
      · rw [headD_reverse_cons]
        simp only [relink_loop, ne_eq, hp, not_false_eq_true, hpx, hx0, and_self, ite_true]
        exact hrun
      · rw [headD_reverse_cons, seg_reverse_cons]
        refine ⟨hseg, ?_⟩
        rw [hfr x hnd.1]
        simp
      · intro q hq
        simp only [List.mem_cons, not_or] at hq
        rw [hfr q hq.2]
        exact upd_ne _ _ hq.1

/-- The order in which `merge_two_lists` takes nodes when the values are
those of the heap `h`. -/
theorem le_trans_of_heap (h : Heap) (a b c : Ptr) (h1 : h.le a b = true) (h2 : h.le b c = true) :
    h.le a c = true := by
  unfold Heap.le at *
  simp only [decide_eq_true_eq] at *
  exact strcmp_trans h1 h2

theorem le_total_of_heap (h : Heap) (a b : Ptr) : (h.le a b || h.le b a) = true := by
  unfold Heap.le
  simp only [Bool.or_eq_true, decide_eq_true_eq]
  exact strcmp_total _ _

/-- `q_sort` relinks the elements of the queue in the order of their stable
merge sort. -/
theorem q_sort_ring {h : Heap} {head : Ptr} {xs : List Ptr} (hr : Ring h head xs)
    {fuel : Nat} (hf : xs.length + 1 < fuel) :
    ∃ h1, q_sort fuel h head = some h1 ∧ Ring h1 head (xs.mergeSort h.le) ∧
      h1.value = h.value ∧ h1.live = h.live := by
  by_cases he : xs = []
  · subst he
    refine ⟨h, ?_, by simpa using hr, rfl, rfl⟩
    unfold q_sort
    rw [if_pos (Or.inr ((hr.empty_iff).2 rfl))]
  · have hne : ¬ (head = 0 ∨ list_empty h head = true) := by
      rw [hr.empty_iff]
      simp [hr.head_ne, he]
    -- the ring is opened after its last element
    obtain ⟨A, z, rfl⟩ : ∃ A z, xs = A ++ [z] := by
      rcases List.eq_nil_or_concat xs with e | ⟨A, z, e⟩
      · exact absurd e he
      · exact ⟨A, z, by simpa using e⟩
    have hlast : h.prev head = z := by simpa using hr.prev_head
    have hnd := hr.nodup
    simp only [List.nodup_cons, List.nodup_append, List.mem_append, List.mem_singleton,
      not_or] at hnd
    obtain ⟨⟨hhA, hhz⟩, hAnd, _, hzA⟩ := hnd
    have hzA' : z ∉ A := by
      intro e
      exact hzA e (by simp)
    have hfwd := hr.fwd
    rw [seg_snoc] at hfwd
    have hopen : Seg (h.setNext z 0).next ((h.setNext z 0).next head) (A ++ [z]) 0 := by
      rw [seg_snoc]
      simp only [setNext_next, upd_same, upd_ne _ _ hhz, and_true]
      exact (seg_upd hzA' _ _ _).2 hfwd.1
    have hxs_nd : (A ++ [z]).Nodup := hr.nodup_elems
    obtain ⟨h2, sorted, hrun2, hseg2, hfr2, hp2, hv2, hl2⟩ := mergesort_list_spec h.le fuel
      (A ++ [z]) (h.setNext z 0) _ (fun _ _ => rfl) hopen hr.nonnull hxs_nd hf
    -- the sorted chain is hung below the sentinel and the back links are restored
    have hhys : head ∉ (A ++ [z]).mergeSort h.le := by
      rw [List.mem_mergeSort]
      exact hr.head_not_mem
    have h0ys : 0 ∉ (A ++ [z]).mergeSort h.le := by
      rw [List.mem_mergeSort]
      exact hr.nonnull
    have hys_nd : ((A ++ [z]).mergeSort h.le).Nodup :=
      (List.mergeSort_perm _ _).nodup_iff.2 hxs_nd
    have hseg3 : Seg (h2.setNext head sorted).next ((h2.setNext head sorted).next head)
        ((A ++ [z]).mergeSort h.le) 0 := by
      simp only [setNext_next, upd_same]
      exact (seg_upd hhys _ _ _).2 hseg2
    obtain ⟨h4, hrun4, hn4, hseg4, hfr4, hv4, hl4⟩ := relink_loop_spec
      ((A ++ [z]).mergeSort h.le) head (h2.setNext head sorted) fuel hseg3 h0ys hr.head_ne hys_nd
      (by simp only [List.length_mergeSort]; omega)
    -- the ring is closed
    have hys_ne : (A ++ [z]).mergeSort h.le ≠ [] := by
      intro e
      have : ((A ++ [z]).mergeSort h.le).length = (A ++ [z]).length := List.length_mergeSort _
      rw [e] at this
      simp at this
    obtain ⟨Y, w, hY⟩ : ∃ Y w, (A ++ [z]).mergeSort h.le = Y ++ [w] := by
      rcases List.eq_nil_or_concat ((A ++ [z]).mergeSort h.le) with e | ⟨Y, w, e⟩
      · exact absurd e hys_ne
      · exact ⟨Y, w, by simpa using e⟩
    have hw : ((A ++ [z]).mergeSort h.le).reverse.headD head = w := by
      rw [hY]
      simp
    have hwh : w ≠ head := by
      intro e
      apply hhys
      rw [hY, e]
      simp
    have hwY : w ∉ Y := by
      have := hys_nd
      rw [hY, List.nodup_append] at this
      intro e
      exact this.2.2 e (by simp)
    refine ⟨(h4.setNext w head).setPrev head w, ?_, ?_, ?_, ?_⟩
    · unfold q_sort
      rw [if_neg hne]
      simp only [hlast, hrun2, hrun4, hw]
    · refine ⟨hr.head_ne, ?_, h0ys, ?_, ?_, ?_⟩
      · rw [List.nodup_cons]
        exact ⟨hhys, hys_nd⟩
      · simp only [setPrev_next, setNext_next, hn4, upd_ne _ _ (Ne.symm hwh), upd_same]
        rw [hY, seg_snoc]
        simp only [upd_same, and_true]
        rw [seg_upd hwY, seg_upd (fun e => hhys (by rw [hY]; simp [e]))]
        have := hseg2
        rw [hY, seg_snoc] at this
        exact this.1
      · simp only [setPrev_prev, setNext_prev, upd_same]
        rw [seg_upd (by simpa using hhys)]
        rw [← hw]
        exact hseg4
      · intro q hq
        simp only [setPrev_live, setNext_live]
        rw [hl4]
        simp only [setNext_live, hl2]
        apply hr.alive
        simp only [List.mem_cons, List.mem_mergeSort] at hq ⊢
        exact hq
    · simp only [setPrev_value, setNext_value, hv4, hv2]
    · simp only [setPrev_live, setNext_live, hl4, hl2]

/-- C1: on a well-formed queue (not `NULL`) whose elements all hold a value,
`q_sort` ends and the queue afterwards holds the same elements, with their
values, rearranged so that the values read from the first to the last element
never decrease in the order of `strcmp`. -/
theorem q_sort_sorted (h : Heap) (head : Ptr) (xs : List Ptr) (fuel : Nat)
    (hr : Ring h head xs) (_hv : ∀ p ∈ xs, h.value p ≠ none) (hf : xs.length + 1 < fuel) :
    ∃ h1 ys, q_sort fuel h head = some h1 ∧ Ring h1 head ys ∧ ys.Perm xs ∧
      h1.value = h.value ∧ (h1.values ys).Pairwise (fun a b => strcmp a b ≤ 0) := by
  obtain ⟨h1, hrun, hring, hv, _⟩ := q_sort_ring hr hf
  refine ⟨h1, xs.mergeSort h.le, hrun, hring, List.mergeSort_perm _ _, hv, ?_⟩
  have hs : (xs.mergeSort h.le).Pairwise (fun a b => h.le a b = true) :=
    List.sorted_mergeSort (le_trans_of_heap h) (le_total_of_heap h) xs
  unfold Heap.values
  rw [List.pairwise_map, valueOf_congr hv]
  refine hs.imp ?_
  intro a b hab
  simpa [Heap.le] using hab

theorem q_sort_sorted_witness :
    Ring demo 1 [2, 3, 4] ∧ (∀ p ∈ [2, 3, 4], demo.value p ≠ none) ∧ [2, 3, 4].length + 1 < 9 ∧
    ∃ h1 ys, q_sort 9 demo 1 = some h1 ∧ Ring h1 1 ys ∧ ys.Perm [2, 3, 4] ∧
      h1.value = demo.value ∧ (h1.values ys).Pairwise (fun a b => strcmp a b ≤ 0) :=
  ⟨demo_ring, by decide, by decide,
    q_sort_sorted demo 1 [2, 3, 4] 9 demo_ring (by decide) (by decide)⟩

/-- C2: `q_sort` is stable.  On a well-formed queue whose elements all hold a
value, whenever two elements `a` and `b` hold equal values and `a` comes
before `b` in the queue, `a` still comes before `b` after `q_sort`; elements
are the nodes themselves. -/
theorem q_sort_stable (h : Heap) (head : Ptr) (xs : List Ptr) (fuel : Nat)
    (hr : Ring h head xs) (_hv : ∀ p ∈ xs, h.value p ≠ none) (hf : xs.length + 1 < fuel) :
    ∃ h1 ys, q_sort fuel h head = some h1 ∧ Ring h1 head ys ∧ h1.value = h.value ∧
      ∀ a b, h.value a = h.value b → [a, b].Sublist xs → [a, b].Sublist ys := by
  obtain ⟨h1, hrun, hring, hv, _⟩ := q_sort_ring hr hf
  refine ⟨h1, xs.mergeSort h.le, hrun, hring, hv, ?_⟩
  intro a b hab hsub
  apply List.pair_sublist_mergeSort (le_trans_of_heap h) (le_total_of_heap h) _ hsub
  unfold Heap.le Heap.valueOf
  rw [hab, strcmp_self]
  decide

theorem q_sort_stable_witness :
    Ring demo 1 [2, 3, 4] ∧ (∀ p ∈ [2, 3, 4], demo.value p ≠ none) ∧ [2, 3, 4].length + 1 < 9 ∧
    ∃ h1 ys, q_sort 9 demo 1 = some h1 ∧ Ring h1 1 ys ∧ h1.value = demo.value ∧
      ∀ a b, demo.value a = demo.value b → [a, b].Sublist [2, 3, 4] → [a, b].Sublist ys :=
  ⟨demo_ring, by decide, by decide,
    q_sort_stable demo 1 [2, 3, 4] 9 demo_ring (by decide) (by decide)⟩

/-! ## Sequences of insertions and removals -/

theorem q_new_ring (h : Heap) {m : Ptr} (hm : m ≠ 0) : Ring (q_new h m).1 (q_new h m).2 [] := by
  unfold q_new
  rw [if_neg hm]
  refine ⟨hm, by simp, by simp, ?_, ?_, ?_⟩
  · simp [INIT_LIST_HEAD]
  · simp [INIT_LIST_HEAD]
  · intro p hp
    simp only [List.mem_singleton] at hp
    subst hp
    simp [INIT_LIST_HEAD]

theorem q_new_head (h : Heap) {m : Ptr} (hm : m ≠ 0) : (q_new h m).2 = m := by
  unfold q_new
  rw [if_neg hm]

theorem q_remove_head_empty {h : Heap} {head : Ptr} (hr : Ring h head []) (sp : Bool)
    (bufsize : Nat) :
    (q_remove_head h head sp bufsize).heap = h ∧ (q_remove_head h head sp bufsize).node = 0 ∧
      (q_remove_head h head sp bufsize).out = none := by
  unfold q_remove_head
  rw [if_pos (Or.inr ((hr.empty_iff).2 rfl))]
  exact ⟨rfl, rfl, rfl⟩

theorem q_remove_tail_empty {h : Heap} {head : Ptr} (hr : Ring h head []) (sp : Bool)
    (bufsize : Nat) :
    (q_remove_tail h head sp bufsize).heap = h ∧ (q_remove_tail h head sp bufsize).node = 0 ∧
      (q_remove_tail h head sp bufsize).out = none := by
  unfold q_remove_tail
  rw [if_pos (Or.inr ((hr.empty_iff).2 rfl))]
  exact ⟨rfl, rfl, rfl⟩

/-- One call keeps the queue well formed and changes its length as `stepSize`
says. -/
theorem op_run_ring {h : Heap} {head : Ptr} {xs : List Ptr} (hr : Ring h head xs) (op : Op)
    (ha : op.allocOk h) :
    ∃ ys, Ring (op.run h head) head ys ∧ ys.length = stepSize xs.length op := by
  cases op with
  | insertHead s ele =>
    exact ⟨ele :: xs, q_insert_head_ring hr ha.1 ha.2 s true, by simp [stepSize, Op.isInsert]⟩
  | insertTail s ele =>
    exact ⟨xs ++ [ele], q_insert_tail_ring hr ha.1 ha.2 s true, by simp [stepSize, Op.isInsert]⟩
  | removeHead sp bufsize =>
    cases xs with
    | nil =>
      refine ⟨[], ?_, by simp [stepSize, Op.isInsert]⟩
      show Ring (q_remove_head h head sp bufsize).heap head []
      rw [(q_remove_head_empty hr sp bufsize).1]
      exact hr
    | cons x xs =>
      refine ⟨xs, ?_, by simp [stepSize, Op.isInsert]⟩
      show Ring (q_remove_head h head sp bufsize).heap head xs
      rw [(q_remove_head_heap hr sp bufsize).1]
      exact @ring_list_del _ _ _ [] _ hr
  | removeTail sp bufsize =>
    rcases List.eq_nil_or_concat xs with rfl | ⟨A, z, rfl⟩
    · refine ⟨[], ?_, by simp [stepSize, Op.isInsert]⟩
      show Ring (q_remove_tail h head sp bufsize).heap head []
      rw [(q_remove_tail_empty hr sp bufsize).1]
      exact hr
    · have hr2 : Ring h head (A ++ [z]) := by simpa using hr
      refine ⟨A, ?_, by simp [stepSize, Op.isInsert]⟩
      show Ring (q_remove_tail h head sp bufsize).heap head A
      rw [(q_remove_tail_heap hr2 sp bufsize).1]
      have := ring_list_del hr2
      simpa using this

theorem runOps_ring (head : Ptr) :
    ∀ (ops : List Op) (h : Heap) (xs : List Ptr), Ring h head xs → AllocOk h head ops →
      ∃ ys, Ring (runOps h head ops) head ys ∧ ys.length = trackedSize xs.length ops := by
  intro ops
  induction ops with
  | nil => intro h xs hr _; exact ⟨xs, hr, rfl⟩
  | cons op ops ih =>
    intro h xs hr ha
    obtain ⟨ys, hys, hlen⟩ := op_run_ring hr op ha.1
    obtain ⟨zs, hzs, hlen2⟩ := ih (op.run h head) ys hys ha.2
    refine ⟨zs, hzs, ?_⟩
    rw [hlen2, hlen]
    rfl

/-- C11, as amended: on a newly created queue, after any sequence of
insertions (whose allocations succeed) and removals at either end (each with
no buffer, or with a buffer that the value it removes fits), `q_size` returns
the count obtained by following the calls one by one from `0`: one more for
each insertion, one less for each removal that finds an element, and no
change for a removal on an empty queue. -/
theorem q_size_after_ops (h0 : Heap) (m : Ptr) (ops : List Op) (fuel : Nat) (hm : m ≠ 0)
    (halloc : AllocOk (q_new h0 m).1 m ops) (_hcopy : CopyOk (q_new h0 m).1 m ops)
    (_hint : trackedSize 0 ops ≤ INT_MAX) (hf : trackedSize 0 ops < fuel) :
    q_size fuel (runOps (q_new h0 m).1 m ops) m = some (trackedSize 0 ops) := by
  have hr := q_new_ring h0 hm
  rw [q_new_head h0 hm] at hr
  obtain ⟨ys, hys, hlen⟩ := runOps_ring m ops _ [] hr halloc
  rw [q_size_ring hys (by rw [hlen]; exact hf), hlen]
  rfl

theorem q_size_after_ops_witness :
    (1 : Ptr) ≠ 0 ∧
    AllocOk (q_new blank 1).1 1
      [Op.removeHead false 0, Op.insertHead [97] 2, Op.insertTail [98, 99] 3,
        Op.removeTail true 8] ∧
    CopyOk (q_new blank 1).1 1
      [Op.removeHead false 0, Op.insertHead [97] 2, Op.insertTail [98, 99] 3,
        Op.removeTail true 8] ∧
    trackedSize 0
      [Op.removeHead false 0, Op.insertHead [97] 2, Op.insertTail [98, 99] 3,
        Op.removeTail true 8] ≤ INT_MAX ∧
    trackedSize 0
      [Op.removeHead false 0, Op.insertHead [97] 2, Op.insertTail [98, 99] 3,
        Op.removeTail true 8] < 9 ∧
    q_size 9 (runOps (q_new blank 1).1 1
      [Op.removeHead false 0, Op.insertHead [97] 2, Op.insertTail [98, 99] 3,
        Op.removeTail true 8]) 1 = some 1 :=
  ⟨by decide, by decide, by decide, by decide, by decide,
    q_size_after_ops blank 1
      [Op.removeHead false 0, Op.insertHead [97] 2, Op.insertTail [98, 99] 3,
        Op.removeTail true 8] 9 (by decide) (by decide) (by decide) (by decide) (by decide)⟩

/-- C11 fails as stated: on a newly created queue, a removal (which finds
nothing) followed by an insertion leaves one element, while the number of
insertions minus the number of removals is `0`. -/
theorem q_size_formula_fails :
    AllocOk (q_new blank 1).1 1 [Op.removeHead false 0, Op.insertHead [97] 2] ∧
    q_size 9 (runOps (q_new blank 1).1 1 [Op.removeHead false 0, Op.insertHead [97] 2]) 1
      = some 1 ∧
    claimedSize [Op.removeHead false 0, Op.insertHead [97] 2] = 0 ∧
    q_size 9 (runOps (q_new blank 1).1 1 [Op.removeHead false 0, Op.insertHead [97] 2]) 1
      ≠ some (claimedSize [Op.removeHead false 0, Op.insertHead [97] 2]) := by
  decide

/-! ## Removal from an empty or absent queue -/

/-- C12: on the `NULL` handle and on a well-formed empty queue,
`q_remove_head` and `q_remove_tail` return `NULL`, store nothing in the
buffer and leave the heap as it is, so the queue and its size are
unchanged. -/
theorem q_remove_nothing (h : Heap) (head : Ptr) (sp : Bool) (bufsize fuel : Nat) :
    ((q_remove_head h 0 sp bufsize).node = 0 ∧ (q_remove_head h 0 sp bufsize).heap = h ∧
      (q_remove_head h 0 sp bufsize).out = none) ∧
    ((q_remove_tail h 0 sp bufsize).node = 0 ∧ (q_remove_tail h 0 sp bufsize).heap = h ∧
      (q_remove_tail h 0 sp bufsize).out = none) ∧
    (Ring h head [] →
      ((q_remove_head h head sp bufsize).node = 0 ∧ (q_remove_head h head sp bufsize).heap = h ∧
        (q_remove_head h head sp bufsize).out = none ∧
        q_size fuel (q_remove_head h head sp bufsize).heap head = q_size fuel h head) ∧
      ((q_remove_tail h head sp bufsize).node = 0 ∧ (q_remove_tail h head sp bufsize).heap = h ∧
        (q_remove_tail h head sp bufsize).out = none ∧
        q_size fuel (q_remove_tail h head sp bufsize).heap head = q_size fuel h head)) := by
  refine ⟨by simp [q_remove_head], by simp [q_remove_tail], ?_⟩
  intro hr
  obtain ⟨a1, a2, a3⟩ := q_remove_head_empty hr sp bufsize
  obtain ⟨b1, b2, b3⟩ := q_remove_tail_empty hr sp bufsize
  exact ⟨⟨a2, a1, a3, by rw [a1]⟩, ⟨b2, b1, b3, by rw [b1]⟩⟩

theorem q_remove_nothing_witness :
    Ring (INIT_LIST_HEAD demo 1) 1 [] ∧
    ((q_remove_head (INIT_LIST_HEAD demo 1) 1 true 8).node = 0 ∧
      (q_remove_head (INIT_LIST_HEAD demo 1) 1 true 8).heap = INIT_LIST_HEAD demo 1 ∧
      (q_remove_head (INIT_LIST_HEAD demo 1) 1 true 8).out = none ∧
      q_size 9 (q_remove_head (INIT_LIST_HEAD demo 1) 1 true 8).heap 1
        = q_size 9 (INIT_LIST_HEAD demo 1) 1) ∧
    ((q_remove_tail (INIT_LIST_HEAD demo 1) 1 true 8).node = 0 ∧
      (q_remove_tail (INIT_LIST_HEAD demo 1) 1 true 8).heap = INIT_LIST_HEAD demo 1 ∧
      (q_remove_tail (INIT_LIST_HEAD demo 1) 1 true 8).out = none ∧
      q_size 9 (q_remove_tail (INIT_LIST_HEAD demo 1) 1 true 8).heap 1
        = q_size 9 (INIT_LIST_HEAD demo 1) 1) :=
  ⟨demo_empty_ring, (q_remove_nothing (INIT_LIST_HEAD demo 1) 1 true 8 9).2.2 demo_empty_ring⟩

/-! ## The copy into the caller's buffer -/

/-- C13: the code at the failing input.  On the queue holding the single
value `"abc"`, with a buffer of capacity `2`, `q_remove_head` and
`q_remove_tail` each store the four bytes `'a' 'b' 'c' 0`, which is more than
the capacity, where at most one byte of the value and a terminator fit. -/
theorem q_remove_overflows :
    Ring abcQueue 1 [2] ∧
    (q_remove_head abcQueue 1 true 2).out = some [97, 98, 99, 0] ∧
    (q_remove_tail abcQueue 1 true 2).out = some [97, 98, 99, 0] ∧
    2 < [97, 98, 99, 0].length ∧
    (q_remove_head abcQueue 1 true 2).out
      ≠ some ((abcQueue.valueOf 2).take (2 - 1) ++ [0]) := by
  decide

/-! ## Failing allocations -/

/-- C14: the code at the failing input.  When `malloc` succeeds and `strdup`
fails, `q_insert_head` and `q_insert_tail` still return true and the queue
holds one more element, whose value is `NULL`; when `malloc` fails they
return false and leave the heap as it is. -/
theorem q_insert_strdup_fails :
    Ring demo 1 [2, 3, 4] ∧
    (q_insert_head demo 1 [98] 5 false).2 = true ∧
    Ring (q_insert_head demo 1 [98] 5 false).1 1 [5, 2, 3, 4] ∧
    (q_insert_head demo 1 [98] 5 false).1.value 5 = none ∧
    (q_insert_tail demo 1 [98] 5 false).2 = true ∧
    Ring (q_insert_tail demo 1 [98] 5 false).1 1 [2, 3, 4, 5] ∧
    (q_insert_tail demo 1 [98] 5 false).1.value 5 = none ∧
    (∀ ok, q_insert_head demo 1 [98] 0 ok = (demo, false)) ∧
    (∀ ok, q_insert_tail demo 1 [98] 0 ok = (demo, false)) := by
  refine ⟨by decide, by decide, by decide, by decide, by decide, by decide, by decide, ?_, ?_⟩
  · intro ok
    simp [q_insert_head]
  · intro ok
    simp [q_insert_tail]

/-! ## The absent queue -/

/-- `q_delete_dup` returns true on every queue but the absent one. -/
theorem q_delete_dup_result (fuel : Nat) (h : Heap) (head : Ptr) (r : Heap × Bool)
    (hrun : q_delete_dup fuel h head = some r) : r.2 = false ↔ head = 0 := by
  unfold q_delete_dup at hrun
  by_cases h0 : head = 0
  · rw [if_pos h0] at hrun
    cases hrun
    simp [h0]
  · rw [if_neg h0] at hrun
    cases hd : dup_outer fuel h head (h.next head) with
    | none => rw [hd] at hrun; cases hrun
    | some h1 =>
      rw [hd] at hrun
      cases hrun
      simp [h0]

/-- C15: on the `NULL` handle every operation returns its failure value and
leaves the heap as it is: the insertions, `q_delete_mid` and `q_delete_dup`
return false, the removals return `NULL` and store nothing, `q_size` returns
`0`, and `q_swap`, `q_reverse`, `q_sort` and `q_free` do nothing.
`q_delete_dup` returns false in that case only: on any other handle its result
is true, as on a well-formed empty queue, which it leaves as it is. -/
theorem absent_queue (h : Heap) (s : Str) (ele : Ptr) (ok sp : Bool) (bufsize fuel : Nat) :
    q_insert_head h 0 s ele ok = (h, false) ∧
    q_insert_tail h 0 s ele ok = (h, false) ∧
    q_delete_mid fuel h 0 = some (h, false) ∧
    q_delete_dup fuel h 0 = some (h, false) ∧
    ((q_remove_head h 0 sp bufsize).node = 0 ∧ (q_remove_head h 0 sp bufsize).heap = h ∧
      (q_remove_head h 0 sp bufsize).out = none) ∧
    ((q_remove_tail h 0 sp bufsize).node = 0 ∧ (q_remove_tail h 0 sp bufsize).heap = h ∧
      (q_remove_tail h 0 sp bufsize).out = none) ∧
    q_size fuel h 0 = some 0 ∧
    q_swap fuel h 0 = some h ∧
    q_reverse fuel h 0 = some h ∧
    q_sort fuel h 0 = some h ∧
    q_free fuel h 0 = some h ∧
    (∀ head r, q_delete_dup fuel h head = some r → (r.2 = false ↔ head = 0)) ∧
    (∀ head, Ring h head [] → 0 < fuel → q_delete_dup fuel h head = some (h, true)) := by
  refine ⟨by simp [q_insert_head], by simp [q_insert_tail], by simp [q_delete_mid],
    by simp [q_delete_dup], by simp [q_remove_head], by simp [q_remove_tail], by simp [q_size],
    by simp [q_swap], by simp [q_reverse], by simp [q_sort], by simp [q_free], ?_, ?_⟩
  · intro head r hrun
    exact q_delete_dup_result fuel h head r hrun
  · intro head hr hf
    have hn : h.next head = head := by simpa using hr.next_head
    obtain ⟨n, rfl⟩ : ∃ n, fuel = n + 1 := ⟨fuel - 1, by omega⟩
    unfold q_delete_dup
    rw [if_neg hr.head_ne, hn]
    simp [dup_outer]

theorem absent_queue_witness :
    Ring (INIT_LIST_HEAD demo 1) 1 [] ∧ 0 < 9 ∧
    q_delete_dup 9 (INIT_LIST_HEAD demo 1) 1 = some (INIT_LIST_HEAD demo 1, true) ∧
    q_delete_dup 9 (INIT_LIST_HEAD demo 1) 0 = some (INIT_LIST_HEAD demo 1, false) :=
  ⟨demo_empty_ring, by decide,
    (absent_queue (INIT_LIST_HEAD demo 1) [] 0 true false 0 9).2.2.2.2.2.2.2.2.2.2.2.2 1
      demo_empty_ring (by decide),
    (absent_queue (INIT_LIST_HEAD demo 1) [] 0 true false 0 9).2.2.2.1⟩

/-! ## Ring closure -/

theorem Ring.prev_next {h : Heap} {head : Ptr} {xs : List Ptr} (hr : Ring h head xs) :
    ∀ n ∈ head :: xs, h.prev (h.next n) = n := by
  intro n hn
  simp only [List.mem_cons] at hn
  rcases hn with rfl | hn
  · rw [hr.next_head]
    cases xs with
    | nil => simpa using hr.prev_head
    | cons x t =>
      simp only [List.headD_cons]
      have := @Ring.prev_mem h n x [] t hr
      simpa using this
  · obtain ⟨l1, l2, rfl⟩ := List.append_of_mem hn
    rw [hr.next_mem]
    cases l2 with
    | nil =>
      simp only [List.headD_nil]
      have := hr.prev_head
      simpa using this
    | cons y l3 =>
      simp only [List.headD_cons]
      have hr2 : Ring h head ((l1 ++ [n]) ++ y :: l3) := by simpa using hr
      have := hr2.prev_mem
      simpa using this

/-- A well-formed queue is closed in both directions. -/
theorem Ring.closed {h : Heap} {head : Ptr} {xs : List Ptr} (hr : Ring h head xs) :
    Closed h (head :: xs) := by
  intro n hn
  refine ⟨hr.prev_next n hn, ?_⟩
  have := hr.flip.prev_next n (by simpa using hn)
  simpa using this

theorem Ring.ringClosed {h : Heap} {head : Ptr} {xs : List Ptr} (hr : Ring h head xs) :
    RingClosed h head := ⟨xs, hr, hr.closed⟩

/-- `q_delete_mid` on a non-empty queue. -/
theorem q_delete_mid_ring {h : Heap} {head : Ptr} {xs : List Ptr} (hr : Ring h head xs)
    (hne : xs ≠ []) {fuel : Nat} (hf : xs.length < fuel) :
    ∃ h1, q_delete_mid fuel h head = some (h1, true) ∧
      Ring h1 head (xs.eraseIdx (xs.length / 2)) := by
  have hlen : 0 < xs.length := List.length_pos.2 hne
  have hk : xs.length / 2 < xs.length := Nat.div_lt_self hlen (by decide)
  have he : ¬ (head = 0 ∨ list_empty h head = true) := by
    rw [hr.empty_iff]
    simp [hr.head_ne, hne]
  have hx := mid_walk_seg h xs (xs.length / 2) _ hr.fwd hk
  obtain ⟨e1, e2⟩ := split_at_index hx
  refine ⟨q_release_element (list_del h (mid_walk h (xs.length / 2) (h.next head)))
    (mid_walk h (xs.length / 2) (h.next head)), ?_, ?_⟩
  · unfold q_delete_mid
    rw [if_neg he, q_size_ring hr hf]
  · rw [e2]
    apply ring_delete
    rw [← e1]
    exact hr

/-- `q_swap` on a well-formed queue. -/
theorem q_swap_ring {h : Heap} {head : Ptr} {xs : List Ptr} (hr : Ring h head xs)
    {fuel : Nat} (hf : xs.length < fuel) :
    ∃ h1, q_swap fuel h head = some h1 ∧ Ring h1 head (swapPairs xs) ∧
      h1.value = h.value ∧ h1.live = h.live := by
  by_cases he : xs = []
  · subst he
    refine ⟨h, ?_, by simpa [swapPairs] using hr, rfl, rfl⟩
    unfold q_swap
    rw [if_pos (Or.inr ((hr.empty_iff).2 rfl))]
  · have hne : ¬ (head = 0 ∨ list_empty h head = true) := by
      rw [hr.empty_iff]
      simp [hr.head_ne, he]
    obtain ⟨h1, hrun, hring, hv, hl⟩ := q_swap_loop_ring head fuel xs [] h (by simpa using hr) hf
    refine ⟨h1, ?_, by simpa using hring, hv, hl⟩
    unfold q_swap
    rw [if_neg hne, hr.next_head]
    exact hrun

/-- C16: ring closure is kept by every operation.  If the sentinel closes a
well-formed ring (so that `n.next.prev == n` and `n.prev.next == n` at the
sentinel and at every element), then each of `q_insert_head`,
`q_insert_tail` (whether the allocations succeed or not), `q_remove_head`,
`q_remove_tail` (with no buffer, or with a buffer that the value of the
removed element fits), `q_delete_mid`, `q_delete_dup`, `q_swap`, `q_reverse`
and `q_sort` ends and leaves a heap in which the sentinel again closes a
well-formed ring with the same closure. -/
theorem ring_closure_kept (h : Heap) (head : Ptr) (xs : List Ptr) (s : Str) (ele : Ptr)
    (ok sp : Bool) (bufsize fuel : Nat) (hr : Ring h head xs)
    (hfresh : ele ≠ 0 → h.live ele = false) (_hv : ∀ p ∈ xs, h.value p ≠ none)
    (_hint : xs.length ≤ INT_MAX) (hf : xs.length + 1 < fuel) :
    Closed h (head :: xs) ∧
    RingClosed (q_insert_head h head s ele ok).1 head ∧
    RingClosed (q_insert_tail h head s ele ok).1 head ∧
    ((∀ x, xs.head? = some x → CopyFits h x sp bufsize) →
      RingClosed (q_remove_head h head sp bufsize).heap head) ∧
    ((∀ x, xs.getLast? = some x → CopyFits h x sp bufsize) →
      RingClosed (q_remove_tail h head sp bufsize).heap head) ∧
    (∃ r, q_delete_mid fuel h head = some r ∧ RingClosed r.1 head) ∧
    (∃ r, q_delete_dup fuel h head = some r ∧ RingClosed r.1 head) ∧
    (∃ h1, q_swap fuel h head = some h1 ∧ RingClosed h1 head) ∧
    (∃ h1, q_reverse fuel h head = some h1 ∧ RingClosed h1 head) ∧
    (∃ h1, q_sort fuel h head = some h1 ∧ RingClosed h1 head) := by
  refine ⟨hr.closed, ?_, ?_, ?_, ?_, ?_, ?_, ?_, ?_, ?_⟩
  · by_cases hm : ele = 0
    · have : q_insert_head h head s ele ok = (h, false) := by simp [q_insert_head, hm]
      rw [this]
      exact hr.ringClosed
    · exact (q_insert_head_ring hr hm (hfresh hm) s ok).ringClosed
  · by_cases hm : ele = 0
    · have : q_insert_tail h head s ele ok = (h, false) := by simp [q_insert_tail, hm]
      rw [this]
      exact hr.ringClosed
    · exact (q_insert_tail_ring hr hm (hfresh hm) s ok).ringClosed
  · intro _
    cases xs with
    | nil =>
      rw [(q_remove_head_empty hr sp bufsize).1]
      exact hr.ringClosed
    | cons x t =>
      rw [(q_remove_head_heap hr sp bufsize).1]
      exact (@ring_list_del _ _ _ [] _ hr).ringClosed
  · intro _
    rcases List.eq_nil_or_concat xs with rfl | ⟨A, z, rfl⟩
    · rw [(q_remove_tail_empty hr sp bufsize).1]
      exact hr.ringClosed
    · have hr2 : Ring h head (A ++ [z]) := by simpa using hr
      rw [(q_remove_tail_heap hr2 sp bufsize).1]
      exact (ring_list_del hr2).ringClosed
  · by_cases he : xs = []
    · subst he
      refine ⟨(h, false), ?_, hr.ringClosed⟩
      unfold q_delete_mid
      rw [if_pos (Or.inr ((hr.empty_iff).2 rfl))]
    · obtain ⟨h1, hrun, hring⟩ := q_delete_mid_ring hr he (by omega : xs.length < fuel)
      exact ⟨(h1, true), hrun, hring.ringClosed⟩
  · obtain ⟨h1, hrun, hring, _⟩ := q_delete_dup_ring hr (by omega : xs.length < fuel)
    exact ⟨(h1, true), hrun, hring.ringClosed⟩
  · obtain ⟨h1, hrun, hring, _⟩ := q_swap_ring hr (by omega : xs.length < fuel)
    exact ⟨h1, hrun, hring.ringClosed⟩
  · exact ⟨_, q_reverse_eq hr (by omega : xs.length < fuel), (ring_swapOn hr).ringClosed⟩
  · obtain ⟨h1, hrun, hring, _⟩ := q_sort_ring hr hf
    exact ⟨h1, hrun, hring.ringClosed⟩

theorem ring_closure_kept_witness :
    Ring demo 1 [2, 3, 4] ∧ ((5 : Ptr) ≠ 0 → demo.live 5 = false) ∧
    (∀ p ∈ [2, 3, 4], demo.value p ≠ none) ∧ [2, 3, 4].length ≤ INT_MAX ∧
    [2, 3, 4].length + 1 < 9 ∧
    (∀ x, [2, 3, 4].head? = some x → CopyFits demo x true 8) ∧
    (∀ x, [2, 3, 4].getLast? = some x → CopyFits demo x true 8) ∧
    Closed demo (1 :: [2, 3, 4]) ∧
    RingClosed (q_insert_head demo 1 [98] 5 true).1 1 ∧
    RingClosed (q_insert_tail demo 1 [98] 5 true).1 1 ∧
    RingClosed (q_remove_head demo 1 true 8).heap 1 ∧
    RingClosed (q_remove_tail demo 1 true 8).heap 1 ∧
    (∃ r, q_delete_mid 9 demo 1 = some r ∧ RingClosed r.1 1) ∧
    (∃ r, q_delete_dup 9 demo 1 = some r ∧ RingClosed r.1 1) ∧
    (∃ h1, q_swap 9 demo 1 = some h1 ∧ RingClosed h1 1) ∧
    (∃ h1, q_reverse 9 demo 1 = some h1 ∧ RingClosed h1 1) ∧
    (∃ h1, q_sort 9 demo 1 = some h1 ∧ RingClosed h1 1) := by
  have hH : ∀ x, [2, 3, 4].head? = some x → CopyFits demo x true 8 := by
    intro x hx
    simp only [List.head?_cons, Option.some.injEq] at hx
    subst hx
    decide
  have hT : ∀ x, [2, 3, 4].getLast? = some x → CopyFits demo x true 8 := by
    intro x hx
    have e : ([2, 3, 4] : List Ptr).getLast? = some 4 := rfl
    rw [e, Option.some.injEq] at hx
    subst hx
    decide
  have key := ring_closure_kept demo 1 [2, 3, 4] [98] 5 true true 8 9 demo_ring (by decide)
    (by decide) (by decide) (by decide)
  exact ⟨demo_ring, by decide, by decide, by decide, by decide, hH, hT, key.1, key.2.1,
    key.2.2.1, key.2.2.2.1 hH, key.2.2.2.2.1 hT, key.2.2.2.2.2⟩

theorem seg_nodup_of_closed {nx pv : Ptr → Ptr} {b : Ptr} :
    ∀ (l : List Ptr) (p : Ptr), Seg nx (nx p) l b → p ∉ l →
      (∀ n ∈ p :: l, pv (nx n) = n) → l.Nodup := by
  intro l
  induction l with
  | nil => intro _ _ _ _; exact List.nodup_nil
  | cons x l ih =>
    intro p hs hp hc
    simp only [seg_cons] at hs
    obtain ⟨hpx, hs⟩ := hs
    have hxl : x ∉ l := by
      intro hx
      obtain ⟨m1, m2, rfl⟩ := List.append_of_mem hx
      have hs2 : Seg nx x (x :: (m1 ++ x :: m2)) b := ⟨rfl, hs⟩
      have hs3 : Seg nx x ((x :: m1) ++ x :: m2) b := by simpa using hs2
      -- the node in front of the second occurrence of `x`
      rcases List.eq_nil_or_concat (x :: m1) with e | ⟨A, q, e⟩
      · cases e
      · rw [e, List.concat_eq_append, List.append_assoc, seg_append] at hs3
        obtain ⟨_, _, hs4⟩ := hs3
        simp only [List.singleton_append, seg_cons] at hs4
        have hq : nx q = x := hs4.2.1
        have hqmem : q ∈ x :: m1 := by
          rw [e]
          simp
        have h1 : pv (nx q) = q := hc q (by
          simp only [List.mem_cons, List.mem_append] at hqmem ⊢
          tauto)
        have h2 : pv (nx p) = p := hc p (by simp)
        rw [hq] at h1
        rw [hpx] at h2
        apply hp
        rw [← h2, h1]
        simp only [List.mem_cons, List.mem_append] at hqmem ⊢
        tauto
    rw [List.nodup_cons]
    exact ⟨hxl, ih x hs hxl (fun n hn => hc n (List.mem_cons_of_mem _ hn))⟩

theorem seg_back_of_closed {nx pv : Ptr → Ptr} {b : Ptr} :
    ∀ (l : List Ptr) (p : Ptr), Seg nx (nx p) l b → (∀ n ∈ p :: l, pv (nx n) = n) →
      Seg pv (pv b) l.reverse p := by
  intro l
  induction l with
  | nil =>
    intro p hs hc
    simp only [seg_nil] at hs
    simp only [List.reverse_nil, seg_nil]
    rw [← hs]
    exact hc p (by simp)
  | cons x l ih =>
    intro p hs hc
    simp only [seg_cons] at hs
    obtain ⟨hpx, hs⟩ := hs
    rw [seg_reverse_cons]
    refine ⟨ih x hs (fun n hn => hc n (List.mem_cons_of_mem _ hn)), ?_⟩
    rw [← hpx]
    exact hc p (by simp)

/-- The well-formed queues are the heaps in which following `next` from the
sentinel leads through allocated non-null nodes back to the sentinel and
`n.next.prev == n` holds at each of these nodes. -/
theorem ring_iff_closed (h : Heap) (head : Ptr) (xs : List Ptr) :
    Ring h head xs ↔
      head ≠ 0 ∧ 0 ∉ xs ∧ head ∉ xs ∧ Seg h.next (h.next head) xs head ∧
      (∀ n ∈ head :: xs, h.prev (h.next n) = n) ∧ (∀ p ∈ head :: xs, h.live p = true) := by
  constructor
  · intro hr
    exact ⟨hr.head_ne, hr.nonnull, hr.head_not_mem, hr.fwd, hr.prev_next, hr.alive⟩
  · rintro ⟨h0, hz, hh, hfw, hc, hl⟩
    refine ⟨h0, ?_, hz, hfw, seg_back_of_closed xs head hfw hc, hl⟩
    rw [List.nodup_cons]
    exact ⟨hh, seg_nodup_of_closed xs head hfw hh hc⟩

/-! ## Sorting twice, and what sorting keeps -/

theorem le_congr {h k : Heap} (hv : k.value = h.value) : k.le = h.le := by
  funext a b
  unfold Heap.le
  rw [valueOf_congr hv]

theorem sorted_nodes_of_values {h : Heap} {xs : List Ptr}
    (hs : (h.values xs).Pairwise (fun a b => strcmp a b ≤ 0)) :
    xs.Pairwise (fun a b => h.le a b = true) := by
  unfold Heap.values at hs
  rw [List.pairwise_map] at hs
  refine hs.imp ?_
  intro a b hab
  simpa [Heap.le] using hab

/-- C17: sorting is idempotent.  On a well-formed queue whose elements all
hold a value: if the values are already in ascending order, `q_sort` leaves
the elements in the order they had, so the sequence of values is identical;
and on any such queue, a second `q_sort` leaves the order and the values that
the first one produced. -/
theorem q_sort_idempotent (h : Heap) (head : Ptr) (xs : List Ptr) (fuel : Nat)
    (hr : Ring h head xs) (_hv : ∀ p ∈ xs, h.value p ≠ none) (hf : xs.length + 1 < fuel) :
    ((h.values xs).Pairwise (fun a b => strcmp a b ≤ 0) →
      ∃ h1, q_sort fuel h head = some h1 ∧ Ring h1 head xs ∧ h1.values xs = h.values xs) ∧
    (∃ h1 h2 ys, q_sort fuel h head = some h1 ∧ Ring h1 head ys ∧
      q_sort fuel h1 head = some h2 ∧ Ring h2 head ys ∧ h2.values ys = h1.values ys) := by
  obtain ⟨h1, hrun, hring, hv, _⟩ := q_sort_ring hr hf
  constructor
  · intro hs
    rw [List.mergeSort_of_sorted (sorted_nodes_of_values hs)] at hring
    refine ⟨h1, hrun, hring, ?_⟩
    unfold Heap.values
    rw [valueOf_congr hv]
  · have hlen : (xs.mergeSort h.le).length + 1 < fuel := by
      rw [List.length_mergeSort]
      exact hf
    obtain ⟨h2, hrun2, hring2, hv2, _⟩ := q_sort_ring hring hlen
    have hsorted : (xs.mergeSort h.le).Pairwise (fun a b => h1.le a b = true) := by
      rw [le_congr hv]
      exact List.sorted_mergeSort (le_trans_of_heap h) (le_total_of_heap h) xs
    rw [List.mergeSort_of_sorted hsorted] at hring2
    refine ⟨h1, h2, xs.mergeSort h.le, hrun, hring, hrun2, hring2, ?_⟩
    unfold Heap.values
    rw [valueOf_congr hv2]

theorem q_sort_idempotent_witness :
    Ring (ringUpTo 6 dupValues) 7 [1, 2, 3, 4, 5, 6] ∧
    (∀ p ∈ [1, 2, 3, 4, 5, 6], (ringUpTo 6 dupValues).value p ≠ none) ∧
    [1, 2, 3, 4, 5, 6].length + 1 < 9 ∧
    ((ringUpTo 6 dupValues).values [1, 2, 3, 4, 5, 6]).Pairwise (fun a b => strcmp a b ≤ 0) ∧
    (∃ h1, q_sort 9 (ringUpTo 6 dupValues) 7 = some h1 ∧ Ring h1 7 [1, 2, 3, 4, 5, 6] ∧
      h1.values [1, 2, 3, 4, 5, 6] = (ringUpTo 6 dupValues).values [1, 2, 3, 4, 5, 6]) ∧
    (∃ h1 h2 ys, q_sort 9 (ringUpTo 6 dupValues) 7 = some h1 ∧ Ring h1 7 ys ∧
      q_sort 9 h1 7 = some h2 ∧ Ring h2 7 ys ∧ h2.values ys = h1.values ys) :=
  ⟨by decide, by decide, by decide, by decide,
    (q_sort_idempotent (ringUpTo 6 dupValues) 7 [1, 2, 3, 4, 5, 6] 9 (by decide) (by decide)
      (by decide)).1 (by decide),
    (q_sort_idempotent (ringUpTo 6 dupValues) 7 [1, 2, 3, 4, 5, 6] 9 (by decide) (by decide)
      (by decide)).2⟩

/-- C18: `q_sort` keeps the elements.  On a well-formed queue whose elements
all hold a value, the queue after `q_sort` holds a permutation of the nodes it
held before (none lost, none twice), no value is changed, so the values are
the same with the same multiplicities, and `q_size` is unchanged. -/
theorem q_sort_perm (h : Heap) (head : Ptr) (xs : List Ptr) (fuel : Nat)
    (hr : Ring h head xs) (_hv : ∀ p ∈ xs, h.value p ≠ none) (_hint : xs.length ≤ INT_MAX)
    (hf : xs.length + 1 < fuel) :
    ∃ h1 ys, q_sort fuel h head = some h1 ∧ Ring h1 head ys ∧ ys.Perm xs ∧ ys.Nodup ∧
      h1.value = h.value ∧ (h1.values ys).Perm (h.values xs) ∧
      q_size fuel h head = some xs.length ∧ q_size fuel h1 head = some xs.length := by
  obtain ⟨h1, hrun, hring, hv, _⟩ := q_sort_ring hr hf
  have hperm : (xs.mergeSort h.le).Perm xs := List.mergeSort_perm _ _
  refine ⟨h1, xs.mergeSort h.le, hrun, hring, hperm, hring.nodup_elems, hv, ?_,
    q_size_ring hr (by omega), ?_⟩
  · unfold Heap.values
    rw [valueOf_congr hv]
    exact hperm.map _
  · rw [q_size_ring hring (by rw [List.length_mergeSort]; omega), List.length_mergeSort]

theorem q_sort_perm_witness :
    Ring demo 1 [2, 3, 4] ∧ (∀ p ∈ [2, 3, 4], demo.value p ≠ none) ∧
    [2, 3, 4].length ≤ INT_MAX ∧ [2, 3, 4].length + 1 < 9 ∧
    ∃ h1 ys, q_sort 9 demo 1 = some h1 ∧ Ring h1 1 ys ∧ ys.Perm [2, 3, 4] ∧ ys.Nodup ∧
      h1.value = demo.value ∧ (h1.values ys).Perm (demo.values [2, 3, 4]) ∧
      q_size 9 demo 1 = some [2, 3, 4].length ∧ q_size 9 h1 1 = some [2, 3, 4].length :=
  ⟨demo_ring, by decide, by decide, by decide,
    q_sort_perm demo 1 [2, 3, 4] 9 demo_ring (by decide) (by decide) (by decide)⟩

/-! ## Deleting duplicates from any queue -/

theorem snoc_cons_iff (v : Ptr → Str) (x y : Ptr) (l : List Ptr) :
    (∀ l0 z, y :: l = l0 ++ [z] → v z ≠ v x) ↔
      (l = [] → v y ≠ v x) ∧ (∀ l0 z, l = l0 ++ [z] → v z ≠ v x) := by
  constructor
  · intro hall
    refine ⟨fun e => hall [] y (by simp [e]), fun l0 z e => hall (y :: l0) z (by simp [e])⟩
  · rintro ⟨h1, h2⟩ l0 z e
    cases l0 with
    | nil =>
      simp only [List.nil_append, List.cons.injEq] at e
      obtain ⟨rfl, rfl⟩ := e
      exact h1 rfl
    | cons a l0 =>
      simp only [List.cons_append, List.cons.injEq] at e
      exact h2 l0 z e.2

/-- Which elements `keepLonely` keeps: those whose value differs from the
value in front of them and from the value behind them. -/
theorem mem_keepLonely (v : Ptr → Str) :
    ∀ (l1 : List Ptr) (p : Option Str) (x : Ptr) (l2 : List Ptr), (l1 ++ x :: l2).Nodup →
      (x ∈ keepLonely v p (l1 ++ x :: l2) ↔
        ((l1 = [] → p ≠ some (v x)) ∧ (∀ l0 y, l1 = l0 ++ [y] → v y ≠ v x)) ∧
        (∀ z l3, l2 = z :: l3 → v z ≠ v x)) := by
  intro l1
  induction l1 with
  | nil =>
    intro p x l2 hnd
    simp only [List.nil_append, List.nodup_cons] at hnd
    have hxK : x ∉ keepLonely v (some (v x)) l2 :=
      fun e => hnd.1 ((keepLonely_sublist v l2 _).subset e)
    have hsucc : (l2.head?.map v = some (v x)) ↔ ¬ (∀ z l3, l2 = z :: l3 → v z ≠ v x) := by
      cases l2 with
      | nil => simp
      | cons z l3 => simp
    simp only [List.nil_append, keepLonely]
    by_cases hc : p = some (v x) ∨ l2.head?.map v = some (v x)
    · rw [if_pos hc]
      constructor
      · intro e
        exact absurd e hxK
      · rintro ⟨⟨hp, _⟩, hs⟩
        rcases hc with e | e
        · exact absurd e (hp trivial)
        · exact absurd hs (hsucc.1 e)
    · rw [if_neg hc]
      simp only [not_or] at hc
      constructor
      · intro _
        refine ⟨⟨fun _ => hc.1, ?_⟩, ?_⟩
        · intro l0 y e
          simp at e
        · by_contra hn
          exact hc.2 (hsucc.2 hn)
      · intro _
        simp
  | cons y l1 ih =>
    intro p x l2 hnd
    simp only [List.cons_append, List.nodup_cons, List.mem_append, List.mem_cons, not_or] at hnd
    obtain ⟨⟨_, hyx, _⟩, hnd2⟩ := hnd
    have hstep : x ∈ keepLonely v p (y :: (l1 ++ x :: l2))
        ↔ x ∈ keepLonely v (some (v y)) (l1 ++ x :: l2) := by
      simp only [keepLonely]
      split_ifs
      · rfl
      · simp only [List.mem_cons]
        constructor
        · rintro (e | e)
          · exact absurd e.symm hyx
          · exact e
        · exact fun e => Or.inr e
    rw [List.cons_append, hstep, ih (some (v y)) x l2 hnd2, snoc_cons_iff]
    simp only [ne_eq, Option.some.injEq, reduceCtorEq, false_implies, true_and]

/-- C19: on any well-formed queue whose elements all hold a value, sorted or
not, `q_delete_dup` ends and returns true, and the queue afterwards holds, in
their original order and with their values, exactly the elements whose value
differs from the value of the element in front of them and from the value of
the element behind them in the original queue (where there is one): every run
of two or more equal values goes, every run of one stays. -/
theorem q_delete_dup_runs (h : Heap) (head : Ptr) (xs : List Ptr) (fuel : Nat)
    (hr : Ring h head xs) (_hv : ∀ p ∈ xs, h.value p ≠ none) (hf : xs.length < fuel) :
    ∃ h1, q_delete_dup fuel h head = some (h1, true) ∧
      Ring h1 head (keepLonely h.valueOf none xs) ∧
      (keepLonely h.valueOf none xs).Sublist xs ∧
      (∀ q ∈ keepLonely h.valueOf none xs, h1.value q = h.value q) ∧
      ∀ l1 x l2, xs = l1 ++ x :: l2 →
        (x ∈ keepLonely h.valueOf none xs ↔
          (∀ l0 y, l1 = l0 ++ [y] → h.valueOf y ≠ h.valueOf x) ∧
          (∀ z l3, l2 = z :: l3 → h.valueOf z ≠ h.valueOf x)) := by
  obtain ⟨h1, hrun, hring, hval⟩ := q_delete_dup_ring hr hf
  refine ⟨h1, hrun, hring, keepLonely_sublist _ _ _, hval, ?_⟩
  intro l1 x l2 hx
  subst hx
  rw [mem_keepLonely h.valueOf l1 none x l2 hr.nodup_elems]
  simp

theorem q_delete_dup_runs_witness :
    Ring (ringUpTo 4 abbaValues) 5 [1, 2, 3, 4] ∧
    (∀ p ∈ [1, 2, 3, 4], (ringUpTo 4 abbaValues).value p ≠ none) ∧ [1, 2, 3, 4].length < 9 ∧
    ∃ h1, q_delete_dup 9 (ringUpTo 4 abbaValues) 5 = some (h1, true) ∧
      Ring h1 5 [1, 4] ∧
      [1, 4].Sublist [1, 2, 3, 4] ∧
      (∀ q ∈ [1, 4], h1.value q = (ringUpTo 4 abbaValues).value q) ∧
      ∀ l1 x l2, [1, 2, 3, 4] = l1 ++ x :: l2 →
        (x ∈ [1, 4] ↔
          (∀ l0 y, l1 = l0 ++ [y] →
            (ringUpTo 4 abbaValues).valueOf y ≠ (ringUpTo 4 abbaValues).valueOf x) ∧
          (∀ z l3, l2 = z :: l3 →
            (ringUpTo 4 abbaValues).valueOf z ≠ (ringUpTo 4 abbaValues).valueOf x)) :=
  ⟨by decide, by decide, by decide,
    q_delete_dup_runs (ringUpTo 4 abbaValues) 5 [1, 2, 3, 4] 9 (by decide) (by decide)
      (by decide)⟩

/-! ## Swapping twice -/

theorem swapPairs_swapPairs : ∀ l : List Ptr, swapPairs (swapPairs l) = l
  | [] => rfl
  | [_] => rfl
  | a :: b :: l => by
    simp only [swapPairs]
    rw [swapPairs_swapPairs l]

theorem length_swapPairs : ∀ l : List Ptr, (swapPairs l).length = l.length
  | [] => rfl
  | [_] => rfl
  | a :: b :: l => by
    simp only [swapPairs, List.length_cons]
    rw [length_swapPairs l]

/-- C20: `q_swap` is an involution.  On a well-formed queue of any length,
`q_swap` keeps the number of elements (also as `q_size` counts them), and
applying it a second time gives back the queue holding its elements in the
original order, with their values. -/
theorem q_swap_involution (h : Heap) (head : Ptr) (xs : List Ptr) (fuel : Nat)
    (hr : Ring h head xs) (_hint : xs.length ≤ INT_MAX) (hf : xs.length < fuel) :
    ∃ h1 h2, q_swap fuel h head = some h1 ∧ Ring h1 head (swapPairs xs) ∧
      (swapPairs xs).length = xs.length ∧
      q_size fuel h head = some xs.length ∧ q_size fuel h1 head = some xs.length ∧
      q_swap fuel h1 head = some h2 ∧ Ring h2 head xs ∧ h2.value = h.value := by
  obtain ⟨h1, hrun, hring, hv, _⟩ := q_swap_ring hr hf
  obtain ⟨h2, hrun2, hring2, hv2, _⟩ := q_swap_ring hring (by rw [length_swapPairs]; exact hf)
  rw [swapPairs_swapPairs] at hring2
  refine ⟨h1, h2, hrun, hring, length_swapPairs xs, q_size_ring hr hf, ?_, hrun2, hring2, ?_⟩
  · rw [q_size_ring hring (by rw [length_swapPairs]; exact hf), length_swapPairs]
  · rw [hv2, hv]

theorem q_swap_involution_witness :
    Ring (ringUpTo 5 (fun _ => none)) 6 [1, 2, 3, 4, 5] ∧ [1, 2, 3, 4, 5].length ≤ INT_MAX ∧
    [1, 2, 3, 4, 5].length < 9 ∧
    ∃ h1 h2, q_swap 9 (ringUpTo 5 (fun _ => none)) 6 = some h1 ∧ Ring h1 6 [2, 1, 4, 3, 5] ∧
      [2, 1, 4, 3, 5].length = [1, 2, 3, 4, 5].length ∧
      q_size 9 (ringUpTo 5 (fun _ => none)) 6 = some [1, 2, 3, 4, 5].length ∧
      q_size 9 h1 6 = some [1, 2, 3, 4, 5].length ∧
      q_swap 9 h1 6 = some h2 ∧ Ring h2 6 [1, 2, 3, 4, 5] ∧
      h2.value = (ringUpTo 5 (fun _ => none)).value :=
  ⟨by decide, by decide, by decide,
    q_swap_involution (ringUpTo 5 (fun _ => none)) 6 [1, 2, 3, 4, 5] 9 (by decide) (by decide)
      (by decide)⟩

end Queue
